import Mathlib

/-!
# ArrayMap (`package arrmap`, `array_map.go`)

A shallow embedding of the fixed-size, append-only hash map of `array_map.go`
and a verification development about it.

Modelling conventions.

* Go `int` is a 64-bit two's-complement integer: values are `Int`, and the
  one multiplication that can overflow (`capacity*capacityFactor`) is wrapped
  with `wrapInt64`.  `atomic.Int32` holds an `Int` wrapped with `wrapInt32`.
  `uint32` values are `Nat`, reduced modulo `2^32` where they are produced.
* A Go `string` is its sequence of bytes, `List (Fin 256)`.
* `*tuple[K, V]` is a pointer that is either `nil` or the address of a node
  holding `key`, `val` and `next`.  Nodes are only ever created by `Set`, which
  links a new node in front of a chain, so chains are finite, acyclic and
  unshared; the pointer type is embedded as the inductive type `tuple`.
* Run-time panics are results of type `Failure`; every operation that can
  panic returns `Except Failure _`.
* The operations are embedded as called from a single goroutine.  A `Lock` on
  a mutex that is already held would block that goroutine for ever; this is
  reported as `Failure.deadlock`.  Calls of `Set` from several goroutines are
  embedded separately, as interleavings of the two parts of `Set` (the part
  that takes no mutex and the part that holds the mutex of the bucket).
* `make([]T, len)` panics, as Go's `makeslice` does, when `len` is negative or
  when `len` times the size of `T` exceeds the allocation limit `maxAlloc` of
  the run time (`2^48` bytes on the 64-bit platforms); the two element types of
  this program, `*tuple[K, V]` and `sync.Mutex`, both take 8 bytes.  Below that
  limit `make` returns: running out of the memory of a particular machine is
  not a panic of the program and is not part of the model.
* The keys have a type `K comparable`, and the program compares them with Go's
  `==`.  That operator is embedded as the function `Comparable.eq` of the key
  type.  It need not be reflexive (a floating-point NaN is not `==` to itself)
  and need not distinguish different values (`+0.0 == -0.0`); nothing is
  assumed about it in the definitions, and the theorems name the properties of
  it that they use.  Key types whose `==` can panic (an interface type that
  holds values of a type that is not comparable) are not embedded.
* A hasher is a Go function value `func(K) uint32`; it is embedded as a pure
  function `K → Nat` whose result is reduced modulo `2^32`, and a nil function
  value is `none`.
* A Go `map[K]V` is embedded as an association list (`GoMap`) in which no two
  keys are `==`: an assignment overwrites the entry whose key is `==` to the
  new key, and adds an entry when there is none (so every assignment of a NaN
  key adds an entry, as in Go).  A `range` loop over a map visits its pairs in
  some order, and `MSet` takes the pairs in the order in which the loop visits
  them.
-/

set_option linter.unusedSectionVars false

namespace ArrMap

/-! ## Machine integers and run-time failures -/

/-- Run-time failures of the Go program. -/
inductive Failure where
  /-- Failure `invalidCapacity` is `panic("invalid capacity")`. -/
  | invalidCapacity
  /-- Failure `makesliceLen` is the panic of `make`, "len out of range". -/
  | makesliceLen
  /-- Failure `divideByZero` is the panic of `%` on a zero divisor. -/
  | divideByZero
  /-- Failure `indexOutOfRange` is the panic of `s[i]` outside `0 ≤ i < len(s)`. -/
  | indexOutOfRange
  /-- Failure `deadlock` is a `Lock` on a mutex that is never released. -/
  | deadlock
  deriving DecidableEq, Repr

/-- Two's-complement wrap-around of a 64-bit signed integer (Go `int`). -/
def wrapInt64 (z : Int) : Int := (z + 9223372036854775808) % 18446744073709551616 - 9223372036854775808

/-- Two's-complement wrap-around of a 32-bit signed integer (Go `int32`). -/
def wrapInt32 (z : Int) : Int := (z + 2147483648) % 4294967296 - 2147483648

/-- Number of values of a `uint32`. -/
def uint32Mod : Nat := 4294967296

/-- The integers that are values of a Go `int`. -/
def isInt (z : Int) : Prop := -9223372036854775808 ≤ z ∧ z ≤ 9223372036854775807

instance (z : Int) : Decidable (isInt z) :=
  inferInstanceAs (Decidable (-9223372036854775808 ≤ z ∧ z ≤ 9223372036854775807))

/-- Allocation limit `maxAlloc` of the Go run time on the 64-bit platforms, in
bytes. -/
def maxAlloc : Int := 281474976710656

/-- Size in bytes of a pointer `*tuple[K, V]`. -/
def sizeofPointer : Int := 8

/-- Size in bytes of a `sync.Mutex`. -/
def sizeofMutex : Int := 8

/-- Go slice expression `make([]T, len)` for an element type of `elemSize`
bytes: a slice of `len` zero values, or the panic of `makeslice` when `len` is
negative or `len * elemSize` exceeds `maxAlloc`. -/
def make {T : Type} (zero : T) (elemSize : Int) (len : Int) : Except Failure (List T) :=
  if len < 0 ∨ len * elemSize > maxAlloc then .error .makesliceLen
  else .ok (List.replicate len.toNat zero)

/-- Go index expression `s[i]` read, with its bounds check. -/
def index {T : Type} (s : List T) (i : Int) : Except Failure T :=
  if i < 0 then .error .indexOutOfRange
  else match s.get? i.toNat with
    | some x => .ok x
    | none => .error .indexOutOfRange

/-- Go assignment `s[i] = x`, with its bounds check. -/
def store {T : Type} (s : List T) (i : Int) (x : T) : Except Failure (List T) :=
  if i < 0 ∨ i ≥ (s.length : Int) then .error .indexOutOfRange
  else .ok (s.set i.toNat x)

/-! ## Data model -/

/-- A byte of a Go string. -/
abbrev Byte := Fin 256

/-- A Go `string`: its bytes. -/
abbrev GoString := List Byte

/-- Go `*tuple[K, V]`: `nil`, or a node with fields `key`, `val` and `next`. -/
inductive tuple (K V : Type) where
  | nil : tuple K V
  | node (key : K) (val : V) (next : tuple K V) : tuple K V
  deriving DecidableEq, Repr

/-- Go `sync.Mutex`, as seen from one goroutine: held or not. -/
structure Mutex where
  locked : Bool
  deriving DecidableEq, Repr

/-- Go `ArrayMap[K, V]`.  `size` is the value of the `atomic.Int32`;
`idxHasher` is `none` for a nil function value, and the hasher's `uint32`
result is the given number modulo `2^32`. -/
structure ArrayMap (K V : Type) where
  array : List (tuple K V)
  ls : List Mutex
  size : Int
  idxHasher : Option (K → Nat)

/-- Go constant `capacityFactor`. -/
def capacityFactor : Int := 5

/-- Go's `==` on a `comparable` key type. -/
class Comparable (K : Type) where
  /-- Go `a == b`. -/
  eq : K → K → Bool

/-- Go `==` on strings: the same bytes. -/
instance : Comparable GoString := ⟨fun a b => decide (a = b)⟩

/-- Go `==` on unsigned integers, embedded as natural numbers. -/
instance : Comparable Nat := ⟨fun a b => decide (a = b)⟩

/-- A Go `float64`: its 64 bits in the IEEE 754 binary64 format. -/
structure Float64 where
  bits : Nat
  deriving DecidableEq, Repr

/-- A `float64` is a NaN when its exponent bits are all ones and its fraction
bits are not all zero. -/
def Float64.isNaN (x : Float64) : Bool :=
  decide ((x.bits / 4503599627370496) % 2048 = 2047) && decide (x.bits % 4503599627370496 ≠ 0)

/-- A `float64` is a zero, `+0.0` or `-0.0`, when all bits but the sign bit are
zero. -/
def Float64.isZero (x : Float64) : Bool :=
  decide (x.bits % 9223372036854775808 = 0)

/-- Go `==` on `float64`: a NaN is `==` to nothing, the two zeros are `==`, and
two other values are `==` when they have the same bits. -/
instance : Comparable Float64 :=
  ⟨fun a b => !a.isNaN && !b.isNaN && (decide (a.bits = b.bits) || (a.isZero && b.isZero))⟩

/-- Go `math.NaN()`. -/
def Float64.NaN : Float64 := ⟨0x7FF8000000000001⟩

/-- Go `map[K]V`: an association list whose keys are pairwise not `==`. -/
abbrev GoMap (K V : Type) := List (K × V)

/-- Go `make(map[K]V)`. -/
def GoMap.empty {K V : Type} : GoMap K V := []

/-- Go map assignment `mp[k] = v`: the entry whose key is `==` to `k` gets the
key `k` and the value `v`; without such an entry a new one is added. -/
def GoMap.assign {K V : Type} [Comparable K] : GoMap K V → K → V → GoMap K V
  | [], k, v => [(k, v)]
  | (k1, v1) :: rest, k, v =>
    if Comparable.eq k1 k then (k, v) :: rest else (k1, v1) :: GoMap.assign rest k v

/-- Go map read `v, ok := mp[k]`, as an option. -/
def GoMap.lookup {K V : Type} [Comparable K] : GoMap K V → K → Option V
  | [], _ => none
  | (k1, v1) :: rest, k => if Comparable.eq k1 k then some v1 else GoMap.lookup rest k

/-- Go `len(mp)`. -/
def GoMap.len {K V : Type} (mp : GoMap K V) : Nat := mp.length

/-! ## The default hash -/

/-- Loop of `fnv32`: `remaining` iterations are left, the loop variable is `i`
and the accumulator is `hash`.  One iteration is `hash *= prime32` (a `uint32`
multiplication) followed by `hash ^= uint32(key[i])`. -/
def fnv32Loop (key : GoString) : (remaining : Nat) → (i : Nat) → (hash : Nat) → Nat
  | 0, _, hash => hash
  | remaining + 1, i, hash =>
    fnv32Loop key remaining (i + 1) (((hash * 16777619) % uint32Mod) ^^^ (key.getD i 0).val)

/-- Go `fnv32`. -/
def fnv32 (key : GoString) : Nat :=
  fnv32Loop key key.length 0 2166136261

/-! ## Constructors -/

/-- Go `NewArrayMap[T]`. -/
def NewArrayMap (T : Type) (capacity : Int) : Except Failure (ArrayMap GoString T) :=
  if capacity ≤ 0 then .error .invalidCapacity
  else
    match make (tuple.nil : tuple GoString T) sizeofPointer
        (wrapInt64 (capacity * capacityFactor)) with
    | .error e => .error e
    | .ok array =>
      match make (Mutex.mk false) sizeofMutex (wrapInt64 (capacity * capacityFactor)) with
      | .error e => .error e
      | .ok ls => .ok { array := array, ls := ls, size := 0, idxHasher := some fnv32 }

/-- Go `NewArrayMapWithHasher[K, V]`. -/
def NewArrayMapWithHasher {K : Type} (V : Type) (capacity : Int) (hasher : Option (K → Nat)) :
    Except Failure (ArrayMap K V) :=
  if capacity ≤ 0 then .error .invalidCapacity
  else
    match make (tuple.nil : tuple K V) sizeofPointer
        (wrapInt64 (capacity * capacityFactor)) with
    | .error e => .error e
    | .ok array =>
      match make (Mutex.mk false) sizeofMutex (wrapInt64 (capacity * capacityFactor)) with
      | .error e => .error e
      | .ok ls => .ok { array := array, ls := ls, size := 0, idxHasher := hasher }

/-! ## Operations -/

section Operations

variable {K V : Type} [Comparable K]

/-- Go `(*ArrayMap).getIdx`.  `int(h(key))` is the `uint32` result of the
hasher, non-negative in a 64-bit `int`; `%` is Go's truncated remainder. -/
def ArrayMap.getIdx (m : ArrayMap K V) (key : K) : Except Failure Int :=
  match m.idxHasher with
  | some h =>
    if m.array.length = 0 then .error .divideByZero
    else .ok (Int.tmod ((h key % uint32Mod : Nat) : Int) (m.array.length : Int))
  | none => .ok (-1)

/-- Loop `for t != nil` of `Get`: the value of the first node with
`t.key == key`, or the zero value and `false`. -/
def tuple.getLoop [Inhabited V] (key : K) : tuple K V → V × Bool
  | .nil => (default, false)
  | .node k v next => if Comparable.eq k key then (v, true) else tuple.getLoop key next

/-- Go `(*ArrayMap).Get`.  The test `t == nil` in front of the loop returns what
the loop returns on an empty chain, the zero value and `false`. -/
def ArrayMap.Get [Inhabited V] (m : ArrayMap K V) (key : K) : Except Failure (V × Bool) :=
  match m.getIdx key with
  | .error e => .error e
  | .ok idx =>
    if idx < 0 ∨ idx ≥ (m.array.length : Int) then .ok (default, false)
    else
      match index m.array idx with
      | .error e => .error e
      | .ok t => .ok (tuple.getLoop key t)

/-- Loop `for t != nil` of `Set`: `some` chain with the value of the first
node with `t.key == key` overwritten, or `none` when the loop runs off the end
of the chain. -/
def tuple.setLoop (key : K) (val : V) : tuple K V → Option (tuple K V)
  | .nil => none
  | .node k v next =>
    if Comparable.eq k key then some (.node k val next)
    else
      match tuple.setLoop key val next with
      | some next1 => some (.node k v next1)
      | none => none

/-- Go `(*ArrayMap).Set`. -/
def ArrayMap.Set (m : ArrayMap K V) (key : K) (val : V) : Except Failure (ArrayMap K V) :=
  match m.getIdx key with
  | .error e => .error e
  | .ok idx =>
    if idx < 0 ∨ idx ≥ (m.array.length : Int) then .ok m
    else
      match index m.array idx with
      | .error e => .error e
      | .ok t =>
        match tuple.setLoop key val t with
        | some t1 =>
          -- update: `t.val = val` writes the field of the node found, which is
          -- reached from `m.array[idx]`; the chain of that bucket is now `t1`
          .ok { m with array := m.array.set idx.toNat t1 }
        | none =>
          -- insert: `m.ls[idx].Lock()`
          match index m.ls idx with
          | .error e => .error e
          | .ok mu =>
            if mu.locked then .error .deadlock
            else
              match store m.ls idx (Mutex.mk true) with
              | .error e => .error e
              | .ok ls1 =>
                -- `m.size.Add(1)`
                let size1 := wrapInt32 (m.size + 1)
                -- `t = m.array[idx]`
                match index m.array idx with
                | .error e => .error e
                | .ok t2 =>
                  -- `m.array[idx] = newT`
                  match store m.array idx (tuple.node key val t2) with
                  | .error e => .error e
                  | .ok array1 =>
                    -- deferred `m.ls[idx].Unlock()`
                    match store ls1 idx (Mutex.mk false) with
                    | .error e => .error e
                    | .ok ls2 =>
                      .ok { array := array1, ls := ls2, size := size1, idxHasher := m.idxHasher }

/-- Go `(*ArrayMap).MSet`; `data` lists the pairs of the map in the order in
which the `range` loop visits them. -/
def ArrayMap.MSet (m : ArrayMap K V) : (data : List (K × V)) → Except Failure (ArrayMap K V)
  | [] => .ok m
  | (k, v) :: rest =>
    match m.Set k v with
    | .error e => .error e
    | .ok m1 => ArrayMap.MSet m1 rest

/-- Go `(*ArrayMap).Count`: `int(m.size.Load())`. -/
def ArrayMap.Count (m : ArrayMap K V) : Int := m.size

/-- Go `(*ArrayMap).Has`. -/
def ArrayMap.Has [Inhabited V] (m : ArrayMap K V) (key : K) : Except Failure Bool :=
  match m.Get key with
  | .error e => .error e
  | .ok (_, ok) => .ok ok

/-- Go `(*ArrayMap).IsEmpty`. -/
def ArrayMap.IsEmpty (m : ArrayMap K V) : Bool := decide (m.Count = 0)

/-- Inner loop `for item != nil` of `Items`. -/
def tuple.itemsLoop : tuple K V → GoMap K V → GoMap K V
  | .nil, tmp => tmp
  | .node k v next, tmp => tuple.itemsLoop next (GoMap.assign tmp k v)

/-- Go `(*ArrayMap).Items`. -/
def ArrayMap.Items (m : ArrayMap K V) : GoMap K V :=
  m.array.foldl (fun tmp item => tuple.itemsLoop item tmp) GoMap.empty

/-! ## Goroutines

`Set` runs in two parts.  The first part, `getIdx`, the bound check and the
loop over the chain, takes no mutex.  The second part runs from
`m.ls[idx].Lock()` to the deferred `Unlock`; the mutex of the bucket makes the
second parts on one bucket exclude each other, and the second parts on
different buckets write different slots and add to the counter atomically, so
a second part is one step.  The steps of the goroutines interleave in any
order. -/

/-- How the part of `Set` in front of `m.ls[idx].Lock()` ends. -/
inductive Scan (K V : Type) where
  /-- The call has returned, on an index out of range or after `t.val = val`,
  and leaves the state `m`. -/
  | returned (m : ArrayMap K V) : Scan K V
  /-- The loop ran off the end of the chain of bucket `idx`. -/
  | missed (idx : Int) : Scan K V

/-- The part of `Set` in front of `m.ls[idx].Lock()`. -/
def ArrayMap.setScan (m : ArrayMap K V) (key : K) (val : V) : Except Failure (Scan K V) :=
  match m.getIdx key with
  | .error e => .error e
  | .ok idx =>
    if idx < 0 ∨ idx ≥ (m.array.length : Int) then .ok (.returned m)
    else
      match index m.array idx with
      | .error e => .error e
      | .ok t =>
        match tuple.setLoop key val t with
        | some t1 => .ok (.returned { m with array := m.array.set idx.toNat t1 })
        | none => .ok (.missed idx)

/-- The part of `Set` from `m.ls[idx].Lock()` to the deferred `Unlock`. -/
def ArrayMap.setLocked (m : ArrayMap K V) (idx : Int) (key : K) (val : V) :
    Except Failure (ArrayMap K V) :=
  match index m.ls idx with
  | .error e => .error e
  | .ok mu =>
    if mu.locked then .error .deadlock
    else
      match store m.ls idx (Mutex.mk true) with
      | .error e => .error e
      | .ok ls1 =>
        let size1 := wrapInt32 (m.size + 1)
        match index m.array idx with
        | .error e => .error e
        | .ok t2 =>
          match store m.array idx (tuple.node key val t2) with
          | .error e => .error e
          | .ok array1 =>
            match store ls1 idx (Mutex.mk false) with
            | .error e => .error e
            | .ok ls2 =>
              .ok { array := array1, ls := ls2, size := size1, idxHasher := m.idxHasher }

/-- Where a goroutine that calls `Set(key, val)` stands. -/
inductive Goroutine (K V : Type) where
  /-- The goroutine has called `Set(key, val)` and has not run the loop. -/
  | called (key : K) (val : V) : Goroutine K V
  /-- The loop has run off the end of the chain of bucket `idx`; next is
  `m.ls[idx].Lock()`. -/
  | waiting (idx : Int) (key : K) (val : V) : Goroutine K V
  /-- The call has returned. -/
  | returned : Goroutine K V
  deriving DecidableEq

/-- The next step of one goroutine on the shared map. -/
def ArrayMap.stepGoroutine (m : ArrayMap K V) :
    Goroutine K V → Except Failure (ArrayMap K V × Goroutine K V)
  | .called key val =>
    match m.setScan key val with
    | .error e => .error e
    | .ok (.returned m1) => .ok (m1, .returned)
    | .ok (.missed idx) => .ok (m, .waiting idx key val)
  | .waiting idx key val =>
    match m.setLocked idx key val with
    | .error e => .error e
    | .ok m1 => .ok (m1, .returned)
  | .returned => .ok (m, .returned)

/-- A shared map and the goroutines that call `Set` on it. -/
structure Shared (K V : Type) where
  m : ArrayMap K V
  gs : List (Goroutine K V)

/-- Goroutine number `i` takes its next step. -/
def Shared.step (s : Shared K V) (i : Nat) : Except Failure (Shared K V) :=
  match s.gs.get? i with
  | none => .ok s
  | some g =>
    match s.m.stepGoroutine g with
    | .error e => .error e
    | .ok (m1, g1) => .ok { m := m1, gs := s.gs.set i g1 }

/-- The goroutines take their steps in the order of `order`. -/
def Shared.interleave (s : Shared K V) : (order : List Nat) → Except Failure (Shared K V)
  | [] => .ok s
  | i :: rest =>
    match s.step i with
    | .error e => .error e
    | .ok s1 => Shared.interleave s1 rest

/-! ## Call sequences -/

/-- One call of a writing method. -/
inductive Call (K V : Type) where
  | set (key : K) (val : V) : Call K V
  | mset (data : List (K × V)) : Call K V

/-- Runs one call. -/
def ArrayMap.call (m : ArrayMap K V) : Call K V → Except Failure (ArrayMap K V)
  | .set key val => m.Set key val
  | .mset data => m.MSet data

/-- Runs a sequence of calls from one goroutine, first call first. -/
def ArrayMap.run (m : ArrayMap K V) : List (Call K V) → Except Failure (ArrayMap K V)
  | [] => .ok m
  | c :: rest =>
    match m.call c with
    | .error e => .error e
    | .ok m1 => ArrayMap.run m1 rest

/-- The sequence of calls `Set(k, v)` for the pairs of `ps`, in order. -/
def setCalls (ps : List (K × V)) : List (Call K V) :=
  ps.map (fun p => Call.set p.1 p.2)

/-- The `(key, value)` pairs a call passes to `Set`, in order. -/
def Call.pairs : Call K V → List (K × V)
  | .set key val => [(key, val)]
  | .mset data => data

/-- The `(key, value)` pairs a sequence of calls passes to `Set`, in order. -/
def pairsOf : List (Call K V) → List (K × V)
  | [] => []
  | c :: rest => c.pairs ++ pairsOf rest

/-! ## Specification vocabulary -/

/-- The bucket a key belongs to in a map with hasher `h` and `n` buckets:
`int(h(key)) % n`. -/
def bucketOf (h : K → Nat) (n : Nat) (key : K) : Nat := (h key % uint32Mod) % n

/-- The keys of the nodes of a chain, head first. -/
def tuple.keys : tuple K V → List K
  | .nil => []
  | .node k _ next => k :: tuple.keys next

/-- Whether a chain has a node with `t.key == key`. -/
def tuple.has (key : K) : tuple K V → Bool
  | .nil => false
  | .node k _ next => Comparable.eq k key || tuple.has key next

/-- The chain `Set(key, val)` leaves in the bucket whose chain was `t`. -/
def tuple.put (key : K) (val : V) (t : tuple K V) : tuple K V :=
  match tuple.setLoop key val t with
  | some t1 => t1
  | none => .node key val t

/-- The value of the last pair of a list whose key is `==` to `key`, if there
is one. -/
def lastSet (key : K) : List (K × V) → Option V
  | [] => none
  | (k, v) :: rest =>
    match lastSet key rest with
    | some w => some w
    | none => if Comparable.eq k key then some v else none

/-- Go's `==` on `K` is symmetric and transitive, as it is on the comparable
types of Go (strings, integers, floating-point numbers, pointers, and the
structs and arrays of them). -/
structure EqLaws (K : Type) [Comparable K] : Prop where
  symm : ∀ a b : K, Comparable.eq a b = true → Comparable.eq b a = true
  trans : ∀ a b c : K, Comparable.eq a b = true → Comparable.eq b c = true →
    Comparable.eq a c = true

/-- The hasher returns the same `uint32` for keys that are `==`. -/
def HashRespectsEq (h : K → Nat) : Prop :=
  ∀ a b : K, Comparable.eq a b = true → h a % uint32Mod = h b % uint32Mod

/-- Go's `==` on `K` holds exactly between identical values, as it does on
strings and integers. -/
def EqIsIdentity (K : Type) [Comparable K] : Prop :=
  ∀ a b : K, Comparable.eq a b = true ↔ a = b

/-- Shape of a map with hasher `h`: the hasher is `h`, there is at least one
bucket, there is one mutex per bucket and no mutex is held. -/
structure ArrayMap.WF (m : ArrayMap K V) (h : K → Nat) : Prop where
  hasher : m.idxHasher = some h
  pos : 0 < m.array.length
  ls_eq : m.ls = List.replicate m.array.length (Mutex.mk false)

/-- The state `Set(key, val)` leaves from a map with hasher `h` whose shape is
`WF`: the chain of the bucket of `key` is replaced by `tuple.put`, and the
counter is incremented when that chain had no node with a key `==` to `key`. -/
def ArrayMap.afterSet (m : ArrayMap K V) (h : K → Nat) (key : K) (val : V) : ArrayMap K V :=
  { array := m.array.set (bucketOf h m.array.length key)
      (tuple.put key val (m.array.getD (bucketOf h m.array.length key) tuple.nil))
    ls := m.ls
    size := if tuple.has key (m.array.getD (bucketOf h m.array.length key) tuple.nil)
      then m.size else wrapInt32 (m.size + 1)
    idxHasher := m.idxHasher }

/-- No chain holds two nodes with `==` keys: the key of a node is not `==` to
the key of a node in front of it. -/
def ArrayMap.ChainsNodup (m : ArrayMap K V) : Prop :=
  ∀ t ∈ m.array, (tuple.keys t).Pairwise (fun a b => Comparable.eq b a = false)

/-- Every node is in the chain of the bucket of its key. -/
def ArrayMap.Placed (m : ArrayMap K V) (h : K → Nat) : Prop :=
  ∀ (j : Nat) (t : tuple K V), m.array[j]? = some t →
    ∀ k ∈ tuple.keys t, bucketOf h m.array.length k = j

/-- Standard FNV-1 32-bit hash (Go `hash/fnv` `New32`): from the offset basis
2166136261, for each byte multiply by the prime 16777619 modulo `2^32`, then
XOR the byte. -/
def fnv1_32 (key : GoString) : Nat :=
  key.foldl (fun acc b => ((acc * 16777619) % 4294967296) ^^^ b.val) 2166136261

/-- Standard FNV-1a 32-bit hash (Go `hash/fnv` `New32a`): from the offset basis
2166136261, for each byte first XOR the byte, then multiply by the prime
16777619 modulo `2^32`. -/
def fnv1a32 (key : GoString) : Nat :=
  key.foldl (fun acc b => ((acc ^^^ b.val) * 16777619) % 4294967296) 2166136261

/-- The nodes of a chain as `(key, val)` pairs, head first, following `next`. -/
def tuple.toList : tuple K V → List (K × V)
  | .nil => []
  | .node k v next => (k, v) :: tuple.toList next

/-- The number of nodes over all chains. -/
def ArrayMap.nodeCount (m : ArrayMap K V) : Nat :=
  (m.array.map (fun t => (tuple.keys t).length)).sum

/-- The keys of all nodes, bucket by bucket. -/
def ArrayMap.allKeys (m : ArrayMap K V) : List K :=
  (m.array.map tuple.keys).flatten

/-- The nodes of all chains as `(key, val)` pairs, bucket by bucket. -/
def ArrayMap.allNodes (m : ArrayMap K V) : List (K × V) :=
  (m.array.map tuple.toList).flatten

/-- Whether `Set(key, _)` on `m` takes the path that prepends a node: the index
is in range and the unlocked loop runs off the end of the chain. -/
def ArrayMap.takesPrepend (m : ArrayMap K V) (key : K) : Bool :=
  match m.getIdx key with
  | .error _ => false
  | .ok idx =>
    if idx < 0 ∨ idx ≥ (m.array.length : Int) then false
    else
      match index m.array idx with
      | .error _ => false
      | .ok t => !(tuple.has key t)

/-- The number of `Set` calls of a sequence, run from `m`, that take the path
that prepends a node. -/
def ArrayMap.prependCount (m : ArrayMap K V) : List (K × V) → Nat
  | [] => 0
  | (k, v) :: rest =>
    (if m.takesPrepend k then 1 else 0) +
      (match m.Set k v with
        | .error _ => 0
        | .ok m1 => ArrayMap.prependCount m1 rest)

/-- Whether `Has(key)` returns `true`. -/
def ArrayMap.present [Inhabited V] (m : ArrayMap K V) (key : K) : Bool :=
  match m.Has key with
  | .ok true => true
  | _ => false

end Operations

/-! ## Basic facts about the machine model -/

section Basics

variable {K V : Type} [Comparable K]

theorem wrapInt32_of_range (z : Int) (h0 : -2147483648 ≤ z) (h1 : z < 2147483648) :
    wrapInt32 z = z := by
  unfold wrapInt32; omega

theorem wrapInt32_add_wrapInt32 (a b : Int) :
    wrapInt32 (wrapInt32 a + b) = wrapInt32 (a + b) := by
  unfold wrapInt32; omega

theorem wrapInt32_idem (a : Int) : wrapInt32 (wrapInt32 a) = wrapInt32 a := by
  unfold wrapInt32; omega

theorem wrapInt64_of_range (z : Int) (h0 : -9223372036854775808 ≤ z)
    (h1 : z ≤ 9223372036854775807) : wrapInt64 z = z := by
  unfold wrapInt64; omega

theorem index_natCast {T : Type} (s : List T) (i : Nat) (d : T) (hi : i < s.length) :
    index s (i : Int) = .ok (s.getD i d) := by
  unfold index
  have h0 : ¬ ((i : Int) < 0) := by omega
  simp only [h0, if_false, Int.toNat_ofNat]
  have : s.get? i = some (s.getD i d) := by
    simp [List.getD, List.getElem?_eq_getElem hi]
  rw [this]

theorem store_natCast {T : Type} (s : List T) (i : Nat) (x : T) (hi : i < s.length) :
    store s (i : Int) x = .ok (s.set i x) := by
  unfold store
  have h0 : ¬ ((i : Int) < 0 ∨ (i : Int) ≥ (s.length : Int)) := by omega
  simp only [h0, if_false, Int.toNat_ofNat]

theorem bucketOf_lt (h : K → Nat) (n : Nat) (key : K) (hn : 0 < n) : bucketOf h n key < n :=
  Nat.mod_lt _ hn

theorem getIdx_eq (m : ArrayMap K V) (h : K → Nat) (key : K)
    (hh : m.idxHasher = some h) (hpos : 0 < m.array.length) :
    m.getIdx key = .ok ((bucketOf h m.array.length key : Nat) : Int) := by
  unfold ArrayMap.getIdx
  rw [hh]
  have hne : ¬ (m.array.length = 0) := by omega
  simp only [hne, if_false]
  rw [Int.tmod_eq_emod (by omega) (by omega)]
  simp [bucketOf]

theorem getIdx_nil (m : ArrayMap K V) (key : K) (hh : m.idxHasher = none) :
    m.getIdx key = .ok (-1) := by
  unfold ArrayMap.getIdx
  rw [hh]

theorem Get_eq [Inhabited V] (m : ArrayMap K V) (h : K → Nat) (key : K)
    (hh : m.idxHasher = some h) (hpos : 0 < m.array.length) :
    m.Get key =
      .ok (tuple.getLoop key (m.array.getD (bucketOf h m.array.length key) tuple.nil)) := by
  have hlt := bucketOf_lt h m.array.length key hpos
  unfold ArrayMap.Get
  rw [getIdx_eq m h key hh hpos]
  have hr : ¬ (((bucketOf h m.array.length key : Nat) : Int) < 0 ∨
      ((bucketOf h m.array.length key : Nat) : Int) ≥ (m.array.length : Int)) := by omega
  simp only [hr, if_false]
  rw [index_natCast m.array _ tuple.nil hlt]

theorem Get_nil [Inhabited V] (m : ArrayMap K V) (key : K) (hh : m.idxHasher = none) :
    m.Get key = .ok (default, false) := by
  unfold ArrayMap.Get
  rw [getIdx_nil m key hh]
  simp

theorem Set_nil (m : ArrayMap K V) (key : K) (val : V) (hh : m.idxHasher = none) :
    m.Set key val = .ok m := by
  unfold ArrayMap.Set
  rw [getIdx_nil m key hh]
  simp

theorem replicate_set_set {T : Type} (n i : Nat) (a b : T) :
    ((List.replicate n a).set i b).set i a = List.replicate n a := by
  rw [List.set_set]
  apply List.ext_getElem
  · simp
  · intro j h1 h2
    simp [List.getElem_set]

theorem setLoop_eq_none_iff (key : K) (val : V) (t : tuple K V) :
    tuple.setLoop key val t = none ↔ tuple.has key t = false := by
  induction t with
  | nil => simp [tuple.setLoop, tuple.has]
  | node k v next ih =>
    cases hk : Comparable.eq k key with
    | true => simp [tuple.setLoop, tuple.has, hk]
    | false =>
      cases hs : tuple.setLoop key val next with
      | none => simp [tuple.setLoop, tuple.has, hk, hs, ih.mp hs]
      | some t1 =>
        have hn : ¬ (tuple.has key next = false) := fun hn => by
          rw [ih.mpr hn] at hs; cases hs
        simp [tuple.setLoop, tuple.has, hk, hs]
        simpa using hn

theorem has_eq_false_iff (key : K) (t : tuple K V) :
    tuple.has key t = false ↔ ∀ a ∈ tuple.keys t, Comparable.eq a key = false := by
  induction t with
  | nil => simp [tuple.has, tuple.keys]
  | node k v next ih => simp [tuple.has, tuple.keys, ih]

theorem has_eq_true_iff (key : K) (t : tuple K V) :
    tuple.has key t = true ↔ ∃ a ∈ tuple.keys t, Comparable.eq a key = true := by
  induction t with
  | nil => simp [tuple.has, tuple.keys]
  | node k v next ih => simp [tuple.has, tuple.keys, ih]

theorem put_of_not_has (key : K) (val : V) (t : tuple K V) (hn : tuple.has key t = false) :
    tuple.put key val t = tuple.node key val t := by
  unfold tuple.put
  rw [(setLoop_eq_none_iff key val t).mpr hn]

theorem put_node_hit (key k : K) (val v : V) (next : tuple K V)
    (hk : Comparable.eq k key = true) :
    tuple.put key val (tuple.node k v next) = tuple.node k val next := by
  simp [tuple.put, tuple.setLoop, hk]

theorem put_node_skip (key k : K) (val v : V) (next : tuple K V)
    (hk : Comparable.eq k key = false) (hm : tuple.has key next = true) :
    tuple.put key val (tuple.node k v next) = tuple.node k v (tuple.put key val next) := by
  have hs : tuple.setLoop key val next ≠ none := fun e => by
    rw [(setLoop_eq_none_iff key val next).mp e] at hm; cases hm
  cases hc : tuple.setLoop key val next with
  | none => exact absurd hc hs
  | some t1 => simp [tuple.put, tuple.setLoop, hk, hc]

theorem keys_put_of_has (key : K) (val : V) (t : tuple K V) (hm : tuple.has key t = true) :
    tuple.keys (tuple.put key val t) = tuple.keys t := by
  induction t with
  | nil => simp [tuple.has] at hm
  | node k v next ih =>
    cases hk : Comparable.eq k key with
    | true =>
      rw [put_node_hit key k val v next hk]
      simp [tuple.keys]
    | false =>
      have hm2 : tuple.has key next = true := by
        simpa [tuple.has, hk] using hm
      rw [put_node_skip key k val v next hk hm2]
      simp [tuple.keys, ih hm2]

theorem keys_put (key : K) (val : V) (t : tuple K V) :
    tuple.keys (tuple.put key val t) =
      if tuple.has key t = true then tuple.keys t else key :: tuple.keys t := by
  cases hm : tuple.has key t with
  | true => simp [keys_put_of_has key val t hm]
  | false => simp [put_of_not_has key val t hm, tuple.keys]

theorem has_of_keys_eq (k : K) (t t2 : tuple K V) (hkeys : tuple.keys t = tuple.keys t2) :
    tuple.has k t = tuple.has k t2 := by
  cases h1 : tuple.has k t with
  | true =>
    obtain ⟨a, ha, hak⟩ := (has_eq_true_iff k t).mp h1
    rw [hkeys] at ha
    exact ((has_eq_true_iff k t2).mpr ⟨a, ha, hak⟩).symm
  | false =>
    have h2 := (has_eq_false_iff k t).mp h1
    rw [hkeys] at h2
    exact ((has_eq_false_iff k t2).mpr h2).symm

/-- Which keys a chain matches after `Set(key, val)`. -/
theorem has_put (key k2 : K) (val : V) (t : tuple K V) :
    tuple.has k2 (tuple.put key val t) =
      if tuple.has key t = true then tuple.has k2 t
      else (Comparable.eq key k2 || tuple.has k2 t) := by
  cases hm : tuple.has key t with
  | true =>
    simp only [if_true]
    exact has_of_keys_eq k2 _ _ (keys_put_of_has key val t hm)
  | false =>
    rw [put_of_not_has key val t hm]
    simp [tuple.has]

theorem getLoop_of_not_has [Inhabited V] (key : K) (t : tuple K V)
    (hn : tuple.has key t = false) : tuple.getLoop key t = (default, false) := by
  induction t with
  | nil => simp [tuple.getLoop]
  | node k v next ih =>
    simp only [tuple.has, Bool.or_eq_false_iff] at hn
    simp [tuple.getLoop, hn.1, ih hn.2]

theorem getLoop_snd_eq_has [Inhabited V] (key : K) (t : tuple K V) :
    (tuple.getLoop key t).2 = tuple.has key t := by
  induction t with
  | nil => simp [tuple.getLoop, tuple.has]
  | node k v next ih =>
    cases hk : Comparable.eq k key with
    | true => simp [tuple.getLoop, tuple.has, hk]
    | false => simp [tuple.getLoop, tuple.has, hk, ih]

/-- After `Set(key, val)` the loop of `Get(key)` finds `val`, when the chain had
a node with a key `==` to `key` or `key == key`. -/
theorem getLoop_put_self [Inhabited V] (key : K) (val : V) (t : tuple K V)
    (h : tuple.has key t = true ∨ Comparable.eq key key = true) :
    tuple.getLoop key (tuple.put key val t) = (val, true) := by
  induction t with
  | nil =>
    rcases h with h | h
    · simp [tuple.has] at h
    · simp [tuple.put, tuple.setLoop, tuple.getLoop, h]
  | node k v next ih =>
    cases hk : Comparable.eq k key with
    | true =>
      rw [put_node_hit key k val v next hk]
      simp [tuple.getLoop, hk]
    | false =>
      cases hm : tuple.has key next with
      | true =>
        rw [put_node_skip key k val v next hk hm]
        simp [tuple.getLoop, hk, ih (Or.inl hm)]
      | false =>
        have hn : tuple.has key (tuple.node k v next) = false := by
          simp [tuple.has, hk, hm]
        rcases h with h | h
        · rw [hn] at h; cases h
        · rw [put_of_not_has key val _ hn]
          simp [tuple.getLoop, h]

/-- After `Set(key, val)` the loop of `Get(k2)` finds `val` for every `k2` with
`key == k2`, when `==` is symmetric and transitive. -/
theorem getLoop_put_same [Inhabited V] (laws : EqLaws K) (key k2 : K) (val : V)
    (t : tuple K V) (heq : Comparable.eq key k2 = true) :
    tuple.getLoop k2 (tuple.put key val t) = (val, true) := by
  induction t with
  | nil => simp [tuple.put, tuple.setLoop, tuple.getLoop, heq]
  | node k v next ih =>
    cases hk : Comparable.eq k key with
    | true =>
      rw [put_node_hit key k val v next hk]
      simp [tuple.getLoop, laws.trans k key k2 hk heq]
    | false =>
      cases hm : tuple.has key next with
      | true =>
        rw [put_node_skip key k val v next hk hm]
        have hk2 : Comparable.eq k k2 = false := by
          cases h : Comparable.eq k k2 with
          | false => rfl
          | true =>
            rw [laws.trans k k2 key h (laws.symm key k2 heq)] at hk
            cases hk
        simp [tuple.getLoop, hk2, ih]
      | false =>
        have hn : tuple.has key (tuple.node k v next) = false := by
          simp [tuple.has, hk, hm]
        rw [put_of_not_has key val _ hn]
        simp [tuple.getLoop, heq]

/-- `Set(key, val)` does not change what the loop of `Get(k2)` finds for a
`k2` with `key != k2`, when `==` is symmetric and transitive. -/
theorem getLoop_put_other [Inhabited V] (laws : EqLaws K) (key k2 : K) (val : V)
    (t : tuple K V) (hne : Comparable.eq key k2 = false) :
    tuple.getLoop k2 (tuple.put key val t) = tuple.getLoop k2 t := by
  induction t with
  | nil => simp [tuple.put, tuple.setLoop, tuple.getLoop, hne]
  | node k v next ih =>
    cases hk : Comparable.eq k key with
    | true =>
      rw [put_node_hit key k val v next hk]
      have hk2 : Comparable.eq k k2 = false := by
        cases h : Comparable.eq k k2 with
        | false => rfl
        | true =>
          rw [laws.trans key k k2 (laws.symm k key hk) h] at hne
          cases hne
      simp [tuple.getLoop, hk2]
    | false =>
      cases hm : tuple.has key next with
      | true =>
        rw [put_node_skip key k val v next hk hm]
        simp [tuple.getLoop, ih]
      | false =>
        have hn : tuple.has key (tuple.node k v next) = false := by
          simp [tuple.has, hk, hm]
        rw [put_of_not_has key val _ hn]
        simp [tuple.getLoop, hne]

theorem has_put_self (key : K) (val : V) (t : tuple K V)
    (h : tuple.has key t = true ∨ Comparable.eq key key = true) :
    tuple.has key (tuple.put key val t) = true := by
  rw [has_put]
  cases hm : tuple.has key t with
  | true => simp
  | false =>
    rcases h with h | h
    · rw [hm] at h; cases h
    · simp [h]

theorem put_put (key : K) (v1 v2 : V) (t : tuple K V)
    (h : tuple.has key t = true ∨ Comparable.eq key key = true) :
    tuple.put key v2 (tuple.put key v1 t) = tuple.put key v2 t := by
  induction t with
  | nil =>
    rcases h with h | h
    · simp [tuple.has] at h
    · simp [tuple.put, tuple.setLoop, h]
  | node k v next ih =>
    cases hk : Comparable.eq k key with
    | true =>
      rw [put_node_hit key k v1 v next hk, put_node_hit key k v2 v1 next hk,
        put_node_hit key k v2 v next hk]
    | false =>
      cases hm : tuple.has key next with
      | true =>
        have hm1 : tuple.has key (tuple.put key v1 next) = true :=
          has_put_self key v1 next (Or.inl hm)
        rw [put_node_skip key k v1 v next hk hm, put_node_skip key k v2 v _ hk hm1,
          put_node_skip key k v2 v next hk hm, ih (Or.inl hm)]
      | false =>
        have hn : tuple.has key (tuple.node k v next) = false := by
          simp [tuple.has, hk, hm]
        rcases h with h | h
        · rw [hn] at h; cases h
        · rw [put_of_not_has key v1 _ hn, put_of_not_has key v2 _ hn,
            put_node_hit key key v2 v1 _ h]

/-- The state `Set(key, val)` leaves, for a map of the shape `WF`. -/
theorem Set_eq (m : ArrayMap K V) (h : K → Nat) (key : K) (val : V) (hwf : m.WF h) :
    m.Set key val = .ok (m.afterSet h key val) := by
  unfold ArrayMap.afterSet
  have hlt := bucketOf_lt h m.array.length key hwf.pos
  have hr : ¬ (((bucketOf h m.array.length key : Nat) : Int) < 0 ∨
      ((bucketOf h m.array.length key : Nat) : Int) ≥ (m.array.length : Int)) := by omega
  have hls : bucketOf h m.array.length key < m.ls.length := by
    rw [hwf.ls_eq]; simpa using hlt
  unfold ArrayMap.Set
  rw [getIdx_eq m h key hwf.hasher hwf.pos]
  simp only [hr, if_false]
  rw [index_natCast m.array _ tuple.nil hlt]
  simp only
  cases hs : tuple.setLoop key val
      (m.array.getD (bucketOf h m.array.length key) tuple.nil) with
  | some t1 =>
    have hm : tuple.has key (m.array.getD (bucketOf h m.array.length key) tuple.nil) =
        true := by
      cases hc : tuple.has key (m.array.getD (bucketOf h m.array.length key) tuple.nil) with
      | true => rfl
      | false =>
        rw [(setLoop_eq_none_iff key val _).mpr hc] at hs
        cases hs
    simp only [Int.toNat_ofNat, hm, if_true, tuple.put, hs]
  | none =>
    have hn : tuple.has key (m.array.getD (bucketOf h m.array.length key) tuple.nil) =
        false := (setLoop_eq_none_iff key val _).mp hs
    have hmu : m.ls.getD (bucketOf h m.array.length key) (Mutex.mk false) = Mutex.mk false := by
      rw [hwf.ls_eq]
      simp [List.getD, hlt]
    have hls1 : bucketOf h m.array.length key <
        (m.ls.set (bucketOf h m.array.length key) (Mutex.mk true)).length := by
      simpa using hls
    simp only [index_natCast m.ls _ (Mutex.mk false) hls, hmu, store_natCast m.ls _ _ hls,
      store_natCast m.array _ _ hlt, store_natCast _ _ _ hls1, hn, tuple.put, hs]
    simp only [Bool.false_eq_true, if_false]
    congr 2
    rw [hwf.ls_eq]
    exact replicate_set_set _ _ _ _

theorem afterSet_length (m : ArrayMap K V) (h : K → Nat) (key : K) (val : V) :
    (m.afterSet h key val).array.length = m.array.length := by
  simp [ArrayMap.afterSet]

theorem WF_afterSet (m : ArrayMap K V) (h : K → Nat) (key : K) (val : V) (hwf : m.WF h) :
    (m.afterSet h key val).WF h := by
  refine ⟨hwf.hasher, ?_, ?_⟩
  · rw [afterSet_length]; exact hwf.pos
  · rw [afterSet_length]; exact hwf.ls_eq

theorem getD_set_self {T : Type} (l : List T) (i : Nat) (x d : T) (hi : i < l.length) :
    (l.set i x).getD i d = x := by
  simp [List.getD, List.getElem?_set, hi]

theorem getD_set_ne {T : Type} (l : List T) (i j : Nat) (x d : T) (hij : i ≠ j) :
    (l.set i x).getD j d = l.getD j d := by
  simp [List.getD, List.getElem?_set, hij]

/-- The chain of the bucket of `k` after `Set(k, v)`. -/
theorem afterSet_getD_self (m : ArrayMap K V) (h : K → Nat) (k : K) (v : V) (hwf : m.WF h) :
    (m.afterSet h k v).array.getD (bucketOf h (m.afterSet h k v).array.length k) tuple.nil =
      tuple.put k v (m.array.getD (bucketOf h m.array.length k) tuple.nil) := by
  rw [afterSet_length]
  exact getD_set_self m.array _ _ _ (bucketOf_lt h m.array.length k hwf.pos)

/-- The chain of the bucket of `k2` after `Set(k, v)`. -/
theorem afterSet_getD (m : ArrayMap K V) (h : K → Nat) (k k2 : K) (v : V) (hwf : m.WF h) :
    (m.afterSet h k v).array.getD (bucketOf h (m.afterSet h k v).array.length k2) tuple.nil =
      if bucketOf h m.array.length k = bucketOf h m.array.length k2 then
        tuple.put k v (m.array.getD (bucketOf h m.array.length k2) tuple.nil)
      else m.array.getD (bucketOf h m.array.length k2) tuple.nil := by
  rw [afterSet_length]
  by_cases hb : bucketOf h m.array.length k = bucketOf h m.array.length k2
  · rw [if_pos hb, ← hb]
    exact getD_set_self m.array _ _ _ (bucketOf_lt h m.array.length k hwf.pos)
  · rw [if_neg hb]
    exact getD_set_ne m.array _ _ _ _ hb

theorem bucketOf_eq_of_hash (h : K → Nat) (n : Nat) (a b : K)
    (hab : h a % uint32Mod = h b % uint32Mod) : bucketOf h n a = bucketOf h n b := by
  unfold bucketOf
  rw [hab]

/-- After `Set(key, val)`, `Get(key)` returns `(val, true)` when the chain had a
node with a key `==` to `key` or `key == key`. -/
theorem Get_afterSet_self [Inhabited V] (m : ArrayMap K V) (h : K → Nat) (key : K) (val : V)
    (hwf : m.WF h)
    (hk : tuple.has key (m.array.getD (bucketOf h m.array.length key) tuple.nil) = true ∨
      Comparable.eq key key = true) :
    (m.afterSet h key val).Get key = .ok (val, true) := by
  have hwf2 := WF_afterSet m h key val hwf
  rw [Get_eq _ h key hwf2.hasher hwf2.pos, afterSet_getD_self m h key val hwf,
    getLoop_put_self key val _ hk]

/-- After `Set(key, val)`, `Get(k2)` returns `(val, true)` for every `k2` with
`key == k2`. -/
theorem Get_afterSet_same [Inhabited V] (laws : EqLaws K) (m : ArrayMap K V) (h : K → Nat)
    (hh : HashRespectsEq h) (key k2 : K) (val : V) (hwf : m.WF h)
    (heq : Comparable.eq key k2 = true) :
    (m.afterSet h key val).Get k2 = .ok (val, true) := by
  have hwf2 := WF_afterSet m h key val hwf
  have hb : bucketOf h m.array.length key = bucketOf h m.array.length k2 :=
    bucketOf_eq_of_hash h _ key k2 (hh key k2 heq)
  rw [Get_eq _ h k2 hwf2.hasher hwf2.pos, afterSet_getD m h key k2 val hwf, if_pos hb,
    getLoop_put_same laws key k2 val _ heq]

/-- `Set(key, val)` does not change what `Get(k2)` returns for a `k2` with
`key != k2`. -/
theorem Get_afterSet_other [Inhabited V] (laws : EqLaws K) (m : ArrayMap K V) (h : K → Nat)
    (key k2 : K) (val : V) (hwf : m.WF h) (hne : Comparable.eq key k2 = false) :
    (m.afterSet h key val).Get k2 = m.Get k2 := by
  have hwf2 := WF_afterSet m h key val hwf
  rw [Get_eq _ h k2 hwf2.hasher hwf2.pos, Get_eq m h k2 hwf.hasher hwf.pos,
    afterSet_getD m h key k2 val hwf]
  by_cases hb : bucketOf h m.array.length key = bucketOf h m.array.length k2
  · rw [if_pos hb, getLoop_put_other laws key k2 val _ hne]
  · rw [if_neg hb]

/-- `Set(key, val)` does not change whether the chain of the bucket of `k2` has
a node with a key `==` to `k2`, for a `k2` with `key != k2`. -/
theorem has_afterSet_other (m : ArrayMap K V) (h : K → Nat) (key k2 : K) (val : V)
    (hwf : m.WF h) (hne : Comparable.eq key k2 = false) :
    tuple.has k2 ((m.afterSet h key val).array.getD
        (bucketOf h (m.afterSet h key val).array.length k2) tuple.nil) =
      tuple.has k2 (m.array.getD (bucketOf h m.array.length k2) tuple.nil) := by
  rw [afterSet_getD m h key k2 val hwf]
  by_cases hb : bucketOf h m.array.length key = bucketOf h m.array.length k2
  · rw [if_pos hb, has_put, hne, Bool.false_or]
    split <;> rfl
  · rw [if_neg hb]

/-- `Get(k)` reports the key missing exactly when the chain of its bucket has
no node with a key `==` to `k`. -/
theorem Get_eq_miss_iff [Inhabited V] (m : ArrayMap K V) (h : K → Nat) (k : K) (hwf : m.WF h) :
    m.Get k = .ok (default, false) ↔
      tuple.has k (m.array.getD (bucketOf h m.array.length k) tuple.nil) = false := by
  rw [Get_eq m h k hwf.hasher hwf.pos]
  constructor
  · intro hg
    have h2 := getLoop_snd_eq_has k (m.array.getD (bucketOf h m.array.length k) tuple.nil)
    rw [Except.ok.inj hg] at h2
    exact h2.symm
  · intro hn
    rw [getLoop_of_not_has k _ hn]

/-- A sequence of `Set` calls on a map of the shape `WF` runs to the end. -/
theorem MSet_ok (h : K → Nat) (ps : List (K × V)) :
    ∀ (m : ArrayMap K V), m.WF h →
      ∃ m1, m.MSet ps = .ok m1 ∧ m1.WF h ∧ m1.array.length = m.array.length := by
  induction ps with
  | nil => intro m hwf; exact ⟨m, rfl, hwf, rfl⟩
  | cons p rest ih =>
    intro m hwf
    obtain ⟨k, v⟩ := p
    obtain ⟨m1, hrun, hwf1, hlen⟩ := ih (m.afterSet h k v) (WF_afterSet m h k v hwf)
    refine ⟨m1, ?_, hwf1, ?_⟩
    · simp only [ArrayMap.MSet, Set_eq m h k v hwf]
      exact hrun
    · rw [hlen, afterSet_length]

/-- A key that is `==` to no key of a sequence of `Set` calls and was missing
before is missing after. -/
theorem MSet_miss [Inhabited V] (h : K → Nat) (key : K) (ps : List (K × V)) :
    ∀ (m m1 : ArrayMap K V), m.WF h → m.MSet ps = .ok m1 →
      (∀ p ∈ ps, Comparable.eq p.1 key = false) →
      m.Get key = .ok (default, false) → m1.Get key = .ok (default, false) := by
  induction ps with
  | nil =>
    intro m m1 _ hrun _ hg
    cases hrun
    exact hg
  | cons p rest ih =>
    intro m m1 hwf hrun hne hg
    obtain ⟨k, v⟩ := p
    simp only [ArrayMap.MSet, Set_eq m h k v hwf] at hrun
    have hwf1 := WF_afterSet m h k v hwf
    apply ih _ m1 hwf1 hrun (fun p hp => hne p (List.mem_cons_of_mem _ hp))
    rw [Get_eq_miss_iff _ h key hwf1,
      has_afterSet_other m h k key v hwf (hne (k, v) (List.mem_cons_self _ _))]
    exact (Get_eq_miss_iff m h key hwf).mp hg

/-- What `Get` returns after a sequence of `Set` calls, when `==` is symmetric
and transitive and the hasher returns the same hash for keys that are `==`. -/
theorem MSet_Get [Inhabited V] (laws : EqLaws K) (h : K → Nat) (hh : HashRespectsEq h)
    (ps : List (K × V)) :
    ∀ (m m1 : ArrayMap K V), m.WF h → m.MSet ps = .ok m1 →
      ∀ key, m1.Get key =
        (match lastSet key ps with
          | some w => .ok (w, true)
          | none => m.Get key) := by
  induction ps with
  | nil =>
    intro m m1 _ hrun key
    cases hrun
    simp [lastSet]
  | cons p rest ih =>
    intro m m1 hwf hrun key
    obtain ⟨k, v⟩ := p
    simp only [ArrayMap.MSet, Set_eq m h k v hwf] at hrun
    rw [ih _ m1 (WF_afterSet m h k v hwf) hrun key]
    cases hl : lastSet key rest with
    | some w => simp [lastSet, hl]
    | none =>
      cases hk : Comparable.eq k key with
      | true => simp [lastSet, hl, hk, Get_afterSet_same laws m h hh k key v hwf hk]
      | false => simp [lastSet, hl, hk, Get_afterSet_other laws m h k key v hwf hk]

theorem MSet_nil_hasher (ps : List (K × V)) :
    ∀ (m : ArrayMap K V), m.idxHasher = none → m.MSet ps = .ok m := by
  induction ps with
  | nil => intro m _; rfl
  | cons p rest ih =>
    intro m hh
    obtain ⟨k, v⟩ := p
    simp only [ArrayMap.MSet, Set_nil m k v hh]
    exact ih m hh

theorem MSet_append (ps qs : List (K × V)) :
    ∀ (m : ArrayMap K V), m.MSet (ps ++ qs) =
      (match m.MSet ps with
        | .error e => .error e
        | .ok m1 => m1.MSet qs) := by
  induction ps with
  | nil => intro m; rfl
  | cons p rest ih =>
    intro m
    obtain ⟨k, v⟩ := p
    simp only [List.cons_append, ArrayMap.MSet]
    cases m.Set k v with
    | error e => rfl
    | ok m1 => exact ih m1

/-- A sequence of `Set` and `MSet` calls is one sequence of `Set` calls. -/
theorem run_eq_MSet (calls : List (Call K V)) :
    ∀ (m : ArrayMap K V), m.run calls = m.MSet (pairsOf calls) := by
  induction calls with
  | nil => intro m; rfl
  | cons c rest ih =>
    intro m
    simp only [ArrayMap.run, pairsOf, MSet_append]
    cases c with
    | set key val =>
      simp only [ArrayMap.call, Call.pairs, ArrayMap.MSet]
      cases m.Set key val with
      | error e => rfl
      | ok m1 => exact ih m1
    | mset data =>
      simp only [ArrayMap.call, Call.pairs]
      cases m.MSet data with
      | error e => rfl
      | ok m1 => exact ih m1

theorem pairsOf_setCalls (ps : List (K × V)) : pairsOf (setCalls ps) = ps := by
  induction ps with
  | nil => rfl
  | cons p rest ih =>
    simp only [setCalls, List.map_cons, pairsOf, Call.pairs] at ih ⊢
    rw [ih]
    rfl

theorem lastSet_eq_none_iff (key : K) (ps : List (K × V)) :
    lastSet key ps = none ↔ ∀ p ∈ ps, Comparable.eq p.1 key = false := by
  induction ps with
  | nil => simp [lastSet]
  | cons p rest ih =>
    obtain ⟨k, v⟩ := p
    cases hl : lastSet key rest with
    | some w =>
      have hn : ¬ (∀ p ∈ rest, Comparable.eq p.1 key = false) := fun hn => by
        rw [ih.mpr hn] at hl; cases hl
      simp only [lastSet, hl, List.mem_cons, forall_eq_or_imp]
      constructor
      · intro e; cases e
      · intro e; exact absurd e.2 hn
    | none =>
      have hn := ih.mp hl
      cases hk : Comparable.eq k key with
      | true => simp [lastSet, hl, hk]
      | false =>
        constructor
        · intro _ p hp
          rcases List.mem_cons.mp hp with e | e
          · rw [e]; exact hk
          · exact hn p e
        · intro _
          simp [lastSet, hl, hk]

theorem lastSet_append_cons (key k2 : K) (v : V) (pre post : List (K × V))
    (heq : Comparable.eq k2 key = true)
    (hpost : ∀ p ∈ post, Comparable.eq p.1 key = false) :
    lastSet key (pre ++ (k2, v) :: post) = some v := by
  induction pre with
  | nil => simp [lastSet, (lastSet_eq_none_iff key post).mpr hpost, heq]
  | cons p rest ih =>
    obtain ⟨k, w⟩ := p
    simp [lastSet, ih]

end Basics

/-! ## Key types on which `==` is the identity -/

section Identity

variable {K V : Type} [Comparable K]

theorem eqIsIdentity_GoString : EqIsIdentity GoString := by
  intro a b
  exact decide_eq_true_iff

theorem eqIsIdentity_Nat : EqIsIdentity Nat := by
  intro a b
  exact decide_eq_true_iff

theorem eqLaws_of_identity (hid : EqIsIdentity K) : EqLaws K := by
  constructor
  · intro a b hab
    rw [(hid a b).mp hab]
    exact (hid b b).mpr rfl
  · intro a b c hab hbc
    rw [(hid a b).mp hab]
    exact hbc

theorem hashRespectsEq_of_identity (hid : EqIsIdentity K) (h : K → Nat) :
    HashRespectsEq h := by
  intro a b hab
  rw [(hid a b).mp hab]

theorem eq_self_of_identity (hid : EqIsIdentity K) (k : K) : Comparable.eq k k = true :=
  (hid k k).mpr rfl

theorem eq_false_iff_of_identity (hid : EqIsIdentity K) (a b : K) :
    Comparable.eq a b = false ↔ a ≠ b := by
  constructor
  · intro hf e
    rw [(hid a b).mpr e] at hf
    cases hf
  · intro hne
    cases hc : Comparable.eq a b with
    | false => rfl
    | true => exact absurd ((hid a b).mp hc) hne

theorem no_eq_iff_not_mem (hid : EqIsIdentity K) (ps : List (K × V)) (k : K) :
    (∀ p ∈ ps, Comparable.eq p.1 k = false) ↔ k ∉ ps.map Prod.fst := by
  constructor
  · intro hall hk
    obtain ⟨p, hp, hpk⟩ := List.mem_map.mp hk
    have := hall p hp
    rw [hpk, eq_self_of_identity hid k] at this
    cases this
  · intro hk p hp
    rw [eq_false_iff_of_identity hid]
    intro e
    exact hk (e ▸ List.mem_map_of_mem Prod.fst hp)

theorem pairwise_ne_iff_nodup (hid : EqIsIdentity K) (l : List K) :
    l.Pairwise (fun a b => Comparable.eq a b = false) ↔ l.Nodup := by
  unfold List.Nodup
  constructor
  · intro hp
    exact hp.imp (fun hab => (eq_false_iff_of_identity hid _ _).mp hab)
  · intro hp
    exact hp.imp (fun hab => (eq_false_iff_of_identity hid _ _).mpr hab)

theorem pairwise_ne_rev_iff_nodup (hid : EqIsIdentity K) (l : List K) :
    l.Pairwise (fun a b => Comparable.eq b a = false) ↔ l.Nodup := by
  unfold List.Nodup
  constructor
  · intro hp
    exact hp.imp (fun {a b} hab (e : a = b) => (eq_false_iff_of_identity hid b a).mp hab e.symm)
  · intro hp
    exact hp.imp (fun {a b} hab => (eq_false_iff_of_identity hid b a).mpr (fun e => hab e.symm))

end Identity

/-! ## The constructors -/

section Construction

variable {K V : Type}

theorem NewArrayMap_eq (T : Type) (capacity : Int) :
    NewArrayMap T capacity = NewArrayMapWithHasher T capacity (some fnv32) := by
  unfold NewArrayMap NewArrayMapWithHasher
  by_cases hle : capacity ≤ 0
  · simp only [hle, if_true]
  · simp only [hle, if_false]
    cases make (tuple.nil : tuple GoString T) sizeofPointer
        (wrapInt64 (capacity * capacityFactor)) with
    | error e => rfl
    | ok array =>
      cases make (Mutex.mk false) sizeofMutex (wrapInt64 (capacity * capacityFactor)) with
      | error e => rfl
      | ok ls => rfl

theorem wrapInt64_mul_pos (capacity : Int) (hc : isInt capacity) (hpos : 0 < capacity) :
    wrapInt64 (capacity * capacityFactor) ≠ 0 := by
  unfold isInt at hc
  unfold wrapInt64 capacityFactor
  intro h
  have hd := Int.emod_add_ediv (capacity * 5 + 9223372036854775808) 18446744073709551616
  generalize (capacity * 5 + 9223372036854775808) / 18446744073709551616 = q at hd
  generalize (capacity * 5 + 9223372036854775808) % 18446744073709551616 = r at hd h
  have hq5 : q = 5 * (capacity - 3689348814741910323 * q) := by linarith
  generalize capacity - 3689348814741910323 * q = s at hq5
  have hcs : capacity = 18446744073709551616 * s := by linarith
  rcases le_or_lt s 0 with hs | hs
  · linarith
  · have h1 : 1 ≤ s := hs
    linarith [hc.2]

/-- What a constructor returns when it returns a map. -/
theorem NewArrayMapWithHasher_ok (capacity : Int) (hasher : Option (K → Nat))
    (m0 : ArrayMap K V) (hc : isInt capacity)
    (hok : NewArrayMapWithHasher V capacity hasher = .ok m0) :
    0 < capacity ∧ 0 < wrapInt64 (capacity * capacityFactor) ∧
      m0 = { array := List.replicate (wrapInt64 (capacity * capacityFactor)).toNat tuple.nil
             ls := List.replicate (wrapInt64 (capacity * capacityFactor)).toNat (Mutex.mk false)
             size := 0
             idxHasher := hasher } := by
  unfold NewArrayMapWithHasher at hok
  by_cases hle : capacity ≤ 0
  · simp [hle] at hok
  · have hpos : 0 < capacity := by omega
    have hne := wrapInt64_mul_pos capacity hc hpos
    by_cases hbad : wrapInt64 (capacity * capacityFactor) < 0 ∨
        wrapInt64 (capacity * capacityFactor) * sizeofPointer > maxAlloc
    · simp [hle, make, hbad] at hok
    · have hbad2 : ¬ (wrapInt64 (capacity * capacityFactor) < 0 ∨
          wrapInt64 (capacity * capacityFactor) * sizeofMutex > maxAlloc) := hbad
      simp only [hle, if_false, make, hbad, hbad2] at hok
      refine ⟨hpos, by omega, ?_⟩
      cases hok
      rfl

/-- A constructor returns a map when the capacity is positive and the bytes of
`capacity * 5` pointers do not exceed the allocation limit. -/
theorem NewArrayMapWithHasher_small (capacity : Int) (hasher : Option (K → Nat))
    (hpos : 0 < capacity) (hle : capacity * 5 * 8 ≤ 281474976710656) :
    NewArrayMapWithHasher V capacity hasher = .ok
      { array := List.replicate (capacity * 5).toNat tuple.nil
        ls := List.replicate (capacity * 5).toNat (Mutex.mk false)
        size := 0
        idxHasher := hasher } := by
  have hw : wrapInt64 (capacity * capacityFactor) = capacity * 5 := by
    unfold capacityFactor
    exact wrapInt64_of_range _ (by linarith) (by linarith)
  have h1 : ¬ capacity ≤ 0 := by omega
  have h2 : ¬ (capacity * 5 < 0 ∨ capacity * 5 * sizeofPointer > maxAlloc) := by
    unfold sizeofPointer maxAlloc
    intro hc
    rcases hc with hc | hc
    · linarith
    · linarith
  have h3 : ¬ (capacity * 5 < 0 ∨ capacity * 5 * sizeofMutex > maxAlloc) := h2
  unfold NewArrayMapWithHasher
  simp only [h1, if_false, hw, make, h2, h3]

/-- When the capacity is positive the failure of a constructor, if any, is not
the invalid-capacity failure. -/
theorem NewArrayMapWithHasher_pos (capacity : Int) (hasher : Option (K → Nat))
    (hpos : 0 < capacity) :
    NewArrayMapWithHasher V capacity hasher ≠ .error .invalidCapacity := by
  have h1 : ¬ capacity ≤ 0 := by omega
  unfold NewArrayMapWithHasher
  simp only [h1, if_false, make]
  by_cases hbad : wrapInt64 (capacity * capacityFactor) < 0 ∨
      wrapInt64 (capacity * capacityFactor) * sizeofPointer > maxAlloc
  · simp only [hbad, if_true]
    intro e
    cases e
  · have hbad2 : ¬ (wrapInt64 (capacity * capacityFactor) < 0 ∨
        wrapInt64 (capacity * capacityFactor) * sizeofMutex > maxAlloc) := hbad
    simp only [hbad, hbad2, if_false]
    intro e
    cases e

theorem NewArrayMapWithHasher_nonpos (capacity : Int) (hasher : Option (K → Nat))
    (hle : capacity ≤ 0) :
    NewArrayMapWithHasher V capacity hasher = .error .invalidCapacity := by
  unfold NewArrayMapWithHasher
  simp only [hle, if_true]

/-- Whether and how a constructor fails does not depend on the hasher. -/
theorem NewArrayMapWithHasher_error_hasher {K2 V2 : Type} (capacity : Int)
    (hasher : Option (K → Nat)) (hasher2 : Option (K2 → Nat)) (e : Failure)
    (he : NewArrayMapWithHasher V capacity hasher = .error e) :
    NewArrayMapWithHasher V2 capacity hasher2 = .error e := by
  unfold NewArrayMapWithHasher at he ⊢
  by_cases hle : capacity ≤ 0
  · simp only [hle, if_true] at he ⊢
    rw [Except.error.inj he]
  · simp only [hle, if_false, make] at he ⊢
    by_cases hbad : wrapInt64 (capacity * capacityFactor) < 0 ∨
        wrapInt64 (capacity * capacityFactor) * sizeofPointer > maxAlloc
    · simp only [hbad, if_true] at he ⊢
      rw [Except.error.inj he]
    · have hbad2 : ¬ (wrapInt64 (capacity * capacityFactor) < 0 ∨
          wrapInt64 (capacity * capacityFactor) * sizeofMutex > maxAlloc) := hbad
      simp only [hbad, hbad2, if_false] at he
      cases he

end Construction

/-! ## Freshly constructed maps -/

section Fresh

variable {K V : Type} [Comparable K]

theorem fresh_WF (capacity : Int) (h : K → Nat) (m0 : ArrayMap K V) (hc : isInt capacity)
    (hok : NewArrayMapWithHasher V capacity (some h) = .ok m0) : m0.WF h := by
  obtain ⟨_, hlen, rfl⟩ := NewArrayMapWithHasher_ok capacity (some h) m0 hc hok
  refine ⟨rfl, ?_, ?_⟩
  · simp only [List.length_replicate]; omega
  · simp only [List.length_replicate]

theorem fresh_Get [Inhabited V] (capacity : Int) (hasher : Option (K → Nat)) (m0 : ArrayMap K V)
    (hc : isInt capacity) (hok : NewArrayMapWithHasher V capacity hasher = .ok m0) (key : K) :
    m0.Get key = .ok (default, false) := by
  cases hasher with
  | none =>
    obtain ⟨_, _, rfl⟩ := NewArrayMapWithHasher_ok capacity none m0 hc hok
    exact Get_nil _ key rfl
  | some h =>
    have hwf := fresh_WF capacity h m0 hc hok
    rw [Get_eq m0 h key hwf.hasher hwf.pos]
    obtain ⟨_, _, rfl⟩ := NewArrayMapWithHasher_ok capacity (some h) m0 hc hok
    have hlt := bucketOf_lt h _ key hwf.pos
    simp only [List.length_replicate] at hlt ⊢
    simp [List.getD, hlt, tuple.getLoop]

/-- Without a hasher no call changes the map. -/
theorem fresh_run_nil (capacity : Int) (m0 : ArrayMap K V) (hc : isInt capacity)
    (hok : NewArrayMapWithHasher V capacity none = .ok m0) (calls : List (Call K V)) :
    m0.run calls = .ok m0 := by
  rw [run_eq_MSet]
  obtain ⟨_, _, rfl⟩ := NewArrayMapWithHasher_ok capacity none m0 hc hok
  exact MSet_nil_hasher _ _ rfl

/-- A sequence of calls on a freshly constructed map with a hasher runs to the
end, in a state of the shape `WF` with the buckets the constructor made. -/
theorem fresh_run_WF (capacity : Int) (h : K → Nat) (m0 : ArrayMap K V) (hc : isInt capacity)
    (hok : NewArrayMapWithHasher V capacity (some h) = .ok m0) (calls : List (Call K V)) :
    ∃ m, m0.run calls = .ok m ∧ m.WF h ∧ m.array.length = m0.array.length := by
  rw [run_eq_MSet]
  exact MSet_ok h (pairsOf calls) m0 (fresh_WF capacity h m0 hc hok)

/-- A sequence of calls on a freshly constructed map runs to the end. -/
theorem fresh_run_ok (capacity : Int) (hasher : Option (K → Nat))
    (m0 : ArrayMap K V) (hc : isInt capacity)
    (hok : NewArrayMapWithHasher V capacity hasher = .ok m0) (calls : List (Call K V)) :
    ∃ m, m0.run calls = .ok m := by
  cases hasher with
  | none => exact ⟨m0, fresh_run_nil capacity m0 hc hok calls⟩
  | some h =>
    obtain ⟨m, hrun, _⟩ := fresh_run_WF capacity h m0 hc hok calls
    exact ⟨m, hrun⟩

/-- After any sequence of `Set` and `MSet` calls on a freshly constructed map
with a hasher, `Get` returns the value of the last call on a key `==` to the
key, or reports the key missing when no call was on such a key. -/
theorem fresh_run_Get [Inhabited V] (laws : EqLaws K) (capacity : Int) (h : K → Nat)
    (hh : HashRespectsEq h) (m0 : ArrayMap K V) (hc : isInt capacity)
    (hok : NewArrayMapWithHasher V capacity (some h) = .ok m0) (calls : List (Call K V)) :
    ∃ m, m0.run calls = .ok m ∧ m.WF h ∧ m.array.length = m0.array.length ∧
      ∀ key, m.Get key =
        (match lastSet key (pairsOf calls) with
          | some w => .ok (w, true)
          | none => .ok (default, false)) := by
  obtain ⟨m, hrun, hwf, hlen⟩ := fresh_run_WF capacity h m0 hc hok calls
  refine ⟨m, hrun, hwf, hlen, fun key => ?_⟩
  rw [run_eq_MSet] at hrun
  rw [MSet_Get laws h hh (pairsOf calls) m0 m (fresh_WF capacity h m0 hc hok) hrun key,
    fresh_Get capacity (some h) m0 hc hok key]

/-- After any sequence of `Set` and `MSet` calls on a freshly constructed map, a
key that is `==` to no key of the calls is missing. -/
theorem fresh_run_miss [Inhabited V] (capacity : Int) (hasher : Option (K → Nat))
    (m0 : ArrayMap K V) (hc : isInt capacity)
    (hok : NewArrayMapWithHasher V capacity hasher = .ok m0) (calls : List (Call K V))
    (k : K) (hk : ∀ p ∈ pairsOf calls, Comparable.eq p.1 k = false) :
    ∃ m, m0.run calls = .ok m ∧ m.Get k = .ok (default, false) := by
  cases hasher with
  | none =>
    exact ⟨m0, fresh_run_nil capacity m0 hc hok calls, fresh_Get capacity none m0 hc hok k⟩
  | some h =>
    obtain ⟨m, hrun, _, _⟩ := fresh_run_WF capacity h m0 hc hok calls
    refine ⟨m, hrun, ?_⟩
    rw [run_eq_MSet] at hrun
    exact MSet_miss h k (pairsOf calls) m0 m (fresh_WF capacity h m0 hc hok) hrun hk
      (fresh_Get capacity (some h) m0 hc hok k)

/-- Calls of `Set` on keys that are not `==` to `key` leave `Get(key)` as it
was, when `==` is symmetric and transitive. -/
theorem MSet_keeps_Get [Inhabited V] (laws : EqLaws K) (h : K → Nat) (key : K)
    (ps : List (K × V)) :
    ∀ (m m1 : ArrayMap K V), m.WF h → m.MSet ps = .ok m1 →
      (∀ p ∈ ps, Comparable.eq p.1 key = false) → m1.Get key = m.Get key := by
  induction ps with
  | nil =>
    intro m m1 _ hrun _
    cases hrun
    rfl
  | cons p rest ih =>
    intro m m1 hwf hrun hno
    obtain ⟨k, v⟩ := p
    simp only [ArrayMap.MSet, Set_eq m h k v hwf] at hrun
    rw [ih _ m1 (WF_afterSet m h k v hwf) hrun (fun p hp => hno p (List.mem_cons_of_mem _ hp))]
    exact Get_afterSet_other laws m h k key v hwf (hno (k, v) (List.mem_cons_self _ _))

/-- After a sequence of `Set` calls on a freshly constructed map with any
hasher, `Get(k)` returns the value of the last call on the key `k` itself, when
`k == k` and no later call is on a key `==` to `k`. -/
theorem fresh_run_Get_self [Inhabited V] (laws : EqLaws K) (capacity : Int) (h : K → Nat)
    (m0 : ArrayMap K V) (hc : isInt capacity)
    (hok : NewArrayMapWithHasher V capacity (some h) = .ok m0)
    (pre post : List (K × V)) (k : K) (v : V) (hk : Comparable.eq k k = true)
    (hpost : ∀ p ∈ post, Comparable.eq p.1 k = false) :
    ∃ m, m0.run (setCalls (pre ++ (k, v) :: post)) = .ok m ∧ m.Get k = .ok (v, true) := by
  rw [run_eq_MSet, pairsOf_setCalls, MSet_append]
  obtain ⟨m1, hrun1, hwf1, _⟩ := MSet_ok h pre m0 (fresh_WF capacity h m0 hc hok)
  rw [hrun1]
  simp only [ArrayMap.MSet, Set_eq m1 h k v hwf1]
  obtain ⟨m2, hrun2, _, _⟩ := MSet_ok h post _ (WF_afterSet m1 h k v hwf1)
  refine ⟨m2, hrun2, ?_⟩
  rw [MSet_keeps_Get laws h k post _ m2 (WF_afterSet m1 h k v hwf1) hrun2 hpost]
  exact Get_afterSet_self m1 h k v hwf1 (Or.inr hk)

/-- The counter after `Set` calls on keys that are pairwise not `==` and all
missing: it has been incremented, with wrap-around, once per call. -/
theorem MSet_size_distinct [Inhabited V] (h : K → Nat) (ps : List (K × V)) :
    ∀ (m : ArrayMap K V), m.WF h →
      (ps.map Prod.fst).Pairwise (fun a b => Comparable.eq a b = false) →
      (∀ k ∈ ps.map Prod.fst, m.Get k = .ok (default, false)) →
      wrapInt32 m.size = m.size →
      ∃ m1, m.MSet ps = .ok m1 ∧ m1.size = wrapInt32 (m.size + (ps.length : Int)) := by
  induction ps with
  | nil =>
    intro m hwf _ _ hsz
    exact ⟨m, rfl, by simp [hsz]⟩
  | cons p rest ih =>
    intro m hwf hnd hmiss _
    obtain ⟨k, v⟩ := p
    simp only [List.map_cons, List.pairwise_cons] at hnd
    have hk : tuple.has k (m.array.getD (bucketOf h m.array.length k) tuple.nil) = false :=
      (Get_eq_miss_iff m h k hwf).mp (hmiss k (by simp))
    have hwf1 := WF_afterSet m h k v hwf
    have hmiss2 : ∀ k2 ∈ rest.map Prod.fst, (m.afterSet h k v).Get k2 = .ok (default, false) := by
      intro k2 hk2
      rw [Get_eq_miss_iff _ h k2 hwf1, has_afterSet_other m h k k2 v hwf (hnd.1 k2 hk2)]
      exact (Get_eq_miss_iff m h k2 hwf).mp (hmiss k2 (by simp [hk2]))
    have hsz2 : wrapInt32 (m.afterSet h k v).size = (m.afterSet h k v).size := by
      simp only [ArrayMap.afterSet, hk, Bool.false_eq_true, if_false]
      exact wrapInt32_idem _
    obtain ⟨m1, hrun, hsize⟩ := ih (m.afterSet h k v) hwf1 hnd.2 hmiss2 hsz2
    refine ⟨m1, ?_, ?_⟩
    · simp only [ArrayMap.MSet, Set_eq m h k v hwf]
      exact hrun
    · rw [hsize]
      simp only [ArrayMap.afterSet, hk, Bool.false_eq_true, if_false, List.length_cons,
        Nat.cast_add, Nat.cast_one]
      rw [wrapInt32_add_wrapInt32]
      congr 1
      ring

/-- The counter after `Set` calls on keys that are pairwise not `==`, from a
freshly constructed map. -/
theorem fresh_count_distinct [Inhabited V] (capacity : Int) (h : K → Nat)
    (m0 : ArrayMap K V) (hc : isInt capacity)
    (hok : NewArrayMapWithHasher V capacity (some h) = .ok m0) (ps : List (K × V))
    (hnd : (ps.map Prod.fst).Pairwise (fun a b => Comparable.eq a b = false)) :
    ∃ m, m0.run (setCalls ps) = .ok m ∧ m.Count = wrapInt32 (ps.length : Int) := by
  have hwf := fresh_WF capacity h m0 hc hok
  have hsize : m0.size = 0 := by
    obtain ⟨_, _, rfl⟩ := NewArrayMapWithHasher_ok capacity (some h) m0 hc hok
    rfl
  have hsz : wrapInt32 m0.size = m0.size := by
    rw [hsize]; decide
  obtain ⟨m, hrun, hm⟩ := MSet_size_distinct h ps m0 hwf hnd
    (fun k _ => fresh_Get capacity (some h) m0 hc hok k) hsz
  refine ⟨m, ?_, ?_⟩
  · rw [run_eq_MSet, pairsOf_setCalls]; exact hrun
  · rw [ArrayMap.Count, hm, hsize, zero_add]

theorem map_fst_range_pairs {V : Type} (n : Nat) (v : V) :
    ((List.range n).map (fun k => (k, v))).map Prod.fst = List.range n := by
  rw [List.map_map]
  exact List.map_id _

/-- A second `Set` on the same key finds the node of the first, when the chain
had a node with a key `==` to the key or the key is `==` to itself. -/
theorem afterSet_afterSet_size (m : ArrayMap K V) (h : K → Nat) (k : K) (v1 v2 : V)
    (hwf : m.WF h)
    (hk : tuple.has k (m.array.getD (bucketOf h m.array.length k) tuple.nil) = true ∨
      Comparable.eq k k = true) :
    ((m.afterSet h k v1).afterSet h k v2).size = (m.afterSet h k v1).size := by
  have hmem : tuple.has k ((m.afterSet h k v1).array.getD
      (bucketOf h (m.afterSet h k v1).array.length k) tuple.nil) = true := by
    rw [afterSet_getD_self m h k v1 hwf]
    exact has_put_self k v1 _ hk
  have hdef : ((m.afterSet h k v1).afterSet h k v2).size =
      if tuple.has k ((m.afterSet h k v1).array.getD
        (bucketOf h (m.afterSet h k v1).array.length k) tuple.nil) = true
      then (m.afterSet h k v1).size else wrapInt32 ((m.afterSet h k v1).size + 1) := rfl
  rw [hdef, if_pos hmem]

theorem afterSet_afterSet_same (m : ArrayMap K V) (h : K → Nat) (k : K) (v : V)
    (hwf : m.WF h)
    (hk : tuple.has k (m.array.getD (bucketOf h m.array.length k) tuple.nil) = true ∨
      Comparable.eq k k = true) :
    (m.afterSet h k v).afterSet h k v = m.afterSet h k v := by
  have hsz := afterSet_afterSet_size m h k v v hwf hk
  have harr : ((m.afterSet h k v).afterSet h k v).array = (m.afterSet h k v).array := by
    have hdef : ((m.afterSet h k v).afterSet h k v).array =
        (m.afterSet h k v).array.set (bucketOf h (m.afterSet h k v).array.length k)
          (tuple.put k v ((m.afterSet h k v).array.getD
            (bucketOf h (m.afterSet h k v).array.length k) tuple.nil)) := rfl
    rw [hdef, afterSet_getD_self m h k v hwf, afterSet_length, put_put k v v _ hk]
    have hdef2 : (m.afterSet h k v).array = m.array.set (bucketOf h m.array.length k)
        (tuple.put k v (m.array.getD (bucketOf h m.array.length k) tuple.nil)) := rfl
    rw [hdef2, List.set_set]
  have hls : ((m.afterSet h k v).afterSet h k v).ls = (m.afterSet h k v).ls := rfl
  have hh : ((m.afterSet h k v).afterSet h k v).idxHasher = (m.afterSet h k v).idxHasher := rfl
  cases hA : (m.afterSet h k v).afterSet h k v with
  | mk a1 l1 s1 i1 =>
    cases hB : m.afterSet h k v with
    | mk a2 l2 s2 i2 =>
      rw [hA, hB] at hsz harr hls hh
      simp only at hsz harr hls hh
      rw [hsz, harr, hls, hh]

/-- Two `Set` calls on one key that is `==` to itself, from any state reached
from a freshly constructed map with a hasher. -/
theorem fresh_run_Set_Set [Inhabited V] (capacity : Int) (h : K → Nat)
    (m0 : ArrayMap K V) (hc : isInt capacity)
    (hok : NewArrayMapWithHasher V capacity (some h) = .ok m0) (calls : List (Call K V))
    (m : ArrayMap K V) (hrun : m0.run calls = .ok m) (k : K) (v1 v2 : V)
    (hk : Comparable.eq k k = true) :
    ∃ m1 m2, m.Set k v1 = .ok m1 ∧ m1.Set k v2 = .ok m2 ∧ m2.Count = m1.Count ∧
      m2.Get k = .ok (v2, true) ∧ m1.Set k v1 = .ok m1 := by
  obtain ⟨m9, hrun9, hwf9, _⟩ := fresh_run_WF capacity h m0 hc hok calls
  rw [hrun] at hrun9
  cases hrun9
  have hwf1 := WF_afterSet m h k v1 hwf9
  refine ⟨m.afterSet h k v1, (m.afterSet h k v1).afterSet h k v2, Set_eq m h k v1 hwf9,
    Set_eq _ h k v2 hwf1, ?_, Get_afterSet_self _ h k v2 hwf1 (Or.inr hk), ?_⟩
  · exact afterSet_afterSet_size m h k v1 v2 hwf9 (Or.inr hk)
  · rw [Set_eq _ h k v1 hwf1, afterSet_afterSet_same m h k v1 hwf9 (Or.inr hk)]

end Fresh

/-! ## Floating-point keys -/

section FloatKeys

theorem eq_Float64_def (a b : Float64) :
    Comparable.eq a b =
      (!a.isNaN && !b.isNaN && (decide (a.bits = b.bits) || (a.isZero && b.isZero))) := rfl

/-- Go's `==` on `float64` is symmetric and transitive. -/
theorem eqLaws_Float64 : EqLaws Float64 := by
  constructor
  · intro a b hab
    rw [eq_Float64_def] at hab ⊢
    simp only [Bool.and_eq_true, Bool.not_eq_eq_eq_not, Bool.not_true, Bool.or_eq_true, decide_eq_true_eq] at hab ⊢
    obtain ⟨⟨ha, hb⟩, hz⟩ := hab
    refine ⟨⟨hb, ha⟩, ?_⟩
    rcases hz with e | ⟨e1, e2⟩
    · exact Or.inl e.symm
    · exact Or.inr ⟨e2, e1⟩
  · intro a b c hab hbc
    rw [eq_Float64_def] at hab hbc ⊢
    simp only [Bool.and_eq_true, Bool.not_eq_eq_eq_not, Bool.not_true, Bool.or_eq_true, decide_eq_true_eq]
      at hab hbc ⊢
    obtain ⟨⟨ha, hb⟩, hz⟩ := hab
    obtain ⟨⟨_, hc⟩, hz2⟩ := hbc
    refine ⟨⟨ha, hc⟩, ?_⟩
    rcases hz with e | ⟨e1, e2⟩
    · rcases hz2 with e3 | ⟨e3, e4⟩
      · exact Or.inl (e.trans e3)
      · refine Or.inr ⟨?_, e4⟩
        unfold Float64.isZero at e3 ⊢
        rw [e]
        exact e3
    · rcases hz2 with e3 | ⟨e3, e4⟩
      · refine Or.inr ⟨e1, ?_⟩
        unfold Float64.isZero at e2 ⊢
        rw [← e3]
        exact e2
      · exact Or.inr ⟨e1, e4⟩

theorem hashRespectsEq_const {K : Type} [Comparable K] (c : Nat) :
    HashRespectsEq (fun _ : K => c) := by
  intro a b _
  rfl

end FloatKeys

/-! ## Chains, placement and `Items` -/

section Snapshot

variable {K V : Type} [Comparable K]

theorem keys_eq_map_toList (t : tuple K V) : tuple.keys t = (tuple.toList t).map Prod.fst := by
  induction t with
  | nil => rfl
  | node k v next ih => simp only [tuple.keys, tuple.toList, List.map_cons, ih]

theorem allNodes_map_fst (m : ArrayMap K V) : m.allNodes.map Prod.fst = m.allKeys := by
  unfold ArrayMap.allNodes ArrayMap.allKeys
  rw [List.map_flatten, List.map_map]
  congr 1
  apply List.map_congr_left
  intro t _
  exact (keys_eq_map_toList t).symm

/-- A map assignment whose key is `==` to no key of the map adds an entry at
the end. -/
theorem assign_of_no_eq (mp : GoMap K V) (k : K) (v : V)
    (hno : ∀ p ∈ mp, Comparable.eq p.1 k = false) : GoMap.assign mp k v = mp ++ [(k, v)] := by
  induction mp with
  | nil => rfl
  | cons p rest ih =>
    obtain ⟨k1, v1⟩ := p
    have h1 : Comparable.eq k1 k = false := hno (k1, v1) (List.mem_cons_self _ _)
    simp only [GoMap.assign, h1, Bool.false_eq_true, if_false, List.cons_append]
    rw [ih (fun p hp => hno p (List.mem_cons_of_mem _ hp))]

theorem itemsLoop_eq_append (t : tuple K V) :
    ∀ (tmp : GoMap K V),
      (tmp.map Prod.fst ++ tuple.keys t).Pairwise (fun a b => Comparable.eq a b = false) →
      tuple.itemsLoop t tmp = tmp ++ tuple.toList t := by
  induction t with
  | nil =>
    intro tmp _
    simp only [tuple.itemsLoop, tuple.toList, List.append_nil]
  | node k v next ih =>
    intro tmp hp
    simp only [tuple.keys] at hp
    have hno : ∀ p ∈ tmp, Comparable.eq p.1 k = false := by
      intro p hpm
      have := List.pairwise_append.mp hp
      exact this.2.2 p.1 (List.mem_map_of_mem Prod.fst hpm) k (List.mem_cons_self _ _)
    simp only [tuple.itemsLoop, tuple.toList]
    rw [assign_of_no_eq tmp k v hno, ih]
    · simp only [List.append_assoc, List.singleton_append]
    · simp only [List.map_append, List.map_cons, List.map_nil, List.append_assoc,
        List.singleton_append]
      exact hp

theorem foldl_itemsLoop_eq_append (bs : List (tuple K V)) :
    ∀ (tmp : GoMap K V),
      (tmp.map Prod.fst ++ (bs.map tuple.keys).flatten).Pairwise
        (fun a b => Comparable.eq a b = false) →
      bs.foldl (fun tmp item => tuple.itemsLoop item tmp) tmp =
        tmp ++ (bs.map tuple.toList).flatten := by
  induction bs with
  | nil =>
    intro tmp _
    simp only [List.foldl_nil, List.map_nil, List.flatten_nil, List.append_nil]
  | cons b rest ih =>
    intro tmp hp
    simp only [List.map_cons, List.flatten_cons] at hp
    have hb : (tmp.map Prod.fst ++ tuple.keys b).Pairwise
        (fun a b => Comparable.eq a b = false) := by
      rw [← List.append_assoc] at hp
      exact (List.pairwise_append.mp hp).1
    simp only [List.foldl_cons, List.map_cons, List.flatten_cons]
    rw [itemsLoop_eq_append b tmp hb, ih]
    · simp only [List.append_assoc]
    · simp only [List.map_append, List.append_assoc, ← keys_eq_map_toList]
      exact hp

/-- When no two nodes of the map have `==` keys, `Items()` has one entry per
node, in the order of the buckets and of the chains. -/
theorem Items_eq_allNodes (m : ArrayMap K V)
    (hp : m.allKeys.Pairwise (fun a b => Comparable.eq a b = false)) :
    m.Items = m.allNodes := by
  unfold ArrayMap.Items ArrayMap.allNodes
  rw [foldl_itemsLoop_eq_append m.array GoMap.empty]
  · rfl
  · exact hp

theorem lookup_append (a b : GoMap K V) (k : K) :
    GoMap.lookup (a ++ b) k =
      (match GoMap.lookup a k with
        | some v => some v
        | none => GoMap.lookup b k) := by
  induction a with
  | nil => rfl
  | cons p rest ih =>
    obtain ⟨k1, v1⟩ := p
    cases h1 : Comparable.eq k1 k with
    | true => simp only [List.cons_append, GoMap.lookup, h1, if_true]
    | false =>
      simp only [List.cons_append, GoMap.lookup, h1, Bool.false_eq_true, if_false]
      exact ih

theorem lookup_eq_none_iff (mp : GoMap K V) (k : K) :
    GoMap.lookup mp k = none ↔ ∀ p ∈ mp, Comparable.eq p.1 k = false := by
  induction mp with
  | nil => simp [GoMap.lookup]
  | cons p rest ih =>
    obtain ⟨k1, v1⟩ := p
    cases h1 : Comparable.eq k1 k with
    | true =>
      simp only [GoMap.lookup, h1, if_true]
      constructor
      · intro e; cases e
      · intro hall
        have := hall (k1, v1) (List.mem_cons_self _ _)
        rw [h1] at this
        cases this
    | false =>
      simp only [GoMap.lookup, h1, Bool.false_eq_true, if_false, ih]
      constructor
      · intro hall p hp
        rcases List.mem_cons.mp hp with e | e
        · rw [e]; exact h1
        · exact hall p e
      · intro hall p hp
        exact hall p (List.mem_cons_of_mem _ hp)

theorem lookup_toList [Inhabited V] (t : tuple K V) (k : K) :
    GoMap.lookup (tuple.toList t) k =
      if (tuple.getLoop k t).2 = true then some (tuple.getLoop k t).1 else none := by
  induction t with
  | nil => simp [tuple.toList, GoMap.lookup, tuple.getLoop]
  | node k1 v1 next ih =>
    cases h1 : Comparable.eq k1 k with
    | true => simp [tuple.toList, GoMap.lookup, tuple.getLoop, h1]
    | false => simp [tuple.toList, GoMap.lookup, tuple.getLoop, h1, ih]

theorem lookup_flatten_no_eq (bs : List (tuple K V)) (k : K)
    (hno : ∀ b ∈ bs, ∀ a ∈ tuple.keys b, Comparable.eq a k = false) :
    GoMap.lookup (bs.map tuple.toList).flatten k = none := by
  rw [lookup_eq_none_iff]
  intro p hp
  obtain ⟨l, hl, hpl⟩ := List.mem_flatten.mp hp
  obtain ⟨b, hb, rfl⟩ := List.mem_map.mp hl
  apply hno b hb
  rw [keys_eq_map_toList]
  exact List.mem_map_of_mem Prod.fst hpl

theorem getD_eq_getElem (m : ArrayMap K V) (i : Nat) (hi : i < m.array.length) :
    m.array.getD i tuple.nil = m.array[i] := by
  simp [List.getD, List.getElem?_eq_getElem hi]

theorem array_split (m : ArrayMap K V) (i : Nat) (hi : i < m.array.length) :
    m.array = List.take i m.array ++ m.array.getD i tuple.nil :: List.drop (i + 1) m.array := by
  rw [getD_eq_getElem m i hi, ← List.drop_eq_getElem_cons hi, List.take_append_drop]

/-- With every node in the bucket of its key and a hasher that respects `==`, a
node whose key is `==` to `k` is in the bucket of `k`. -/
theorem no_eq_outside_bucket (m : ArrayMap K V) (h : K → Nat) (hh : HashRespectsEq h)
    (hpl : m.Placed h) (k : K) (j : Nat) (t : tuple K V) (hj : m.array[j]? = some t)
    (hne : j ≠ bucketOf h m.array.length k) :
    ∀ a ∈ tuple.keys t, Comparable.eq a k = false := by
  intro a ha
  cases hc : Comparable.eq a k with
  | false => rfl
  | true =>
    have h1 := hpl j t hj a ha
    have h2 := bucketOf_eq_of_hash h m.array.length a k (hh a k hc)
    rw [h1] at h2
    exact absurd h2 hne

/-- What the list of all nodes holds for a key is what the chain of the key's
bucket holds for it. -/
theorem lookup_allNodes [Inhabited V] (m : ArrayMap K V) (h : K → Nat) (hh : HashRespectsEq h)
    (k : K) (hwf : m.WF h) (hpl : m.Placed h) :
    GoMap.lookup m.allNodes k =
      if (tuple.getLoop k (m.array.getD (bucketOf h m.array.length k) tuple.nil)).2 = true
      then some (tuple.getLoop k (m.array.getD (bucketOf h m.array.length k) tuple.nil)).1
      else none := by
  have hlt := bucketOf_lt h m.array.length k hwf.pos
  have hpre : ∀ b ∈ List.take (bucketOf h m.array.length k) m.array,
      ∀ a ∈ tuple.keys b, Comparable.eq a k = false := by
    intro b hb
    obtain ⟨j, hj⟩ := List.mem_iff_getElem?.mp hb
    rw [List.getElem?_take] at hj
    by_cases hjl : j < bucketOf h m.array.length k
    · rw [if_pos hjl] at hj
      exact no_eq_outside_bucket m h hh hpl k j b hj (by omega)
    · rw [if_neg hjl] at hj
      cases hj
  have hpost : ∀ b ∈ List.drop (bucketOf h m.array.length k + 1) m.array,
      ∀ a ∈ tuple.keys b, Comparable.eq a k = false := by
    intro b hb
    obtain ⟨j, hj⟩ := List.mem_iff_getElem?.mp hb
    rw [List.getElem?_drop] at hj
    exact no_eq_outside_bucket m h hh hpl k _ b hj (by omega)
  unfold ArrayMap.allNodes
  conv_lhs => rw [array_split m _ hlt]
  rw [List.map_append, List.map_cons, List.flatten_append, List.flatten_cons, lookup_append,
    lookup_flatten_no_eq _ k hpre, lookup_append, lookup_flatten_no_eq _ k hpost, lookup_toList]
  split_ifs <;> rfl

/-- With every node in the bucket of its key, no two `==` keys in a chain, a
symmetric `==` and a hasher that respects `==`, no two nodes of the map have
`==` keys. -/
theorem allKeys_pairwise (laws : EqLaws K) (m : ArrayMap K V) (h : K → Nat)
    (hh : HashRespectsEq h) (hnd : m.ChainsNodup) (hpl : m.Placed h) :
    m.allKeys.Pairwise (fun a b => Comparable.eq a b = false) := by
  unfold ArrayMap.allKeys
  rw [List.pairwise_flatten]
  constructor
  · intro l hl
    obtain ⟨t, ht, rfl⟩ := List.mem_map.mp hl
    refine (hnd t ht).imp ?_
    intro a b hba
    cases hc : Comparable.eq a b with
    | false => rfl
    | true =>
      rw [laws.symm a b hc] at hba
      cases hba
  · rw [List.pairwise_iff_getElem]
    intro i j hi hj hij a ha b hb
    rw [List.getElem_map] at ha hb
    have hi2 : i < m.array.length := by simpa using hi
    have hj2 : j < m.array.length := by simpa using hj
    have h1 := hpl i _ (List.getElem?_eq_getElem hi2) a ha
    have h2 := hpl j _ (List.getElem?_eq_getElem hj2) b hb
    cases hc : Comparable.eq a b with
    | false => rfl
    | true =>
      have h3 := bucketOf_eq_of_hash h m.array.length a b (hh a b hc)
      omega

theorem length_allKeys (m : ArrayMap K V) : m.allKeys.length = m.nodeCount := by
  unfold ArrayMap.allKeys ArrayMap.nodeCount
  rw [List.length_flatten, List.map_map]
  rfl

theorem length_allNodes (m : ArrayMap K V) : m.allNodes.length = m.nodeCount := by
  rw [← length_allKeys, ← allNodes_map_fst, List.length_map]

/-- `Items()[k]` is `v` exactly when `Get(k)` is `(v, true)`. -/
theorem lookup_Items_iff_Get [Inhabited V] (laws : EqLaws K) (m : ArrayMap K V) (h : K → Nat)
    (hh : HashRespectsEq h) (k : K) (v : V)
    (hwf : m.WF h) (hnd : m.ChainsNodup) (hpl : m.Placed h) :
    GoMap.lookup m.Items k = some v ↔ m.Get k = .ok (v, true) := by
  rw [Items_eq_allNodes m (allKeys_pairwise laws m h hh hnd hpl),
    lookup_allNodes m h hh k hwf hpl, Get_eq m h k hwf.hasher hwf.pos]
  cases hg : tuple.getLoop k (m.array.getD (bucketOf h m.array.length k) tuple.nil) with
  | mk a b =>
    cases b with
    | true => simp
    | false => simp

end Snapshot

/-! ## Invariants of the reachable states -/

section Reachable

variable {K V : Type} [Comparable K]

theorem ChainsNodup_afterSet (m : ArrayMap K V) (h : K → Nat) (k : K) (v : V) (hwf : m.WF h)
    (hnd : m.ChainsNodup) : (m.afterSet h k v).ChainsNodup := by
  have hlt := bucketOf_lt h m.array.length k hwf.pos
  intro t ht
  have ht2 : t ∈ m.array.set (bucketOf h m.array.length k)
      (tuple.put k v (m.array.getD (bucketOf h m.array.length k) tuple.nil)) := ht
  rcases List.mem_or_eq_of_mem_set ht2 with hold | hnew
  · exact hnd t hold
  · have hchain : (tuple.keys (m.array.getD (bucketOf h m.array.length k) tuple.nil)).Pairwise
        (fun a b => Comparable.eq b a = false) := by
      apply hnd
      rw [getD_eq_getElem m _ hlt]
      exact List.getElem_mem _
    rw [hnew, keys_put]
    cases hm : tuple.has k (m.array.getD (bucketOf h m.array.length k) tuple.nil) with
    | true => rw [if_pos rfl]; exact hchain
    | false =>
      rw [if_neg (by simp)]
      exact List.pairwise_cons.mpr ⟨(has_eq_false_iff k _).mp hm, hchain⟩

theorem Placed_afterSet (m : ArrayMap K V) (h : K → Nat) (k : K) (v : V) (hwf : m.WF h)
    (hpl : m.Placed h) : (m.afterSet h k v).Placed h := by
  have hlt := bucketOf_lt h m.array.length k hwf.pos
  intro j t hj k2 hk2
  rw [afterSet_length]
  have hj2 : (m.array.set (bucketOf h m.array.length k)
      (tuple.put k v (m.array.getD (bucketOf h m.array.length k) tuple.nil)))[j]? = some t := hj
  rw [List.getElem?_set] at hj2
  by_cases hij : bucketOf h m.array.length k = j
  · rw [if_pos hij, if_pos hlt] at hj2
    have ht : t = tuple.put k v (m.array.getD (bucketOf h m.array.length k) tuple.nil) :=
      (Option.some.inj hj2).symm
    rw [ht, keys_put] at hk2
    have hold : ∀ k3 ∈ tuple.keys (m.array.getD (bucketOf h m.array.length k) tuple.nil),
        bucketOf h m.array.length k3 = j := by
      intro k3 hk3
      rw [← hij]
      apply hpl _ (m.array.getD (bucketOf h m.array.length k) tuple.nil) _ k3 hk3
      rw [getD_eq_getElem m _ hlt]
      exact List.getElem?_eq_getElem hlt
    cases hm : tuple.has k (m.array.getD (bucketOf h m.array.length k) tuple.nil) with
    | true =>
      rw [hm, if_pos rfl] at hk2
      exact hold k2 hk2
    | false =>
      rw [hm, if_neg (by simp), List.mem_cons] at hk2
      rcases hk2 with e | e
      · rw [e]; exact hij
      · exact hold k2 e
  · rw [if_neg hij] at hj2
    exact hpl j t hj2 k2 hk2

/-- The key of every node after `Set(k, v)` is the key of a node before, or `k`. -/
theorem allKeys_afterSet (m : ArrayMap K V) (h : K → Nat) (k : K) (v : V) :
    ∀ a ∈ (m.afterSet h k v).allKeys, a ∈ m.allKeys ∨ a = k := by
  intro a ha
  unfold ArrayMap.allKeys at ha ⊢
  obtain ⟨l, hl, hal⟩ := List.mem_flatten.mp ha
  obtain ⟨t, ht, rfl⟩ := List.mem_map.mp hl
  have ht2 : t ∈ m.array.set (bucketOf h m.array.length k)
      (tuple.put k v (m.array.getD (bucketOf h m.array.length k) tuple.nil)) := ht
  rcases List.mem_or_eq_of_mem_set ht2 with hold | hnew
  · exact Or.inl (List.mem_flatten.mpr ⟨_, List.mem_map_of_mem _ hold, hal⟩)
  · rw [hnew, keys_put] at hal
    have hsub : ∀ b ∈ tuple.keys (m.array.getD (bucketOf h m.array.length k) tuple.nil),
        b ∈ (m.array.map tuple.keys).flatten := by
      intro b hb
      by_cases hlt : bucketOf h m.array.length k < m.array.length
      · refine List.mem_flatten.mpr ⟨_, List.mem_map_of_mem _ ?_, hb⟩
        rw [getD_eq_getElem m _ hlt]
        exact List.getElem_mem _
      · have hnil : m.array.getD (bucketOf h m.array.length k) tuple.nil = tuple.nil := by
          simp [List.getD, List.getElem?_eq_none (Nat.le_of_not_lt hlt)]
        rw [hnil] at hb
        cases hb
    cases hm : tuple.has k (m.array.getD (bucketOf h m.array.length k) tuple.nil) with
    | true =>
      rw [hm, if_pos rfl] at hal
      exact Or.inl (hsub a hal)
    | false =>
      rw [hm, if_neg (by simp), List.mem_cons] at hal
      rcases hal with e | e
      · exact Or.inr e
      · exact Or.inl (hsub a e)

/-- The invariants of the chains after a sequence of `Set` calls. -/
theorem MSet_inv (h : K → Nat) (ps : List (K × V)) :
    ∀ (m m1 : ArrayMap K V), m.WF h → m.ChainsNodup → m.Placed h → m.MSet ps = .ok m1 →
      m1.ChainsNodup ∧ m1.Placed h ∧ ∀ a ∈ m1.allKeys, a ∈ m.allKeys ∨ a ∈ ps.map Prod.fst := by
  induction ps with
  | nil =>
    intro m m1 _ hnd hpl hrun
    cases hrun
    exact ⟨hnd, hpl, fun a ha => Or.inl ha⟩
  | cons p rest ih =>
    intro m m1 hwf hnd hpl hrun
    obtain ⟨k, v⟩ := p
    simp only [ArrayMap.MSet, Set_eq m h k v hwf] at hrun
    obtain ⟨h1, h2, h3⟩ := ih _ m1 (WF_afterSet m h k v hwf) (ChainsNodup_afterSet m h k v hwf hnd)
      (Placed_afterSet m h k v hwf hpl) hrun
    refine ⟨h1, h2, fun a ha => ?_⟩
    rcases h3 a ha with e | e
    · rcases allKeys_afterSet m h k v a e with e2 | e2
      · exact Or.inl e2
      · exact Or.inr (by simp [e2])
    · exact Or.inr (by simp only [List.map_cons, List.mem_cons]; exact Or.inr e)

theorem fresh_inv (capacity : Int) (hasher : Option (K → Nat)) (h : K → Nat)
    (m0 : ArrayMap K V) (hc : isInt capacity)
    (hok : NewArrayMapWithHasher V capacity hasher = .ok m0) :
    m0.ChainsNodup ∧ m0.Placed h ∧ m0.allKeys = [] := by
  obtain ⟨_, _, rfl⟩ := NewArrayMapWithHasher_ok capacity hasher m0 hc hok
  refine ⟨?_, ?_, ?_⟩
  · intro t ht
    have ht2 : t ∈ List.replicate (wrapInt64 (capacity * capacityFactor)).toNat
        (tuple.nil : tuple K V) := ht
    rw [(List.mem_replicate.mp ht2).2]
    exact List.Pairwise.nil
  · intro j t hj k hk
    have hj2 : (List.replicate (wrapInt64 (capacity * capacityFactor)).toNat
        (tuple.nil : tuple K V))[j]? = some t := hj
    have ht : t ∈ List.replicate (wrapInt64 (capacity * capacityFactor)).toNat
        (tuple.nil : tuple K V) := List.mem_iff_getElem?.mpr ⟨j, hj2⟩
    rw [(List.mem_replicate.mp ht).2] at hk
    simp [tuple.keys] at hk
  · unfold ArrayMap.allKeys
    simp only [List.map_replicate, tuple.keys]
    generalize (wrapInt64 (capacity * capacityFactor)).toNat = n
    induction n with
    | zero => rfl
    | succ n ih => simp only [List.replicate_succ, List.flatten_cons, List.nil_append, ih]

/-- The states reached from a freshly constructed map with a hasher: the shape
is `WF`, no chain holds two `==` keys, every node is in the bucket of its key,
and the key of every node is the key of a pair passed. -/
theorem fresh_run_chains (capacity : Int) (h : K → Nat)
    (m0 : ArrayMap K V) (hc : isInt capacity)
    (hok : NewArrayMapWithHasher V capacity (some h) = .ok m0) (calls : List (Call K V)) :
    ∃ m, m0.run calls = .ok m ∧ m.WF h ∧ m.array.length = m0.array.length ∧
      m.ChainsNodup ∧ m.Placed h ∧ ∀ a ∈ m.allKeys, a ∈ (pairsOf calls).map Prod.fst := by
  obtain ⟨m, hrun, hwf, hlen⟩ := fresh_run_WF capacity h m0 hc hok calls
  have hrun2 := hrun
  rw [run_eq_MSet] at hrun2
  obtain ⟨hnd0, hpl0, hk0⟩ := fresh_inv capacity (some h) h m0 hc hok
  obtain ⟨hnd, hpl, hk⟩ := MSet_inv h _ m0 m (fresh_WF capacity h m0 hc hok) hnd0 hpl0 hrun2
  refine ⟨m, hrun, hwf, hlen, hnd, hpl, fun a ha => ?_⟩
  rcases hk a ha with e | e
  · rw [hk0] at e
    cases e
  · exact e

/-- The snapshot `Items()` after a sequence of `Set` calls on a freshly
constructed map with a hasher that respects `==`. -/
theorem fresh_run_Items [Inhabited V] (laws : EqLaws K) (capacity : Int) (h : K → Nat)
    (hh : HashRespectsEq h) (m0 : ArrayMap K V) (hc : isInt capacity)
    (hok : NewArrayMapWithHasher V capacity (some h) = .ok m0) (ps : List (K × V)) :
    ∃ m, m0.run (setCalls ps) = .ok m ∧
      ((m.Items).map Prod.fst).Pairwise (fun a b => Comparable.eq a b = false) ∧
      (∀ k ∈ (m.Items).map Prod.fst, k ∈ ps.map Prod.fst) ∧
      (∀ k, (∃ q ∈ m.Items, Comparable.eq q.1 k = true) ↔
        (∃ p ∈ ps, Comparable.eq p.1 k = true)) ∧
      (∀ (pre post : List (K × V)) (k2 k : K) (v : V), ps = pre ++ (k2, v) :: post →
        Comparable.eq k2 k = true → (∀ p ∈ post, Comparable.eq p.1 k = false) →
        GoMap.lookup m.Items k = some v) ∧
      (∀ (k : K) (v : V), GoMap.lookup m.Items k = some v ↔ m.Get k = .ok (v, true)) := by
  obtain ⟨m, hrun, hwf, _, hnd, hpl, hkeys⟩ :=
    fresh_run_chains capacity h m0 hc hok (setCalls ps)
  obtain ⟨m2, hrun2, _, _, hget⟩ := fresh_run_Get laws capacity h hh m0 hc hok (setCalls ps)
  rw [hrun] at hrun2
  cases hrun2
  rw [pairsOf_setCalls] at hget hkeys
  have hpw := allKeys_pairwise laws m h hh hnd hpl
  have hitems := Items_eq_allNodes m hpw
  have hiff : ∀ (k : K) (v : V), GoMap.lookup m.Items k = some v ↔ m.Get k = .ok (v, true) :=
    fun k v => lookup_Items_iff_Get laws m h hh k v hwf hnd hpl
  refine ⟨m, hrun, ?_, ?_, ?_, ?_, hiff⟩
  · rw [hitems, allNodes_map_fst]
    exact hpw
  · rw [hitems, allNodes_map_fst]
    exact hkeys
  · intro k
    constructor
    · rintro ⟨q, hq, hqk⟩
      by_contra hn
      have hall : ∀ p ∈ ps, Comparable.eq p.1 k = false := by
        intro p hp
        cases hc2 : Comparable.eq p.1 k with
        | false => rfl
        | true => exact absurd ⟨p, hp, hc2⟩ hn
      have hg := hget k
      rw [(lastSet_eq_none_iff k ps).mpr hall] at hg
      cases hv : GoMap.lookup m.Items k with
      | none =>
        have := (lookup_eq_none_iff m.Items k).mp hv q hq
        rw [hqk] at this
        cases this
      | some v =>
        have := (hiff k v).mp hv
        rw [hg] at this
        simp at this
    · rintro ⟨p, hp, hpk⟩
      by_contra hn
      have hall : ∀ q ∈ m.Items, Comparable.eq q.1 k = false := by
        intro q hq
        cases hc2 : Comparable.eq q.1 k with
        | false => rfl
        | true => exact absurd ⟨q, hq, hc2⟩ hn
      have hnone := (lookup_eq_none_iff m.Items k).mpr hall
      cases hl : lastSet k ps with
      | none =>
        have := (lastSet_eq_none_iff k ps).mp hl p hp
        rw [hpk] at this
        cases this
      | some w =>
        have hg := hget k
        rw [hl] at hg
        have := (hiff k w).mpr hg
        rw [hnone] at this
        cases this
  · intro pre post k2 k v hps heq hpost
    apply (hiff k v).mpr
    rw [hget k, hps, lastSet_append_cons k k2 v pre post heq hpost]

/-- The snapshot `Items()` after a sequence of `Set` calls on a freshly
constructed map with a hasher, for a key type on which `==` is the identity. -/
theorem fresh_run_Items_id [Inhabited V] (hid : EqIsIdentity K) (capacity : Int) (h : K → Nat)
    (m0 : ArrayMap K V) (hc : isInt capacity)
    (hok : NewArrayMapWithHasher V capacity (some h) = .ok m0) (ps : List (K × V)) :
    ∃ m, m0.run (setCalls ps) = .ok m ∧
      ((m.Items).map Prod.fst).Nodup ∧
      (∀ k, k ∈ (m.Items).map Prod.fst ↔ k ∈ ps.map Prod.fst) ∧
      (∀ (pre post : List (K × V)) (k : K) (v : V), ps = pre ++ (k, v) :: post →
        k ∉ post.map Prod.fst → GoMap.lookup m.Items k = some v) ∧
      (∀ (k : K) (v : V), GoMap.lookup m.Items k = some v ↔ m.Get k = .ok (v, true)) := by
  obtain ⟨m, hrun, hpw, _, hkeys, hlast, hiff⟩ := fresh_run_Items (eqLaws_of_identity hid)
    capacity h (hashRespectsEq_of_identity hid h) m0 hc hok ps
  have hmem : ∀ (l : List (K × V)) (k : K),
      (∃ q ∈ l, Comparable.eq q.1 k = true) ↔ k ∈ l.map Prod.fst := by
    intro l k
    constructor
    · rintro ⟨q, hq, hqk⟩
      rw [← (hid q.1 k).mp hqk]
      exact List.mem_map_of_mem Prod.fst hq
    · intro hk
      obtain ⟨q, hq, hqk⟩ := List.mem_map.mp hk
      exact ⟨q, hq, (hid q.1 k).mpr hqk⟩
  refine ⟨m, hrun, (pairwise_ne_iff_nodup hid _).mp hpw, ?_, ?_, hiff⟩
  · intro k
    rw [← hmem m.Items k, ← hmem ps k]
    exact hkeys k
  · intro pre post k v hps hpost
    exact hlast pre post k k v hps (eq_self_of_identity hid k)
      ((no_eq_iff_not_mem hid post k).mpr hpost)

end Reachable

/-! ## The default hash -/

section Hash

theorem fnv32Loop_eq_foldl (rest : GoString) :
    ∀ (pre : GoString) (hash : Nat),
      fnv32Loop (pre ++ rest) rest.length pre.length hash =
        rest.foldl (fun acc b => ((acc * 16777619) % 4294967296) ^^^ b.val) hash := by
  induction rest with
  | nil => intro pre hash; rfl
  | cons b rest ih =>
    intro pre hash
    have hget : (pre ++ b :: rest).getD pre.length 0 = b := by
      rw [List.getD_eq_getElem?_getD, List.getElem?_append_right (le_refl _)]
      simp
    have happ : pre ++ b :: rest = (pre ++ [b]) ++ rest := by simp
    have hlen : pre.length + 1 = (pre ++ [b]).length := by simp
    simp only [List.length_cons, fnv32Loop, hget, List.foldl_cons, uint32Mod]
    rw [happ, hlen]
    exact ih (pre ++ [b]) _

theorem fnv32_eq_foldl (key : GoString) :
    fnv32 key = key.foldl (fun acc b => ((acc * 16777619) % 4294967296) ^^^ b.val)
      2166136261 := by
  have := fnv32Loop_eq_foldl key [] 2166136261
  simpa [fnv32] using this

theorem foldl_fnv_lt (key : GoString) :
    ∀ (hash : Nat), hash < 4294967296 →
      key.foldl (fun acc b => ((acc * 16777619) % 4294967296) ^^^ b.val) hash <
        4294967296 := by
  induction key with
  | nil => intro hash hh; exact hh
  | cons b rest ih =>
    intro hash _
    simp only [List.foldl_cons]
    apply ih
    have h1 : (hash * 16777619) % 4294967296 < 2 ^ 32 := Nat.mod_lt _ (by decide)
    have h2 : b.val < 2 ^ 32 := lt_trans b.isLt (by decide)
    exact Nat.xor_lt_two_pow h1 h2

end Hash

/-! ## What one `Set` call changes, in any state -/

section Frame

variable {K V : Type} [Comparable K]

theorem index_error_of_ge {T : Type} (s : List T) (i : Nat) (hi : ¬ i < s.length) :
    index s (i : Int) = .error .indexOutOfRange := by
  unfold index
  have h0 : ¬ ((i : Int) < 0) := by omega
  simp only [h0, if_false, Int.toNat_ofNat]
  have : s.get? i = none := by
    simp only [List.get?_eq_getElem?]
    exact List.getElem?_eq_none (by omega)
  rw [this]

theorem set_self_of_getD {T : Type} (l : List T) (i : Nat) (x d : T) (hi : i < l.length)
    (hx : l.getD i d = x) : l.set i x = l := by
  apply List.ext_getElem?
  intro j
  rw [List.getElem?_set]
  by_cases hij : i = j
  · subst hij
    rw [if_pos rfl, if_pos hi]
    rw [List.getD_eq_getElem?_getD, List.getElem?_eq_getElem hi] at hx
    rw [List.getElem?_eq_getElem hi]
    simpa using hx.symm
  · rw [if_neg hij]

/-- The result of a `Set` call that returns, in any state: either the index is
out of range and nothing changes, or the chain of the bucket of the key is
replaced by `tuple.put`, the counter moves when a node is prepended, and the
rest of the state is as before. -/
theorem Set_ok_cases (m m1 : ArrayMap K V) (key : K) (val : V)
    (hset : m.Set key val = .ok m1) :
    (m1 = m ∧ ∀ i : Nat, i < m.array.length → m.getIdx key ≠ .ok (i : Int)) ∨
    ∃ i : Nat, i < m.array.length ∧ m.getIdx key = .ok (i : Int) ∧
      m1.array = m.array.set i (tuple.put key val (m.array.getD i tuple.nil)) ∧
      m1.ls = m.ls ∧ m1.idxHasher = m.idxHasher ∧
      m1.size = (if tuple.has key (m.array.getD i tuple.nil) = true then m.size
        else wrapInt32 (m.size + 1)) := by
  unfold ArrayMap.Set at hset
  cases hidx : m.getIdx key with
  | error e =>
    rw [hidx] at hset
    cases hset
  | ok idx =>
    rw [hidx] at hset
    simp only at hset
    by_cases hr : idx < 0 ∨ idx ≥ (m.array.length : Int)
    · rw [if_pos hr] at hset
      left
      refine ⟨(Except.ok.inj hset).symm, fun i hi e => ?_⟩
      have : idx = (i : Int) := Except.ok.inj e
      omega
    · rw [if_neg hr] at hset
      obtain ⟨i, rfl⟩ : ∃ i : Nat, idx = (i : Int) := ⟨idx.toNat, by omega⟩
      have hlt : i < m.array.length := by omega
      rw [index_natCast m.array i tuple.nil hlt] at hset
      simp only at hset
      right
      refine ⟨i, hlt, rfl, ?_⟩
      cases hs : tuple.setLoop key val (m.array.getD i tuple.nil) with
      | some t1 =>
        have hm : tuple.has key (m.array.getD i tuple.nil) = true := by
          cases hc : tuple.has key (m.array.getD i tuple.nil) with
          | true => rfl
          | false =>
            rw [(setLoop_eq_none_iff key val _).mpr hc] at hs
            cases hs
        rw [hs] at hset
        simp only [Int.toNat_ofNat] at hset
        have := Except.ok.inj hset
        subst this
        simp only [tuple.put, hs, hm, if_true, and_self]
      | none =>
        have hn : tuple.has key (m.array.getD i tuple.nil) = false :=
          (setLoop_eq_none_iff key val _).mp hs
        rw [hs] at hset
        simp only at hset
        by_cases hls : i < m.ls.length
        · rw [index_natCast m.ls i (Mutex.mk false) hls] at hset
          simp only at hset
          by_cases hlock : (m.ls.getD i (Mutex.mk false)).locked = true
          · rw [if_pos hlock] at hset
            cases hset
          · rw [if_neg hlock] at hset
            have hls1 : i < (m.ls.set i (Mutex.mk true)).length := by simpa using hls
            simp only [store_natCast m.ls _ _ hls, store_natCast m.array _ _ hlt,
              store_natCast _ _ _ hls1] at hset
            have := Except.ok.inj hset
            subst this
            simp only [tuple.put, hs, hn, Bool.false_eq_true, if_false, and_true, true_and]
            rw [List.set_set]
            apply set_self_of_getD m.ls i _ (Mutex.mk false) hls
            cases hmu : m.ls.getD i (Mutex.mk false) with
            | mk b =>
              rw [hmu] at hlock
              simp only [Bool.not_eq_true] at hlock
              rw [hlock]
        · rw [index_error_of_ge m.ls i hls] at hset
          cases hset

end Frame

/-! ## Uniqueness of keys and the frame of `Set`, in any state -/

section FrameChains

variable {K V : Type} [Comparable K]

theorem pairwise_keys_put (key : K) (val : V) (t : tuple K V)
    (hnd : (tuple.keys t).Pairwise (fun a b => Comparable.eq b a = false)) :
    (tuple.keys (tuple.put key val t)).Pairwise (fun a b => Comparable.eq b a = false) := by
  rw [keys_put]
  cases hm : tuple.has key t with
  | true => rw [if_pos rfl]; exact hnd
  | false =>
    rw [if_neg (by simp)]
    exact List.pairwise_cons.mpr ⟨(has_eq_false_iff key t).mp hm, hnd⟩

/-- On a chain that holds a node with a key `==` to the key, `Set` overwrites
the value of the first such node and leaves the nodes, their keys and their
order as they are. -/
theorem toList_put_of_has (key : K) (val : V) (t : tuple K V)
    (hm : tuple.has key t = true) :
    ∃ (pre : List (K × V)) (k0 : K) (v0 : V) (post : List (K × V)),
      tuple.toList t = pre ++ (k0, v0) :: post ∧ Comparable.eq k0 key = true ∧
      (∀ p ∈ pre, Comparable.eq p.1 key = false) ∧
      tuple.toList (tuple.put key val t) = pre ++ (k0, val) :: post := by
  induction t with
  | nil => cases hm
  | node k v next ih =>
    cases hk : Comparable.eq k key with
    | true =>
      refine ⟨[], k, v, tuple.toList next, rfl, hk, by simp, ?_⟩
      rw [put_node_hit key k val v next hk]
      rfl
    | false =>
      have hm2 : tuple.has key next = true := by
        simp only [tuple.has, hk, Bool.false_or] at hm
        exact hm
      obtain ⟨pre, k0, v0, post, h1, h2, h3, h4⟩ := ih hm2
      refine ⟨(k, v) :: pre, k0, v0, post, ?_, h2, ?_, ?_⟩
      · simp only [tuple.toList, h1, List.cons_append]
      · intro p hp
        rcases List.mem_cons.mp hp with e | e
        · rw [e]; exact hk
        · exact h3 p e
      · rw [put_node_skip key k val v next hk hm2]
        simp only [tuple.toList, h4, List.cons_append]

theorem ChainsNodup_Set (m m1 : ArrayMap K V) (k : K) (v : V) (hnd : m.ChainsNodup)
    (hset : m.Set k v = .ok m1) : m1.ChainsNodup := by
  rcases Set_ok_cases m m1 k v hset with ⟨rfl, _⟩ | ⟨i, hlt, _, harr, _, _, _⟩
  · exact hnd
  · intro t ht
    rw [harr] at ht
    rcases List.mem_or_eq_of_mem_set ht with hold | hnew
    · exact hnd t hold
    · rw [hnew]
      apply pairwise_keys_put
      apply hnd
      rw [List.getD_eq_getElem?_getD, List.getElem?_eq_getElem hlt]
      exact List.getElem_mem _

theorem ChainsNodup_MSet (data : List (K × V)) :
    ∀ (m m1 : ArrayMap K V), m.ChainsNodup → m.MSet data = .ok m1 → m1.ChainsNodup := by
  induction data with
  | nil =>
    intro m m1 hnd hrun
    cases hrun
    exact hnd
  | cons p rest ih =>
    intro m m1 hnd hrun
    obtain ⟨k, v⟩ := p
    simp only [ArrayMap.MSet] at hrun
    cases hs : m.Set k v with
    | error e => rw [hs] at hrun; cases hrun
    | ok m2 =>
      rw [hs] at hrun
      exact ih m2 m1 (ChainsNodup_Set m m2 k v hnd hs) hrun

theorem fresh_run_ChainsNodup (capacity : Int) (hasher : Option (K → Nat))
    (m0 : ArrayMap K V) (hc : isInt capacity)
    (hok : NewArrayMapWithHasher V capacity hasher = .ok m0) (calls : List (Call K V)) :
    ∃ m, m0.run calls = .ok m ∧ m.ChainsNodup := by
  obtain ⟨m, hrun⟩ := fresh_run_ok capacity hasher m0 hc hok calls
  refine ⟨m, hrun, ?_⟩
  rw [run_eq_MSet] at hrun
  exact ChainsNodup_MSet _ m0 m (fresh_inv capacity hasher (fun _ => 0) m0 hc hok).1 hrun

/-- The frame of one `Set` call that returns, in any state. -/
theorem Set_frame (m m1 : ArrayMap K V) (k : K) (v : V) (hset : m.Set k v = .ok m1) :
    m1.array.length = m.array.length ∧ m1.ls = m.ls ∧ m1.idxHasher = m.idxHasher ∧
    (∀ j : Nat, m.getIdx k ≠ .ok (j : Int) → m1.array[j]? = m.array[j]?) ∧
    (∀ (i : Nat) (t : tuple K V), m.getIdx k = .ok (i : Int) → m.array[i]? = some t →
      ∃ t1, m1.array[i]? = some t1 ∧
        ((∃ (pre : List (K × V)) (k0 : K) (v0 : V) (post : List (K × V)),
            tuple.toList t = pre ++ (k0, v0) :: post ∧ Comparable.eq k0 k = true ∧
            (∀ p ∈ pre, Comparable.eq p.1 k = false) ∧
            tuple.toList t1 = pre ++ (k0, v) :: post ∧ m1.size = m.size) ∨
          ((∀ p ∈ tuple.toList t, Comparable.eq p.1 k = false) ∧ t1 = tuple.node k v t ∧
            m1.size = wrapInt32 (m.size + 1)))) := by
  rcases Set_ok_cases m m1 k v hset with ⟨rfl, hno⟩ | ⟨i, hlt, hidx, harr, hls, hh, hsz⟩
  · refine ⟨rfl, rfl, rfl, fun _ _ => rfl, ?_⟩
    intro i t hidx ht
    have hi : i < m1.array.length := by
      by_contra hn
      rw [List.getElem?_eq_none (by omega)] at ht
      cases ht
    exact absurd hidx (hno i hi)
  · refine ⟨by rw [harr, List.length_set], hls, hh, ?_, ?_⟩
    · intro j hj
      have hij : i ≠ j := fun e => hj (e ▸ hidx)
      rw [harr, List.getElem?_set, if_neg hij]
    · intro i2 t hidx2 ht
      have hi2 : i2 = i := by
        rw [hidx] at hidx2
        have := Except.ok.inj hidx2
        omega
      subst hi2
      have hgd : m.array.getD i2 tuple.nil = t := by
        rw [List.getD_eq_getElem?_getD, ht]
        rfl
      rw [hgd] at harr hsz
      refine ⟨tuple.put k v t, by rw [harr, List.getElem?_set, if_pos rfl, if_pos hlt], ?_⟩
      cases hm : tuple.has k t with
      | true =>
        left
        obtain ⟨pre, k0, v0, post, h1, h2, h3, h4⟩ := toList_put_of_has k v t hm
        rw [hm, if_pos rfl] at hsz
        exact ⟨pre, k0, v0, post, h1, h2, h3, h4, hsz⟩
      | false =>
        right
        rw [hm, if_neg (by simp)] at hsz
        refine ⟨?_, put_of_not_has k v t hm, hsz⟩
        intro p hp
        apply (has_eq_false_iff k t).mp hm
        rw [keys_eq_map_toList]
        exact List.mem_map_of_mem Prod.fst hp

end FrameChains

/-! ## Counting nodes -/

section Counting

variable {K V : Type} [Comparable K]

theorem sum_set_add (L : List Nat) :
    ∀ (i a : Nat) (hi : i < L.length), (L.set i a).sum + L[i] = L.sum + a := by
  induction L with
  | nil => intro i a hi; simp at hi
  | cons x rest ih =>
    intro i a hi
    cases i with
    | zero => simp only [List.set_cons_zero, List.sum_cons, List.getElem_cons_zero]; omega
    | succ n =>
      have hn : n < rest.length := by simpa using hi
      have := ih n a hn
      simp only [List.set_cons_succ, List.sum_cons, List.getElem_cons_succ]
      omega

theorem nodeCount_set (m : ArrayMap K V) (i : Nat) (t1 : tuple K V) (hi : i < m.array.length)
    (m1 : ArrayMap K V) (harr : m1.array = m.array.set i t1) :
    m1.nodeCount + (tuple.keys (m.array.getD i tuple.nil)).length =
      m.nodeCount + (tuple.keys t1).length := by
  unfold ArrayMap.nodeCount
  rw [harr, List.map_set]
  have hi2 : i < (m.array.map (fun t => (tuple.keys t).length)).length := by simpa using hi
  have := sum_set_add (m.array.map (fun t => (tuple.keys t).length)) i
    (tuple.keys t1).length hi2
  rw [List.getElem_map] at this
  rw [List.getD_eq_getElem?_getD, List.getElem?_eq_getElem hi]
  exact this

/-- One `Set` call that returns adds one node when it takes the prepending
path and none otherwise, in any state. -/
theorem Set_counts (m m1 : ArrayMap K V) (k : K) (v : V) (hset : m.Set k v = .ok m1) :
    (m.takesPrepend k = false → m1.size = m.size ∧ m1.nodeCount = m.nodeCount) ∧
    (m.takesPrepend k = true →
      m1.size = wrapInt32 (m.size + 1) ∧ m1.nodeCount = m.nodeCount + 1) := by
  rcases Set_ok_cases m m1 k v hset with ⟨rfl, hno⟩ | ⟨i, hlt, hidx, harr, _, _, hsz⟩
  · refine ⟨fun _ => ⟨rfl, rfl⟩, fun htp => ?_⟩
    exfalso
    unfold ArrayMap.takesPrepend at htp
    cases hidx : m1.getIdx k with
    | error e => rw [hidx] at htp; cases htp
    | ok idx =>
      rw [hidx] at htp
      simp only at htp
      by_cases hr : idx < 0 ∨ idx ≥ (m1.array.length : Int)
      · rw [if_pos hr] at htp; cases htp
      · obtain ⟨i, rfl⟩ : ∃ i : Nat, idx = (i : Int) := ⟨idx.toNat, by omega⟩
        exact hno i (by omega) hidx
  · have htp : m.takesPrepend k = !(tuple.has k (m.array.getD i tuple.nil)) := by
      unfold ArrayMap.takesPrepend
      rw [hidx]
      have hr : ¬ ((i : Int) < 0 ∨ (i : Int) ≥ (m.array.length : Int)) := by omega
      simp only [hr, if_false, index_natCast m.array i tuple.nil hlt]
    have hnc := nodeCount_set m i _ hlt m1 harr
    rw [keys_put] at hnc
    cases hm : tuple.has k (m.array.getD i tuple.nil) with
    | true =>
      rw [hm, if_pos rfl] at hsz hnc
      have hf : m.takesPrepend k = false := by
        rw [htp, hm]; rfl
      refine ⟨fun _ => ⟨hsz, by omega⟩, fun ht => ?_⟩
      rw [hf] at ht; cases ht
    | false =>
      rw [hm, if_neg (by simp)] at hsz hnc
      have ht : m.takesPrepend k = true := by
        rw [htp, hm]; rfl
      refine ⟨fun hf => ?_, fun _ => ⟨hsz, ?_⟩⟩
      · rw [ht] at hf; cases hf
      · simp only [List.length_cons] at hnc
        omega

/-- After a sequence of `Set` calls that runs to the end, the number of nodes
has grown by the number of calls that took the prepending path, and the counter
is still the number of nodes wrapped to 32 bits if it was before. -/
theorem MSet_counts (ps : List (K × V)) :
    ∀ (m m1 : ArrayMap K V), m.MSet ps = .ok m1 →
      m1.nodeCount = m.nodeCount + m.prependCount ps ∧
      (m.size = wrapInt32 (m.nodeCount : Int) → m1.size = wrapInt32 (m1.nodeCount : Int)) := by
  induction ps with
  | nil =>
    intro m m1 hrun
    cases hrun
    exact ⟨rfl, fun h => h⟩
  | cons p rest ih =>
    intro m m1 hrun
    obtain ⟨k, v⟩ := p
    simp only [ArrayMap.MSet] at hrun
    cases hs : m.Set k v with
    | error e => rw [hs] at hrun; cases hrun
    | ok m2 =>
      rw [hs] at hrun
      obtain ⟨hnc, hsz⟩ := ih m2 m1 hrun
      obtain ⟨hf, ht⟩ := Set_counts m m2 k v hs
      simp only [ArrayMap.prependCount, hs]
      cases htp : m.takesPrepend k with
      | false =>
        obtain ⟨h1, h2⟩ := hf htp
        refine ⟨by rw [hnc, h2]; simp, fun h0 => hsz ?_⟩
        rw [h1, h2]; exact h0
      | true =>
        obtain ⟨h1, h2⟩ := ht htp
        refine ⟨by rw [hnc, h2]; simp; omega, fun h0 => hsz ?_⟩
        rw [h1, h2, h0, wrapInt32_add_wrapInt32]
        congr 1

theorem fresh_nodeCount (capacity : Int) (hasher : Option (K → Nat)) (m0 : ArrayMap K V)
    (hc : isInt capacity) (hok : NewArrayMapWithHasher V capacity hasher = .ok m0) :
    m0.nodeCount = 0 ∧ m0.size = 0 := by
  obtain ⟨_, _, rfl⟩ := NewArrayMapWithHasher_ok capacity hasher m0 hc hok
  refine ⟨?_, rfl⟩
  unfold ArrayMap.nodeCount
  simp [List.map_replicate, tuple.keys]

/-- The counter invariant in the states reached from a freshly constructed
map. -/
theorem fresh_run_counts (capacity : Int) (hasher : Option (K → Nat))
    (m0 : ArrayMap K V) (hc : isInt capacity)
    (hok : NewArrayMapWithHasher V capacity hasher = .ok m0) (calls : List (Call K V)) :
    ∃ m, m0.run calls = .ok m ∧ m.nodeCount = m0.prependCount (pairsOf calls) ∧
      m.size = wrapInt32 (m.nodeCount : Int) := by
  obtain ⟨m, hrun⟩ := fresh_run_ok capacity hasher m0 hc hok calls
  refine ⟨m, hrun, ?_⟩
  rw [run_eq_MSet] at hrun
  obtain ⟨h0, hs0⟩ := fresh_nodeCount capacity hasher m0 hc hok
  obtain ⟨hnc, hsz⟩ := MSet_counts (pairsOf calls) m0 m hrun
  refine ⟨by rw [hnc, h0, zero_add], hsz ?_⟩
  rw [hs0, h0]
  decide

end Counting

/-! ## Placement and the size of the snapshot -/

section Placement

variable {K V : Type} [Comparable K]

/-- The snapshot has one entry per node. -/
theorem length_Items (laws : EqLaws K) (m : ArrayMap K V) (h : K → Nat)
    (hh : HashRespectsEq h) (hnd : m.ChainsNodup) (hpl : m.Placed h) :
    GoMap.len m.Items = m.nodeCount := by
  rw [Items_eq_allNodes m (allKeys_pairwise laws m h hh hnd hpl)]
  exact length_allNodes m

/-- The invariants of the states reached from a freshly constructed map with
a hasher. -/
theorem fresh_run_inv (capacity : Int) (h : K → Nat)
    (m0 : ArrayMap K V) (hc : isInt capacity)
    (hok : NewArrayMapWithHasher V capacity (some h) = .ok m0) (calls : List (Call K V)) :
    ∃ m, m0.run calls = .ok m ∧ m.WF h ∧ m.ChainsNodup ∧ m.Placed h ∧
      m.size = wrapInt32 (m.nodeCount : Int) := by
  obtain ⟨m, hrun, hwf, _, hnd, hpl, _⟩ := fresh_run_chains capacity h m0 hc hok calls
  obtain ⟨m2, hrun2, _, hsz⟩ := fresh_run_counts capacity (some h) m0 hc hok calls
  rw [hrun] at hrun2
  cases hrun2
  exact ⟨m, hrun, hwf, hnd, hpl, hsz⟩

/-- `Get` finds every key stored in a chain that is `==` to itself. -/
theorem Get_of_stored [Inhabited V] (m : ArrayMap K V) (h : K → Nat) (hwf : m.WF h)
    (hpl : m.Placed h) (i : Nat) (t : tuple K V) (ht : m.array[i]? = some t) (k : K)
    (hk : k ∈ tuple.keys t) :
    m.getIdx k = .ok (i : Int) ∧ (Comparable.eq k k = true → ∃ v, m.Get k = .ok (v, true)) := by
  have hb := hpl i t ht k hk
  refine ⟨by rw [getIdx_eq m h k hwf.hasher hwf.pos, hb], fun hkk => ?_⟩
  rw [Get_eq m h k hwf.hasher hwf.pos, hb, List.getD_eq_getElem?_getD, ht]
  have hsome : (some t).getD tuple.nil = t := rfl
  rw [hsome]
  have h2 : (tuple.getLoop k t).2 = true := by
    rw [getLoop_snd_eq_has]
    exact (has_eq_true_iff k t).mpr ⟨k, hk, hkk⟩
  cases hg : tuple.getLoop k t with
  | mk a b =>
    rw [hg] at h2
    simp only at h2
    subst h2
    exact ⟨a, rfl⟩

/-- After one `Set` call per key of a list of pairwise distinct keys, on a
freshly constructed map with a hasher, for a key type on which `==` is the
identity: there is one node and one snapshot entry per key, and the counter is
their number wrapped to 32 bits. -/
theorem fresh_distinct_counts [Inhabited V] (hid : EqIsIdentity K) (capacity : Int)
    (h : K → Nat) (m0 : ArrayMap K V) (hc : isInt capacity)
    (hok : NewArrayMapWithHasher V capacity (some h) = .ok m0) (ps : List (K × V))
    (hnodup : (ps.map Prod.fst).Nodup) :
    ∃ m, m0.run (setCalls ps) = .ok m ∧ m.nodeCount = ps.length ∧
      GoMap.len m.Items = ps.length ∧ m.Count = wrapInt32 (ps.length : Int) := by
  obtain ⟨m, hrun, hwf, hnd, hpl, hsz⟩ := fresh_run_inv capacity h m0 hc hok (setCalls ps)
  obtain ⟨m2, hrun2, hnd2, hkeys, _⟩ := fresh_run_Items_id hid capacity h m0 hc hok ps
  rw [hrun] at hrun2
  cases hrun2
  have hperm : ((m.Items).map Prod.fst).Perm (ps.map Prod.fst) :=
    (List.perm_ext_iff_of_nodup hnd2 hnodup).mpr hkeys
  have hlen : GoMap.len m.Items = ps.length := by
    have := hperm.length_eq
    rw [List.length_map, List.length_map] at this
    exact this
  have hnc : m.nodeCount = ps.length := by
    rw [← length_Items (eqLaws_of_identity hid) m h (hashRespectsEq_of_identity hid h) hnd hpl]
    exact hlen
  refine ⟨m, hrun, hnc, hlen, ?_⟩
  rw [ArrayMap.Count, hsz, hnc]

end Placement

section CounterFacts

variable {K V : Type} [Comparable K]

theorem wrapInt32_succ (n : Nat) (z : Int) (hz : z = wrapInt32 (n : Int))
    (hlt : z < 2147483647) : wrapInt32 (z + 1) = z + 1 := by
  have hlo : -2147483648 ≤ z := by
    rw [hz]
    unfold wrapInt32
    omega
  exact wrapInt32_of_range _ (by omega) (by omega)

/-- The counter and the nodes, in the states reached from a freshly
constructed map and over one more `Set` call. -/
theorem fresh_run_counter (capacity : Int) (hasher : Option (K → Nat))
    (m0 : ArrayMap K V) (hc : isInt capacity)
    (hok : NewArrayMapWithHasher V capacity hasher = .ok m0) (calls : List (Call K V)) :
    ∃ m, m0.run calls = .ok m ∧
      m.nodeCount = m0.prependCount (pairsOf calls) ∧
      m.Count = wrapInt32 (m.nodeCount : Int) ∧
      (m.nodeCount ≤ 2147483647 → m.Count = (m.nodeCount : Int)) ∧
      ∀ (k : K) (v : V), ∃ m1, m.Set k v = .ok m1 ∧
        (m.takesPrepend k = false → m1.Count = m.Count ∧ m1.nodeCount = m.nodeCount) ∧
        (m.takesPrepend k = true →
          m1.Count = wrapInt32 (m.Count + 1) ∧ m1.nodeCount = m.nodeCount + 1 ∧
          (m.Count < 2147483647 → m1.Count = m.Count + 1)) := by
  obtain ⟨m, hrun, hnc, hsz⟩ := fresh_run_counts capacity hasher m0 hc hok calls
  refine ⟨m, hrun, hnc, hsz, ?_, ?_⟩
  · intro hle
    rw [ArrayMap.Count, hsz]
    exact wrapInt32_of_range _ (by omega) (by omega)
  · intro k v
    have hex : ∃ m1, m.Set k v = .ok m1 := by
      cases hasher with
      | none =>
        have h0 := fresh_run_nil capacity m0 hc hok calls
        rw [hrun] at h0
        have hm : m = m0 := Except.ok.inj h0
        obtain ⟨_, _, hm0⟩ := NewArrayMapWithHasher_ok capacity none m0 hc hok
        refine ⟨m, Set_nil m k v ?_⟩
        rw [hm, hm0]
      | some h =>
        obtain ⟨m9, hrun9, hwf, _⟩ := fresh_run_WF capacity h m0 hc hok calls
        rw [hrun] at hrun9
        cases hrun9
        exact ⟨_, Set_eq m h k v hwf⟩
    obtain ⟨m1, hset⟩ := hex
    obtain ⟨hf, ht⟩ := Set_counts m m1 k v hset
    refine ⟨m1, hset, hf, fun htp => ?_⟩
    obtain ⟨h1, h2⟩ := ht htp
    refine ⟨h1, h2, fun hlt => ?_⟩
    have h3 : m1.Count = wrapInt32 (m.Count + 1) := h1
    rw [h3]
    exact wrapInt32_succ m.nodeCount m.Count hsz hlt

end CounterFacts

/-! ## `MSet` and the order of its pairs -/

section BulkSet

variable {K V : Type} [Comparable K]

/-- In a list of pairs whose keys are pairwise not `==`, the pair whose key is
`==` to `k` is the last one written for `k`. -/
theorem lastSet_of_mem_pairwise (laws : EqLaws K) (k0 k : K) (v : V) (ps : List (K × V))
    (hnd : (ps.map Prod.fst).Pairwise (fun a b => Comparable.eq a b = false))
    (hmem : (k0, v) ∈ ps) (heq : Comparable.eq k0 k = true) : lastSet k ps = some v := by
  induction ps with
  | nil => cases hmem
  | cons p rest ih =>
    obtain ⟨k1, v1⟩ := p
    simp only [List.map_cons, List.pairwise_cons] at hnd
    rcases List.mem_cons.mp hmem with e | e
    · have hk : k1 = k0 := (Prod.mk.inj e).1.symm
      have hv : v1 = v := (Prod.mk.inj e).2.symm
      subst hk hv
      have hrest : ∀ p ∈ rest, Comparable.eq p.1 k = false := by
        intro p hp
        cases hc : Comparable.eq p.1 k with
        | false => rfl
        | true =>
          have h1 := hnd.1 p.1 (List.mem_map_of_mem Prod.fst hp)
          have h2 := laws.trans k1 k p.1 heq (laws.symm p.1 k hc)
          rw [h2] at h1
          cases h1
      simp only [lastSet, (lastSet_eq_none_iff k rest).mpr hrest, heq, if_true]
    · simp only [lastSet, ih hnd.2 e]

theorem pairwise_perm (laws : EqLaws K) (l l2 : List K)
    (hnd : l.Pairwise (fun a b => Comparable.eq a b = false)) (hperm : l2.Perm l) :
    l2.Pairwise (fun a b => Comparable.eq a b = false) := by
  refine hperm.symm.pairwise hnd ?_
  intro a b hab
  cases hc : Comparable.eq b a with
  | false => rfl
  | true =>
    rw [laws.symm b a hc] at hab
    cases hab

theorem lastSet_perm (laws : EqLaws K) (k : K) (ps qs : List (K × V))
    (hnd : (ps.map Prod.fst).Pairwise (fun a b => Comparable.eq a b = false))
    (hperm : qs.Perm ps) : lastSet k qs = lastSet k ps := by
  have hnd2 := pairwise_perm laws _ _ hnd (hperm.map Prod.fst)
  cases hl : lastSet k ps with
  | none =>
    rw [lastSet_eq_none_iff] at hl ⊢
    intro p hp
    exact hl p (hperm.mem_iff.mp hp)
  | some w =>
    have hex : ∃ p ∈ ps, Comparable.eq p.1 k = true := by
      by_contra hn
      have hall : ∀ p ∈ ps, Comparable.eq p.1 k = false := by
        intro p hp
        cases hc : Comparable.eq p.1 k with
        | false => rfl
        | true => exact absurd ⟨p, hp, hc⟩ hn
      rw [(lastSet_eq_none_iff k ps).mpr hall] at hl
      cases hl
    obtain ⟨p, hp, hpk⟩ := hex
    obtain ⟨k0, v⟩ := p
    have h1 := lastSet_of_mem_pairwise laws k0 k v ps hnd hp hpk
    rw [hl] at h1
    rw [h1]
    exact lastSet_of_mem_pairwise laws k0 k v qs hnd2 (hperm.mem_iff.mpr hp) hpk

theorem present_eq [Inhabited V] (m : ArrayMap K V) (h : K → Nat) (hwf : m.WF h) (k : K) :
    m.present k = tuple.has k (m.array.getD (bucketOf h m.array.length k) tuple.nil) := by
  unfold ArrayMap.present ArrayMap.Has
  rw [Get_eq m h k hwf.hasher hwf.pos, ← getLoop_snd_eq_has]
  cases hg : tuple.getLoop k (m.array.getD (bucketOf h m.array.length k) tuple.nil) with
  | mk a b => cases b <;> rfl

theorem takesPrepend_eq (m : ArrayMap K V) (h : K → Nat) (hwf : m.WF h) (k : K) :
    m.takesPrepend k =
      !(tuple.has k (m.array.getD (bucketOf h m.array.length k) tuple.nil)) := by
  have hlt := bucketOf_lt h m.array.length k hwf.pos
  unfold ArrayMap.takesPrepend
  rw [getIdx_eq m h k hwf.hasher hwf.pos]
  have hr : ¬ (((bucketOf h m.array.length k : Nat) : Int) < 0 ∨
      ((bucketOf h m.array.length k : Nat) : Int) ≥ (m.array.length : Int)) := by omega
  simp only [hr, if_false, index_natCast m.array _ tuple.nil hlt]

theorem takesPrepend_eq_not_present [Inhabited V] (m : ArrayMap K V) (h : K → Nat)
    (hwf : m.WF h) (k : K) : m.takesPrepend k = !m.present k := by
  rw [takesPrepend_eq m h hwf k, present_eq m h hwf k]

theorem present_afterSet_other [Inhabited V] (m : ArrayMap K V) (h : K → Nat) (k k2 : K)
    (v : V) (hwf : m.WF h) (hne : Comparable.eq k k2 = false) :
    (m.afterSet h k v).present k2 = m.present k2 := by
  rw [present_eq _ h (WF_afterSet m h k v hwf) k2, present_eq m h hwf k2,
    has_afterSet_other m h k k2 v hwf hne]

/-- The number of calls of an `MSet` that prepend is the number of its keys
that were missing before. -/
theorem prependCount_eq_filter [Inhabited V] (h : K → Nat) (data : List (K × V)) :
    ∀ (m : ArrayMap K V), m.WF h →
      (data.map Prod.fst).Pairwise (fun a b => Comparable.eq a b = false) →
      m.prependCount data = (data.filter (fun p => !m.present p.1)).length := by
  induction data with
  | nil => intro m _ _; rfl
  | cons p rest ih =>
    intro m hwf hnd
    obtain ⟨k, v⟩ := p
    simp only [List.map_cons, List.pairwise_cons] at hnd
    have hrest : rest.filter (fun p => !(m.afterSet h k v).present p.1) =
        rest.filter (fun p => !m.present p.1) := by
      apply List.filter_congr
      intro p hp
      rw [present_afterSet_other m h k p.1 v hwf (hnd.1 p.1 (List.mem_map_of_mem Prod.fst hp))]
    simp only [ArrayMap.prependCount, Set_eq m h k v hwf,
      ih _ (WF_afterSet m h k v hwf) hnd.2, hrest, List.filter_cons,
      takesPrepend_eq_not_present m h hwf k]
    cases m.present k
    · simp only [Bool.not_false, if_true, List.length_cons]
      omega
    · simp only [Bool.not_true, Bool.false_eq_true, if_false]
      omega

/-- One `MSet` call on a state with the invariants of the reachable states. -/
theorem MSet_reachable [Inhabited V] (laws : EqLaws K) (m : ArrayMap K V) (h : K → Nat)
    (hh : HashRespectsEq h) (hwf : m.WF h)
    (hnd : m.ChainsNodup) (hpl : m.Placed h) (hsz : m.size = wrapInt32 (m.nodeCount : Int))
    (data data2 : List (K × V))
    (hdata : (data.map Prod.fst).Pairwise (fun a b => Comparable.eq a b = false))
    (hperm : data2.Perm data) :
    ∃ m1 m2, m.MSet data = .ok m1 ∧ m.MSet data2 = .ok m2 ∧
      m.MSet data = m.run (setCalls data) ∧
      (∀ (k0 k : K) (v : V), (k0, v) ∈ data → Comparable.eq k0 k = true →
        m1.Get k = .ok (v, true)) ∧
      (∀ k, (∀ p ∈ data, Comparable.eq p.1 k = false) → m1.Get k = m.Get k) ∧
      m1.Count =
        wrapInt32 (m.Count + ((data.filter (fun p => !m.present p.1)).length : Int)) ∧
      (m.Count + ((data.filter (fun p => !m.present p.1)).length : Int) ≤ 2147483647 →
        m1.Count = m.Count + ((data.filter (fun p => !m.present p.1)).length : Int)) ∧
      (∀ k, m2.Get k = m1.Get k) ∧
      (∀ k, GoMap.lookup m2.Items k = GoMap.lookup m1.Items k) ∧
      m2.Count = m1.Count := by
  have hdata2 := pairwise_perm laws _ _ hdata (hperm.map Prod.fst)
  obtain ⟨m1, hrun1, hwf1, _⟩ := MSet_ok h data m hwf
  obtain ⟨m2, hrun2, hwf2, _⟩ := MSet_ok h data2 m hwf
  have hget1 := MSet_Get laws h hh data m m1 hwf hrun1
  have hget2 := MSet_Get laws h hh data2 m m2 hwf hrun2
  obtain ⟨hnd1, hpl1, _⟩ := MSet_inv h data m m1 hwf hnd hpl hrun1
  obtain ⟨hnd2, hpl2, _⟩ := MSet_inv h data2 m m2 hwf hnd hpl hrun2
  obtain ⟨hnc1, hs1⟩ := MSet_counts data m m1 hrun1
  obtain ⟨hnc2, hs2⟩ := MSet_counts data2 m m2 hrun2
  rw [prependCount_eq_filter h data m hwf hdata] at hnc1
  rw [prependCount_eq_filter h data2 m hwf hdata2] at hnc2
  have hfl : (data2.filter (fun p => !m.present p.1)).length =
      (data.filter (fun p => !m.present p.1)).length :=
    (hperm.filter _).length_eq
  have hcount1 : m1.Count =
      wrapInt32 (m.Count + ((data.filter (fun p => !m.present p.1)).length : Int)) := by
    have e1 : m1.Count = wrapInt32 (m1.nodeCount : Int) := hs1 hsz
    have e2 : m.Count = wrapInt32 (m.nodeCount : Int) := hsz
    rw [e1, e2, wrapInt32_add_wrapInt32, hnc1, Nat.cast_add]
  have hcount2 : m2.Count = m1.Count := by
    have e1 : m1.Count = wrapInt32 (m1.nodeCount : Int) := hs1 hsz
    have e2 : m2.Count = wrapInt32 (m2.nodeCount : Int) := hs2 hsz
    rw [e1, e2, hnc1, hnc2, hfl]
  have hgets : ∀ k, m2.Get k = m1.Get k := by
    intro k
    rw [hget1 k, hget2 k, lastSet_perm laws k data data2 hdata hperm]
  refine ⟨m1, m2, hrun1, hrun2, ?_, ?_, ?_, hcount1, ?_, hgets, ?_, hcount2⟩
  · rw [run_eq_MSet, pairsOf_setCalls]
  · intro k0 k v hkv heq
    rw [hget1 k, lastSet_of_mem_pairwise laws k0 k v data hdata hkv heq]
  · intro k hk
    rw [hget1 k, (lastSet_eq_none_iff k data).mpr hk]
  · intro hle
    rw [hcount1]
    have hlo : -2147483648 ≤ m.Count := by
      have e2 : m.Count = wrapInt32 (m.nodeCount : Int) := hsz
      rw [e2]
      unfold wrapInt32
      omega
    exact wrapInt32_of_range _ (by omega) (by omega)
  · intro k
    cases hl1 : GoMap.lookup m1.Items k with
    | none =>
      cases hl2 : GoMap.lookup m2.Items k with
      | none => rfl
      | some v =>
        have := (lookup_Items_iff_Get laws m2 h hh k v hwf2 hnd2 hpl2).mp hl2
        rw [hgets k] at this
        rw [(lookup_Items_iff_Get laws m1 h hh k v hwf1 hnd1 hpl1).mpr this] at hl1
        cases hl1
    | some v =>
      have := (lookup_Items_iff_Get laws m1 h hh k v hwf1 hnd1 hpl1).mp hl1
      rw [← hgets k] at this
      exact (lookup_Items_iff_Get laws m2 h hh k v hwf2 hnd2 hpl2).mpr this

end BulkSet

section BulkSetFacts

variable {K V : Type} [Comparable K]

/-- One `MSet` call in a state reached from a freshly constructed map with a
hasher that respects `==`. -/
theorem fresh_run_MSet [Inhabited V] (laws : EqLaws K) (capacity : Int) (h : K → Nat)
    (hh : HashRespectsEq h) (m0 m : ArrayMap K V) (hc : isInt capacity)
    (hok : NewArrayMapWithHasher V capacity (some h) = .ok m0) (calls : List (Call K V))
    (hrun : m0.run calls = .ok m)
    (data data2 : List (K × V))
    (hdata : (data.map Prod.fst).Pairwise (fun a b => Comparable.eq a b = false))
    (hperm : data2.Perm data) :
    ∃ m1 m2, m.MSet data = .ok m1 ∧ m.MSet data2 = .ok m2 ∧
      m.MSet data = m.run (setCalls data) ∧
      (∀ (k0 k : K) (v : V), (k0, v) ∈ data → Comparable.eq k0 k = true →
        m1.Get k = .ok (v, true)) ∧
      (∀ k, (∀ p ∈ data, Comparable.eq p.1 k = false) → m1.Get k = m.Get k) ∧
      m1.Count =
        wrapInt32 (m.Count + ((data.filter (fun p => !m.present p.1)).length : Int)) ∧
      (m.Count + ((data.filter (fun p => !m.present p.1)).length : Int) ≤ 2147483647 →
        m1.Count = m.Count + ((data.filter (fun p => !m.present p.1)).length : Int)) ∧
      (∀ k, m2.Get k = m1.Get k) ∧
      (∀ k, GoMap.lookup m2.Items k = GoMap.lookup m1.Items k) ∧
      m2.Count = m1.Count := by
  obtain ⟨m9, hrun9, hwf, hnd, hpl, hsz⟩ := fresh_run_inv capacity h m0 hc hok calls
  rw [hrun] at hrun9
  cases hrun9
  exact MSet_reachable laws m h hh hwf hnd hpl hsz data data2 hdata hperm

/-- One `MSet` call in a state reached from a freshly constructed map with a
hasher, for a key type on which `==` is the identity. -/
theorem fresh_run_MSet_id [Inhabited V] (hid : EqIsIdentity K) (capacity : Int) (h : K → Nat)
    (m0 m : ArrayMap K V) (hc : isInt capacity)
    (hok : NewArrayMapWithHasher V capacity (some h) = .ok m0) (calls : List (Call K V))
    (hrun : m0.run calls = .ok m)
    (data data2 : List (K × V)) (hdata : (data.map Prod.fst).Nodup)
    (hperm : data2.Perm data) :
    ∃ m1 m2, m.MSet data = .ok m1 ∧ m.MSet data2 = .ok m2 ∧
      m.MSet data = m.run (setCalls data) ∧
      (∀ (k : K) (v : V), (k, v) ∈ data → m1.Get k = .ok (v, true)) ∧
      (∀ k, k ∉ data.map Prod.fst → m1.Get k = m.Get k) ∧
      m1.Count =
        wrapInt32 (m.Count + ((data.filter (fun p => !m.present p.1)).length : Int)) ∧
      (m.Count + ((data.filter (fun p => !m.present p.1)).length : Int) ≤ 2147483647 →
        m1.Count = m.Count + ((data.filter (fun p => !m.present p.1)).length : Int)) ∧
      (∀ k, m2.Get k = m1.Get k) ∧
      (∀ k, GoMap.lookup m2.Items k = GoMap.lookup m1.Items k) ∧
      m2.Count = m1.Count := by
  obtain ⟨m1, m2, h1, h2, h3, h4, h5, h6, h7, h8, h9, h10⟩ :=
    fresh_run_MSet (eqLaws_of_identity hid) capacity h (hashRespectsEq_of_identity hid h)
      m0 m hc hok calls hrun data data2 ((pairwise_ne_iff_nodup hid _).mpr hdata) hperm
  refine ⟨m1, m2, h1, h2, h3, ?_, ?_, h6, h7, h8, h9, h10⟩
  · intro k v hkv
    exact h4 k k v hkv (eq_self_of_identity hid k)
  · intro k hk
    exact h5 k ((no_eq_iff_not_mem hid data k).mpr hk)

/-- The counter wraps when `MSet` adds a key to a map with 2147483647
entries. -/
theorem MSet_wraps :
    ∃ m0 m m1, NewArrayMapWithHasher Unit 429496730 (some (fun k : Nat => k)) = .ok m0 ∧
      m0.run (setCalls ((List.range 2147483647).map (fun k => (k, ())))) = .ok m ∧
      m.Count = 2147483647 ∧ m.Get 2147483647 = .ok ((), false) ∧
      m.MSet [(2147483647, ())] = .ok m1 ∧ m1.Count = -2147483648 := by
  have hok := @NewArrayMapWithHasher_small Nat Unit 429496730 (some (fun k : Nat => k))
    (by decide) (by decide)
  have hnd : (((List.range 2147483647).map (fun k => (k, ()))).map Prod.fst).Nodup := by
    rw [map_fst_range_pairs]
    exact List.nodup_range _
  have hlen : ((List.range 2147483647).map (fun k => (k, ()))).length = 2147483647 := by
    rw [List.length_map, List.length_range]
  have hmiss : (2147483647 : Nat) ∉
      ((List.range 2147483647).map (fun k => (k, ()))).map Prod.fst := by
    rw [map_fst_range_pairs, List.mem_range]
    exact Nat.lt_irrefl _
  obtain ⟨m2, hrun, _, _, hcount⟩ := fresh_distinct_counts eqIsIdentity_Nat 429496730 _ _
    (by decide) hok ((List.range 2147483647).map (fun k => (k, ()))) hnd
  rw [hlen] at hcount
  have hval : wrapInt32 ((2147483647 : Nat) : Int) = 2147483647 := by decide
  rw [hval] at hcount
  obtain ⟨m3, hrun3, hg⟩ := fresh_run_miss 429496730 _ _ (by decide) hok
    (setCalls ((List.range 2147483647).map (fun k => (k, ())))) 2147483647
    (by rw [pairsOf_setCalls]; exact (no_eq_iff_not_mem eqIsIdentity_Nat _ _).mpr hmiss)
  rw [hrun] at hrun3
  cases hrun3
  have hpres : m2.present 2147483647 = false := by
    unfold ArrayMap.present ArrayMap.Has
    rw [hg]
  obtain ⟨m1, _, hset, _, _, _, _, hc1, _⟩ := fresh_run_MSet_id eqIsIdentity_Nat 429496730 _
    _ m2 (by decide) hok _ hrun
    [(2147483647, ())] [(2147483647, ())] (by simp) (List.Perm.refl _)
  refine ⟨_, m2, m1, hok, hrun, hcount, hg, hset, ?_⟩
  rw [hc1, hcount]
  simp only [List.filter_cons, hpres, Bool.not_false, if_true, List.filter_nil,
    List.length_cons, List.length_nil]
  decide

end BulkSetFacts

/-! ## Goroutines -/

section Goroutines

variable {K V : Type} [Comparable K]

/-- A `Set` call is its first part followed, on a miss, by its second part. -/
theorem Set_eq_parts (m : ArrayMap K V) (key : K) (val : V) :
    m.Set key val =
      (match m.setScan key val with
        | .error e => .error e
        | .ok (.returned m1) => .ok m1
        | .ok (.missed idx) => m.setLocked idx key val) := by
  unfold ArrayMap.Set ArrayMap.setScan
  cases m.getIdx key with
  | error e => rfl
  | ok idx =>
    simp only
    by_cases hr : idx < 0 ∨ idx ≥ (m.array.length : Int)
    · simp only [hr, if_true]
    · simp only [hr, if_false]
      cases hi : index m.array idx with
      | error e => rfl
      | ok t =>
        simp only
        cases tuple.setLoop key val t with
        | some t1 => rfl
        | none =>
          simp only [ArrayMap.setLocked, hi]

/-- A goroutine that runs alone makes its `Set` call in two steps. -/
theorem interleave_alone (m : ArrayMap K V) (key : K) (val : V) :
    (Shared.mk m [Goroutine.called key val]).interleave [0, 0] =
      (match m.Set key val with
        | .error e => .error e
        | .ok m1 => .ok (Shared.mk m1 [Goroutine.returned])) := by
  rw [Set_eq_parts]
  simp only [Shared.interleave, Shared.step, List.get?, ArrayMap.stepGoroutine]
  cases m.setScan key val with
  | error e => rfl
  | ok r =>
    cases r with
    | returned m1 => rfl
    | missed idx =>
      simp only [List.set, List.get?, ArrayMap.stepGoroutine]
      cases m.setLocked idx key val with
      | error e => rfl
      | ok m1 => rfl

end Goroutines

/-! ## The index, the stored value and the invariants after a run -/

section RunFacts

variable {K V : Type} [Comparable K]

/-- The chain `Set(key, val)` leaves holds a node with the value `val`. -/
theorem put_stores (key : K) (val : V) (t : tuple K V) :
    ∃ k0, (k0, val) ∈ tuple.toList (tuple.put key val t) := by
  cases hm : tuple.has key t with
  | true =>
    obtain ⟨pre, k0, v0, post, _, _, _, h4⟩ := toList_put_of_has key val t hm
    exact ⟨k0, by rw [h4]; simp⟩
  | false =>
    rw [put_of_not_has key val t hm]
    exact ⟨key, by simp [tuple.toList]⟩

/-- In every state reached from a freshly constructed map with a hasher, the
index of a key is in range, and `Set` stores its value in the bucket of the
key. -/
theorem fresh_run_index [Inhabited V] (capacity : Int) (h : K → Nat)
    (m0 m : ArrayMap K V) (hc : isInt capacity)
    (hok : NewArrayMapWithHasher V capacity (some h) = .ok m0) (calls : List (Call K V))
    (hrun : m0.run calls = .ok m) (key : K) (val : V) :
    0 < m.array.length ∧ m.array.length = m0.array.length ∧
    m.getIdx key = .ok (((h key % uint32Mod) % m.array.length : Nat) : Int) ∧
    (∃ idx, m.getIdx key = .ok idx ∧ ¬ (idx < 0 ∨ idx ≥ (m.array.length : Int))) ∧
    (∃ m1, m.Set key val = .ok m1 ∧
      (∃ t1 k0, m1.array[(h key % uint32Mod) % m.array.length]? = some t1 ∧
        (k0, val) ∈ tuple.toList t1) ∧
      (Comparable.eq key key = true → m1.Get key = .ok (val, true))) := by
  obtain ⟨m9, hrun9, hwf, hlen⟩ := fresh_run_WF capacity h m0 hc hok calls
  rw [hrun] at hrun9
  cases hrun9
  have hidx := getIdx_eq m h key hwf.hasher hwf.pos
  have hlt := bucketOf_lt h m.array.length key hwf.pos
  refine ⟨hwf.pos, hlen, hidx, ⟨_, hidx, by omega⟩, ⟨_, Set_eq m h key val hwf, ?_,
    fun hk => Get_afterSet_self m h key val hwf (Or.inr hk)⟩⟩
  obtain ⟨k0, hk0⟩ := put_stores key val (m.array.getD (bucketOf h m.array.length key) tuple.nil)
  refine ⟨_, k0, ?_, hk0⟩
  have hdef : (m.afterSet h key val).array = m.array.set (bucketOf h m.array.length key)
      (tuple.put key val (m.array.getD (bucketOf h m.array.length key) tuple.nil)) := rfl
  have hb : (h key % uint32Mod) % m.array.length = bucketOf h m.array.length key := rfl
  rw [hdef, hb, List.getElem?_set, if_pos rfl, if_pos hlt]

theorem ChainsNodup_iff_nodup (hid : EqIsIdentity K) (m : ArrayMap K V) :
    m.ChainsNodup ↔ ∀ t ∈ m.array, (tuple.keys t).Nodup := by
  constructor
  · intro hnd t ht
    exact (pairwise_ne_rev_iff_nodup hid _).mp (hnd t ht)
  · intro hnd t ht
    exact (pairwise_ne_rev_iff_nodup hid _).mpr (hnd t ht)

/-- The frame of one `Set` call that returns, in any state, for a key type on
which `==` is the identity. -/
theorem Set_frame_id (hid : EqIsIdentity K) (m m1 : ArrayMap K V) (k : K) (v : V)
    (hset : m.Set k v = .ok m1) :
    ∀ (i : Nat) (t : tuple K V), m.getIdx k = .ok (i : Int) → m.array[i]? = some t →
      ∃ t1, m1.array[i]? = some t1 ∧
        ((∃ (pre : List (K × V)) (v0 : V) (post : List (K × V)),
            tuple.toList t = pre ++ (k, v0) :: post ∧ k ∉ pre.map Prod.fst ∧
            tuple.toList t1 = pre ++ (k, v) :: post ∧ m1.size = m.size) ∨
          (k ∉ (tuple.toList t).map Prod.fst ∧ t1 = tuple.node k v t ∧
            m1.size = wrapInt32 (m.size + 1))) := by
  intro i t hidx ht
  obtain ⟨t1, ht1, hcases⟩ := (Set_frame m m1 k v hset).2.2.2.2 i t hidx ht
  refine ⟨t1, ht1, ?_⟩
  rcases hcases with ⟨pre, k0, v0, post, h1, h2, h3, h4, h5⟩ | ⟨h1, h2, h3⟩
  · left
    have hk0 : k0 = k := (hid k0 k).mp h2
    subst hk0
    exact ⟨pre, v0, post, h1, (no_eq_iff_not_mem hid pre k0).mp h3, h4, h5⟩
  · right
    exact ⟨(no_eq_iff_not_mem hid _ k).mp h1, h2, h3⟩

/-- The placement of the nodes in the states reached from a freshly constructed
map with a hasher. -/
theorem fresh_run_placement [Inhabited V] (capacity : Int) (h : K → Nat)
    (m0 : ArrayMap K V) (hc : isInt capacity)
    (hok : NewArrayMapWithHasher V capacity (some h) = .ok m0) (calls : List (Call K V)) :
    ∃ m, m0.run calls = .ok m ∧
      (∀ (i : Nat) (t : tuple K V), m.array[i]? = some t → ∀ k ∈ tuple.keys t,
        m.getIdx k = .ok (i : Int) ∧
        (Comparable.eq k k = true → ∃ v, m.Get k = .ok (v, true))) ∧
      m.Count = wrapInt32 (m.nodeCount : Int) ∧
      (EqLaws K → HashRespectsEq h →
        m.allKeys.Pairwise (fun a b => Comparable.eq a b = false) ∧
        GoMap.len m.Items = m.nodeCount ∧
        m.Count = wrapInt32 (GoMap.len m.Items : Int) ∧
        (GoMap.len m.Items ≤ 2147483647 → m.Count = (GoMap.len m.Items : Int))) := by
  obtain ⟨m, hrun, hwf, hnd, hpl, hsz⟩ := fresh_run_inv capacity h m0 hc hok calls
  refine ⟨m, hrun, fun i t ht k hk => Get_of_stored m h hwf hpl i t ht k hk, hsz, ?_⟩
  intro laws hh
  have hlen := length_Items laws m h hh hnd hpl
  have hcount : m.Count = wrapInt32 (GoMap.len m.Items : Int) := by
    rw [hlen]; exact hsz
  refine ⟨allKeys_pairwise laws m h hh hnd hpl, hlen, hcount, fun hle => ?_⟩
  rw [hcount]
  exact wrapInt32_of_range _ (by omega) (by omega)

/-- The placement of the nodes in the states reached from a freshly constructed
map with a hasher, for a key type on which `==` is the identity. -/
theorem fresh_run_placement_id [Inhabited V] (hid : EqIsIdentity K) (capacity : Int)
    (h : K → Nat) (m0 : ArrayMap K V) (hc : isInt capacity)
    (hok : NewArrayMapWithHasher V capacity (some h) = .ok m0) (calls : List (Call K V)) :
    ∃ m, m0.run calls = .ok m ∧
      (∀ (i : Nat) (t : tuple K V), m.array[i]? = some t → ∀ k ∈ tuple.keys t,
        m.getIdx k = .ok (i : Int) ∧ ∃ v, m.Get k = .ok (v, true)) ∧
      m.allKeys.Nodup ∧
      GoMap.len m.Items = m.nodeCount ∧
      m.Count = wrapInt32 (GoMap.len m.Items : Int) ∧
      (GoMap.len m.Items ≤ 2147483647 → m.Count = (GoMap.len m.Items : Int)) := by
  obtain ⟨m, hrun, hplaced, _, hrest⟩ := fresh_run_placement capacity h m0 hc hok calls
  obtain ⟨hpw, hlen, hcount, hsmall⟩ :=
    hrest (eqLaws_of_identity hid) (hashRespectsEq_of_identity hid h)
  refine ⟨m, hrun, fun i t ht k hk => ?_, (pairwise_ne_iff_nodup hid _).mp hpw, hlen, hcount,
    hsmall⟩
  obtain ⟨h1, h2⟩ := hplaced i t ht k hk
  exact ⟨h1, h2 (eq_self_of_identity hid k)⟩

end RunFacts

/-! ## Main results -/

section Main

/-- C1, as the code has it (last write wins, with the keys compared by `==`):
on a map freshly built by `NewArrayMapWithHasher` with a hasher, for a key type
whose `==` is symmetric and transitive, every sequence of `Set` calls runs to
the end, and afterwards `Get(k)` returns `(v, true)` where `Set(k2, v)` is the
last call of the sequence on a key `==` to `k`, whatever calls come before it
and whatever calls on keys not `==` to `k` come after it, when the hasher gives
`==` keys the same hash, or, with any hasher, when `k2` is `k` itself and
`k == k`.  On a map built by `NewArrayMap`, whose keys are strings, this holds
for every key of the sequence. -/
theorem last_write_wins (V : Type) [Inhabited V] (capacity : Int) (hc : isInt capacity) :
    (∀ (K : Type) [Comparable K] (h : K → Nat) (m0 : ArrayMap K V)
        (pre post : List (K × V)) (k2 k : K) (v : V),
        EqLaws K → HashRespectsEq h →
        NewArrayMapWithHasher V capacity (some h) = .ok m0 →
        Comparable.eq k2 k = true →
        (∀ p ∈ post, Comparable.eq p.1 k = false) →
        ∃ m, m0.run (setCalls (pre ++ (k2, v) :: post)) = .ok m ∧ m.Get k = .ok (v, true)) ∧
    (∀ (K : Type) [Comparable K] (h : K → Nat) (m0 : ArrayMap K V)
        (pre post : List (K × V)) (k : K) (v : V),
        EqLaws K →
        NewArrayMapWithHasher V capacity (some h) = .ok m0 →
        Comparable.eq k k = true →
        (∀ p ∈ post, Comparable.eq p.1 k = false) →
        ∃ m, m0.run (setCalls (pre ++ (k, v) :: post)) = .ok m ∧ m.Get k = .ok (v, true)) ∧
    (∀ (m0 : ArrayMap GoString V) (pre post : List (GoString × V)) (k : GoString) (v : V),
        NewArrayMap V capacity = .ok m0 →
        k ∉ post.map Prod.fst →
        ∃ m, m0.run (setCalls (pre ++ (k, v) :: post)) = .ok m ∧ m.Get k = .ok (v, true)) := by
  refine ⟨?_, ?_, ?_⟩
  · intro K _ h m0 pre post k2 k v laws hh hok heq hpost
    obtain ⟨m, hrun, _, _, hget⟩ :=
      fresh_run_Get laws capacity h hh m0 hc hok (setCalls (pre ++ (k2, v) :: post))
    refine ⟨m, hrun, ?_⟩
    rw [hget k, pairsOf_setCalls, lastSet_append_cons k k2 v pre post heq hpost]
  · intro K _ h m0 pre post k v laws hok hk hpost
    exact fresh_run_Get_self laws capacity h m0 hc hok pre post k v hk hpost
  · intro m0 pre post k v hok hpost
    rw [NewArrayMap_eq] at hok
    exact fresh_run_Get_self (eqLaws_of_identity eqIsIdentity_GoString) capacity fnv32 m0 hc
      hok pre post k v (eq_self_of_identity eqIsIdentity_GoString k)
      ((no_eq_iff_not_mem eqIsIdentity_GoString post k).mpr hpost)

/-- Witness of C1: with the default hash and capacity 2, after
`Set("a",1), Set("b",2), Set("a",3), Set("c",4)` the call `Get("a")` returns
`(3, true)`; with `float64` keys, capacity 1 and a constant hasher, after
`Set(+0.0, 1), Set(-0.0, 2), Set(1.5, 3)` the call `Get(+0.0)` returns
`(2, true)`; and with the hasher that returns the upper 32 bits of the key,
after `Set(1.5, 5), Set(+0.0, 1), Set(2.0, 3)` the call `Get(+0.0)` returns
`(1, true)`. -/
theorem last_write_wins_witness :
    isInt 2 ∧ (∃ m0 m, NewArrayMap Int 2 = .ok m0 ∧
      m0.run (setCalls [([97], 1), ([98], 2), ([97], 3), ([99], 4)]) = .ok m ∧
      m.Get [97] = .ok (3, true)) ∧
    isInt 1 ∧ (∃ m0 m, NewArrayMapWithHasher Int 1 (some (fun _ : Float64 => 0)) = .ok m0 ∧
      m0.run (setCalls [(Float64.mk 0, 1), (Float64.mk 9223372036854775808, 2),
        (Float64.mk 4609434218613702656, 3)]) = .ok m ∧
      m.Get (Float64.mk 0) = .ok (2, true)) ∧
    (∃ m0 m, NewArrayMapWithHasher Int 1
        (some (fun x : Float64 => x.bits / 4294967296)) = .ok m0 ∧
      m0.run (setCalls [(Float64.mk 4609434218613702656, 5), (Float64.mk 0, 1),
        (Float64.mk 4611686018427387904, 3)]) = .ok m ∧
      m.Get (Float64.mk 0) = .ok (1, true)) := by
  have hok : NewArrayMap Int 2 = .ok
      ⟨List.replicate 10 tuple.nil, List.replicate 10 (Mutex.mk false), 0, some fnv32⟩ := rfl
  obtain ⟨m, hrun, hget⟩ := (last_write_wins Int 2 (by decide)).2.2 _
    [([97], 1), ([98], 2)] [([99], 4)] [97] 3 hok (by decide)
  have hok2 : NewArrayMapWithHasher Int 1 (some (fun _ : Float64 => 0)) = .ok
      ⟨List.replicate 5 tuple.nil, List.replicate 5 (Mutex.mk false), 0,
        some (fun _ : Float64 => 0)⟩ := rfl
  obtain ⟨m2, hrun2, hget2⟩ := (last_write_wins Int 1 (by decide)).1 Float64 _ _
    [(Float64.mk 0, 1)] [(Float64.mk 4609434218613702656, 3)]
    (Float64.mk 9223372036854775808) (Float64.mk 0) 2 eqLaws_Float64
    (hashRespectsEq_const 0) hok2 (by decide) (by decide)
  have hok3 : NewArrayMapWithHasher Int 1 (some (fun x : Float64 => x.bits / 4294967296)) =
      .ok ⟨List.replicate 5 tuple.nil, List.replicate 5 (Mutex.mk false), 0,
        some (fun x : Float64 => x.bits / 4294967296)⟩ := rfl
  obtain ⟨m3, hrun3, hget3⟩ := (last_write_wins Int 1 (by decide)).2.1 Float64 _ _
    [(Float64.mk 4609434218613702656, 5)] [(Float64.mk 4611686018427387904, 3)]
    (Float64.mk 0) 1 eqLaws_Float64 hok3 (by decide) (by decide)
  exact ⟨by decide, ⟨_, m, hok, hrun, hget⟩, by decide, ⟨_, m2, hok2, hrun2, hget2⟩,
    ⟨_, m3, hok3, hrun3, hget3⟩⟩

/-- Counterexample to C1 as stated: with `float64` keys, capacity 1 and a
constant hasher, after `Set(NaN, 1)` the key NaN occurs in the sequence, and
`Get(NaN)` returns `(0, false)`, not `(1, true)`: NaN is not `==` to itself, so
the loop of `Get` passes the node. -/
theorem last_write_wins_counterexample :
    Comparable.eq Float64.NaN Float64.NaN = false ∧
    ∃ m0 m, NewArrayMapWithHasher Int 1 (some (fun _ : Float64 => 0)) = .ok m0 ∧
      m0.run (setCalls [(Float64.NaN, 1)]) = .ok m ∧
      m.array.head? = some (tuple.node Float64.NaN 1 tuple.nil) ∧
      m.Get Float64.NaN = .ok (0, false) ∧ m.Get Float64.NaN ≠ .ok (1, true) := by
  refine ⟨by decide, ⟨List.replicate 5 tuple.nil, List.replicate 5 (Mutex.mk false), 0,
      some (fun _ : Float64 => 0)⟩,
    ⟨tuple.node Float64.NaN 1 tuple.nil :: List.replicate 4 tuple.nil,
      List.replicate 5 (Mutex.mk false), 1, some (fun _ : Float64 => 0)⟩,
    rfl, rfl, rfl, rfl, ?_⟩
  intro e
  have e2 : (Except.ok ((0 : Int), false) : Except Failure (Int × Bool)) =
      Except.ok (1, true) := e
  simp at e2

/-- C2 (keys never set are absent): on a map freshly built by either
constructor (with or without a hasher), every sequence of `Set` and `MSet`
calls runs to the end, and afterwards, for every key `k` that is `==` to the key
of none of the pairs passed, `Get(k)` returns the zero value and `false` and
`Has(k)` returns `false`.  On strings `==` is the identity, so on a map built by
`NewArrayMap` this holds for every key that is the key of none of the pairs. -/
theorem get_of_key_never_set (V : Type) [Inhabited V] (capacity : Int) (hc : isInt capacity) :
    (∀ (K : Type) [Comparable K] (hasher : Option (K → Nat)) (m0 : ArrayMap K V)
        (calls : List (Call K V)) (k : K),
        NewArrayMapWithHasher V capacity hasher = .ok m0 →
        (∀ p ∈ pairsOf calls, Comparable.eq p.1 k = false) →
        ∃ m, m0.run calls = .ok m ∧ m.Get k = .ok (default, false) ∧ m.Has k = .ok false) ∧
    (∀ (m0 : ArrayMap GoString V) (calls : List (Call GoString V)) (k : GoString),
        NewArrayMap V capacity = .ok m0 →
        k ∉ (pairsOf calls).map Prod.fst →
        ∃ m, m0.run calls = .ok m ∧ m.Get k = .ok (default, false) ∧ m.Has k = .ok false) := by
  have main : ∀ (K : Type) [Comparable K] (hasher : Option (K → Nat)) (m0 : ArrayMap K V)
      (calls : List (Call K V)) (k : K),
      NewArrayMapWithHasher V capacity hasher = .ok m0 →
      (∀ p ∈ pairsOf calls, Comparable.eq p.1 k = false) →
      ∃ m, m0.run calls = .ok m ∧ m.Get k = .ok (default, false) ∧ m.Has k = .ok false := by
    intro K _ hasher m0 calls k hok hk
    obtain ⟨m, hrun, hget⟩ := fresh_run_miss capacity hasher m0 hc hok calls k hk
    refine ⟨m, hrun, hget, ?_⟩
    simp only [ArrayMap.Has, hget]
  refine ⟨main, ?_⟩
  intro m0 calls k hok hk
  rw [NewArrayMap_eq] at hok
  exact main GoString (some fnv32) m0 calls k hok
    ((no_eq_iff_not_mem eqIsIdentity_GoString (pairsOf calls) k).mpr hk)

/-- Witness of C2: with capacity 1 (five buckets) and a hasher that sends every
key to bucket 0, after `Set(1,10)` and `MSet` of `2:20, 3:30` the key 4, whose
bucket holds three nodes, is absent. -/
theorem get_of_key_never_set_witness :
    isInt 1 ∧ ∃ m0 m, NewArrayMapWithHasher Int 1 (some (fun _ : Nat => 0)) = .ok m0 ∧
      m0.run [Call.set 1 10, Call.mset [(2, 20), (3, 30)]] = .ok m ∧
      m.array.head? = some (tuple.node 3 30 (tuple.node 2 20 (tuple.node 1 10 tuple.nil))) ∧
      m.Get 4 = .ok (0, false) ∧ m.Has 4 = .ok false := by
  refine ⟨by decide, ?_⟩
  have hok : NewArrayMapWithHasher Int 1 (some (fun _ : Nat => 0)) = .ok
      ⟨List.replicate 5 tuple.nil, List.replicate 5 (Mutex.mk false), 0,
        some (fun _ : Nat => 0)⟩ := rfl
  obtain ⟨m, hrun, hget, hhas⟩ := (get_of_key_never_set Int 1 (by decide)).1 Nat _ _
    [Call.set 1 10, Call.mset [(2, 20), (3, 30)]] 4 hok (by decide)
  refine ⟨_, m, hok, hrun, ?_, hget, hhas⟩
  have hrun2 : (⟨List.replicate 5 tuple.nil, List.replicate 5 (Mutex.mk false), 0,
      some (fun _ : Nat => 0)⟩ : ArrayMap Nat Int).run
        [Call.set 1 10, Call.mset [(2, 20), (3, 30)]] = .ok
      ⟨tuple.node 3 30 (tuple.node 2 20 (tuple.node 1 10 tuple.nil)) ::
        List.replicate 4 tuple.nil, List.replicate 5 (Mutex.mk false), 3,
        some (fun _ : Nat => 0)⟩ := rfl
  rw [hrun2] at hrun
  cases hrun
  rfl

/-- C3, as the code has it: on a map freshly built by either constructor (with
a hasher), after one `Set` call per key of a list of `N` keys of which no two
are `==` (on strings: `N` pairwise distinct keys), in any order, `Count()`
returns `N` wrapped to a 32-bit signed integer; it returns exactly `N` when
`N ≤ 2147483647`. -/
theorem count_distinct_sets (V : Type) [Inhabited V] (capacity : Int) (hc : isInt capacity) :
    (∀ (K : Type) [Comparable K] (h : K → Nat) (m0 : ArrayMap K V) (ps : List (K × V)),
        NewArrayMapWithHasher V capacity (some h) = .ok m0 →
        (ps.map Prod.fst).Pairwise (fun a b => Comparable.eq a b = false) →
        ∃ m, m0.run (setCalls ps) = .ok m ∧ m.Count = wrapInt32 (ps.length : Int) ∧
          (ps.length ≤ 2147483647 → m.Count = (ps.length : Int))) ∧
    (∀ (m0 : ArrayMap GoString V) (ps : List (GoString × V)),
        NewArrayMap V capacity = .ok m0 →
        (ps.map Prod.fst).Nodup →
        ∃ m, m0.run (setCalls ps) = .ok m ∧ m.Count = wrapInt32 (ps.length : Int) ∧
          (ps.length ≤ 2147483647 → m.Count = (ps.length : Int))) := by
  have main : ∀ (K : Type) [Comparable K] (h : K → Nat) (m0 : ArrayMap K V)
      (ps : List (K × V)),
      NewArrayMapWithHasher V capacity (some h) = .ok m0 →
      (ps.map Prod.fst).Pairwise (fun a b => Comparable.eq a b = false) →
      ∃ m, m0.run (setCalls ps) = .ok m ∧ m.Count = wrapInt32 (ps.length : Int) ∧
        (ps.length ≤ 2147483647 → m.Count = (ps.length : Int)) := by
    intro K _ h m0 ps hok hnd
    obtain ⟨m, hrun, hcount⟩ := fresh_count_distinct capacity h m0 hc hok ps hnd
    refine ⟨m, hrun, hcount, fun hle => ?_⟩
    rw [hcount]
    exact wrapInt32_of_range _ (by omega) (by omega)
  refine ⟨main, ?_⟩
  intro m0 ps hok hnd
  rw [NewArrayMap_eq] at hok
  exact main GoString fnv32 m0 ps hok ((pairwise_ne_iff_nodup eqIsIdentity_GoString _).mpr hnd)

/-- Witness of C3: three distinct keys, set in the order "c", "a", "b" on a map
with the default hash and capacity 2, give `Count() = 3`. -/
theorem count_distinct_sets_witness :
    isInt 2 ∧ ∃ m0 m, NewArrayMap Int 2 = .ok m0 ∧
      m0.run (setCalls [([99], 3), ([97], 1), ([98], 2)]) = .ok m ∧ m.Count = 3 := by
  refine ⟨by decide, ?_⟩
  have hok : NewArrayMap Int 2 = .ok
      ⟨List.replicate 10 tuple.nil, List.replicate 10 (Mutex.mk false), 0, some fnv32⟩ := rfl
  obtain ⟨m, hrun, _, hcount⟩ := (count_distinct_sets Int 2 (by decide)).2 _
    [([99], 3), ([97], 1), ([98], 2)] hok (by decide)
  exact ⟨_, m, hok, hrun, hcount (by decide)⟩

/-- Counterexample to C3 as stated: on the map built by
`NewArrayMapWithHasher(429496730, h)` with `h(k) = uint32(k)` (2147483650
buckets), one `Set` call for each of the `N = 2147483648` distinct keys
`0, 1, ..., 2147483647` leaves `Count() = -2147483648`, which is not `N`. -/
theorem count_distinct_sets_counterexample :
    ∃ m0 m, NewArrayMapWithHasher Unit 429496730 (some (fun k : Nat => k)) = .ok m0 ∧
      (((List.range 2147483648).map (fun k => (k, ()))).map Prod.fst).Nodup ∧
      ((List.range 2147483648).map (fun k => (k, ()))).length = 2147483648 ∧
      m0.run (setCalls ((List.range 2147483648).map (fun k => (k, ())))) = .ok m ∧
      m.Count = -2147483648 ∧ m.Count ≠ 2147483648 := by
  have hok := @NewArrayMapWithHasher_small Nat Unit 429496730 (some (fun k : Nat => k))
    (by decide) (by decide)
  have hnd : (((List.range 2147483648).map (fun k => (k, ()))).map Prod.fst).Nodup := by
    rw [map_fst_range_pairs]
    exact List.nodup_range _
  have hlen : ((List.range 2147483648).map (fun k => (k, ()))).length = 2147483648 := by
    rw [List.length_map, List.length_range]
  obtain ⟨m, hrun, hcount⟩ := fresh_count_distinct 429496730 _ _ (by decide) hok _
    ((pairwise_ne_iff_nodup eqIsIdentity_Nat _).mpr hnd)
  rw [hlen] at hcount
  have hval : wrapInt32 ((2147483648 : Nat) : Int) = -2147483648 := by decide
  rw [hval] at hcount
  refine ⟨_, m, hok, hnd, hlen, hrun, hcount, ?_⟩
  rw [hcount]
  decide

/-- C4, as the code has it (updates do not count): in every state reached from
a map freshly built by either constructor with a hasher, by `Set` and `MSet`
calls, for every key `k` that is `==` to itself (every string is), `Set(k, v1)`
and then `Set(k, v2)` both return, the second leaves `Count()` as the first
left it and makes `Get(k)` return `(v2, true)`, and a second `Set(k, v1)` leaves
the state the first `Set(k, v1)` left. -/
theorem set_twice (V : Type) [Inhabited V] (capacity : Int) (hc : isInt capacity) :
    (∀ (K : Type) [Comparable K] (h : K → Nat) (m0 m : ArrayMap K V)
        (calls : List (Call K V)) (k : K) (v1 v2 : V),
        NewArrayMapWithHasher V capacity (some h) = .ok m0 →
        m0.run calls = .ok m →
        Comparable.eq k k = true →
        ∃ m1 m2, m.Set k v1 = .ok m1 ∧ m1.Set k v2 = .ok m2 ∧ m2.Count = m1.Count ∧
          m2.Get k = .ok (v2, true) ∧ m1.Set k v1 = .ok m1) ∧
    (∀ (m0 m : ArrayMap GoString V) (calls : List (Call GoString V)) (k : GoString)
        (v1 v2 : V),
        NewArrayMap V capacity = .ok m0 →
        m0.run calls = .ok m →
        ∃ m1 m2, m.Set k v1 = .ok m1 ∧ m1.Set k v2 = .ok m2 ∧ m2.Count = m1.Count ∧
          m2.Get k = .ok (v2, true) ∧ m1.Set k v1 = .ok m1) := by
  refine ⟨?_, ?_⟩
  · intro K _ h m0 m calls k v1 v2 hok hrun hk
    exact fresh_run_Set_Set capacity h m0 hc hok calls m hrun k v1 v2 hk
  · intro m0 m calls k v1 v2 hok hrun
    rw [NewArrayMap_eq] at hok
    exact fresh_run_Set_Set capacity fnv32 m0 hc hok calls m hrun k v1 v2
      (eq_self_of_identity eqIsIdentity_GoString k)

/-- Witness of C4: with the default hash and capacity 2, from the state after
`Set("a",1)` and `MSet` of `"b":2`, the calls `Set("b",5)`, `Set("b",6)` leave
`Count() = 2` and `Get("b") = (6, true)`. -/
theorem set_twice_witness :
    isInt 2 ∧ ∃ m0 m m1 m2, NewArrayMap Int 2 = .ok m0 ∧
      m0.run [Call.set [97] 1, Call.mset [([98], 2)]] = .ok m ∧
      m.Set [98] 5 = .ok m1 ∧ m1.Set [98] 6 = .ok m2 ∧ m1.Count = 2 ∧ m2.Count = 2 ∧
      m2.Get [98] = .ok (6, true) ∧ m1.Set [98] 5 = .ok m1 := by
  refine ⟨by decide, ?_⟩
  have hok : NewArrayMap Int 2 = .ok
      ⟨List.replicate 10 tuple.nil, List.replicate 10 (Mutex.mk false), 0, some fnv32⟩ := rfl
  have hrun : (⟨List.replicate 10 tuple.nil, List.replicate 10 (Mutex.mk false), 0,
      some fnv32⟩ : ArrayMap GoString Int).run [Call.set [97] 1, Call.mset [([98], 2)]] = .ok
      ⟨[tuple.nil, tuple.nil, tuple.nil, tuple.nil, tuple.nil, tuple.node [98] 2 tuple.nil,
        tuple.node [97] 1 tuple.nil, tuple.nil, tuple.nil, tuple.nil],
        List.replicate 10 (Mutex.mk false), 2, some fnv32⟩ := rfl
  obtain ⟨m1, m2, h1, h2, hcount, hget, hidem⟩ :=
    (set_twice Int 2 (by decide)).2 _ _ _ [98] 5 6 hok hrun
  have h1b : (⟨[tuple.nil, tuple.nil, tuple.nil, tuple.nil, tuple.nil,
      tuple.node [98] 2 tuple.nil, tuple.node [97] 1 tuple.nil, tuple.nil, tuple.nil,
      tuple.nil], List.replicate 10 (Mutex.mk false), 2, some fnv32⟩ :
      ArrayMap GoString Int).Set [98] 5 = .ok
      ⟨[tuple.nil, tuple.nil, tuple.nil, tuple.nil, tuple.nil, tuple.node [98] 5 tuple.nil,
        tuple.node [97] 1 tuple.nil, tuple.nil, tuple.nil, tuple.nil],
        List.replicate 10 (Mutex.mk false), 2, some fnv32⟩ := rfl
  have hc1 : m1.Count = 2 := by
    rw [h1b] at h1
    cases h1
    rfl
  exact ⟨_, _, m1, m2, hok, hrun, h1, h2, hc1, by rw [hcount, hc1], hget, hidem⟩

/-- Counterexample to C4 as stated: `NewArrayMapWithHasher(1, nil)` returns a
map, on which `Set(7, 1)` and `Set(7, 2)` return without effect and `Get(7)`
then returns `(0, false)`, not `(2, true)`.  And with `float64` keys, capacity 1
and a constant hasher, `Set(NaN, 1)` and then `Set(NaN, 2)` each link a node:
`Count()` goes from 1 to 2 and `Get(NaN)` returns `(0, false)`. -/
theorem set_twice_counterexample :
    (∃ m0 m1 m2, NewArrayMapWithHasher Int 1 (none : Option (Nat → Nat)) = .ok m0 ∧
      m0.run [] = .ok m0 ∧ m0.Set 7 1 = .ok m1 ∧ m1.Set 7 2 = .ok m2 ∧
      m2.Get 7 = .ok (0, false) ∧ m2.Get 7 ≠ .ok (2, true)) ∧
    (∃ m0 m1 m2, NewArrayMapWithHasher Int 1 (some (fun _ : Float64 => 0)) = .ok m0 ∧
      m0.run [] = .ok m0 ∧ m0.Set Float64.NaN 1 = .ok m1 ∧ m1.Set Float64.NaN 2 = .ok m2 ∧
      m1.Count = 1 ∧ m2.Count = 2 ∧ m2.Count ≠ m1.Count ∧
      m2.array.head? =
        some (tuple.node Float64.NaN 2 (tuple.node Float64.NaN 1 tuple.nil)) ∧
      m2.Get Float64.NaN = .ok (0, false)) := by
  refine ⟨⟨⟨List.replicate 5 tuple.nil, List.replicate 5 (Mutex.mk false), 0, none⟩,
    ⟨List.replicate 5 tuple.nil, List.replicate 5 (Mutex.mk false), 0, none⟩,
    ⟨List.replicate 5 tuple.nil, List.replicate 5 (Mutex.mk false), 0, none⟩,
    rfl, rfl, rfl, rfl, rfl, ?_⟩,
    ⟨⟨List.replicate 5 tuple.nil, List.replicate 5 (Mutex.mk false), 0,
      some (fun _ : Float64 => 0)⟩,
    ⟨tuple.node Float64.NaN 1 tuple.nil :: List.replicate 4 tuple.nil,
      List.replicate 5 (Mutex.mk false), 1, some (fun _ : Float64 => 0)⟩,
    ⟨tuple.node Float64.NaN 2 (tuple.node Float64.NaN 1 tuple.nil) ::
      List.replicate 4 tuple.nil,
      List.replicate 5 (Mutex.mk false), 2, some (fun _ : Float64 => 0)⟩,
    rfl, rfl, rfl, rfl, rfl, rfl, by decide, rfl, rfl⟩⟩
  intro e
  have e2 : (Except.ok ((0 : Int), false) : Except Failure (Int × Bool)) =
      Except.ok (2, true) := e
  simp at e2

/-- C5, as the code has it (snapshot, with the keys compared by `==`): on a map
freshly built by `NewArrayMapWithHasher` for a key type whose `==` is symmetric
and transitive, with a hasher that gives `==` keys the same hash, after any
sequence of `Set` calls, `Items()` is a mapping (no two of its keys are `==`)
whose keys are keys passed to `Set`, which has a key `==` to `k` exactly when a
key `==` to `k` was passed, which maps `k` to the value of the last `Set` call
on a key `==` to `k`, and in which `Items()[k] = v` exactly when
`Get(k) = (v, true)`.  On a map built by `NewArrayMap`, whose keys are strings,
the keys of `Items()` are exactly the keys passed to `Set`, each mapped to the
value of the last `Set` call on it. -/
theorem items_after_sets (V : Type) [Inhabited V] (capacity : Int) (hc : isInt capacity) :
    (∀ (K : Type) [Comparable K] (h : K → Nat) (m0 : ArrayMap K V) (ps : List (K × V)),
        EqLaws K → HashRespectsEq h →
        NewArrayMapWithHasher V capacity (some h) = .ok m0 →
        ∃ m, m0.run (setCalls ps) = .ok m ∧
          ((m.Items).map Prod.fst).Pairwise (fun a b => Comparable.eq a b = false) ∧
          (∀ k ∈ (m.Items).map Prod.fst, k ∈ ps.map Prod.fst) ∧
          (∀ k, (∃ q ∈ m.Items, Comparable.eq q.1 k = true) ↔
            (∃ p ∈ ps, Comparable.eq p.1 k = true)) ∧
          (∀ (pre post : List (K × V)) (k2 k : K) (v : V), ps = pre ++ (k2, v) :: post →
            Comparable.eq k2 k = true → (∀ p ∈ post, Comparable.eq p.1 k = false) →
            GoMap.lookup m.Items k = some v) ∧
          (∀ (k : K) (v : V), GoMap.lookup m.Items k = some v ↔ m.Get k = .ok (v, true))) ∧
    (∀ (m0 : ArrayMap GoString V) (ps : List (GoString × V)),
        NewArrayMap V capacity = .ok m0 →
        ∃ m, m0.run (setCalls ps) = .ok m ∧
          ((m.Items).map Prod.fst).Nodup ∧
          (∀ k, k ∈ (m.Items).map Prod.fst ↔ k ∈ ps.map Prod.fst) ∧
          (∀ (pre post : List (GoString × V)) (k : GoString) (v : V),
            ps = pre ++ (k, v) :: post →
            k ∉ post.map Prod.fst → GoMap.lookup m.Items k = some v) ∧
          (∀ (k : GoString) (v : V),
            GoMap.lookup m.Items k = some v ↔ m.Get k = .ok (v, true))) := by
  refine ⟨?_, ?_⟩
  · intro K _ h m0 ps laws hh hok
    exact fresh_run_Items laws capacity h hh m0 hc hok ps
  · intro m0 ps hok
    rw [NewArrayMap_eq] at hok
    exact fresh_run_Items_id eqIsIdentity_GoString capacity fnv32 m0 hc hok ps

/-- Witness of C5: with the default hash and capacity 2, after
`Set("a",1), Set("b",2), Set("a",3)` the snapshot has `Items()["a"] = 3` and
`Items()["b"] = 2`, and holds the key "c" exactly if "c" was set; and with
`float64` keys, capacity 1 and a constant hasher, after
`Set(+0.0, 1), Set(1.5, 3), Set(-0.0, 2)` the snapshot has `Items()[+0.0] = 2`. -/
theorem items_after_sets_witness :
    isInt 2 ∧ (∃ m0 m, NewArrayMap Int 2 = .ok m0 ∧
      m0.run (setCalls [([97], 1), ([98], 2), ([97], 3)]) = .ok m ∧
      ([99] ∈ (m.Items).map Prod.fst ↔
        [99] ∈ ([([97], 1), ([98], 2), ([97], 3)] : List (GoString × Int)).map Prod.fst) ∧
      GoMap.lookup m.Items [97] = some 3 ∧ GoMap.lookup m.Items [98] = some 2) ∧
    isInt 1 ∧ (∃ m0 m, NewArrayMapWithHasher Int 1 (some (fun _ : Float64 => 0)) = .ok m0 ∧
      m0.run (setCalls [(Float64.mk 0, 1), (Float64.mk 4609434218613702656, 3),
        (Float64.mk 9223372036854775808, 2)]) = .ok m ∧
      GoMap.lookup m.Items (Float64.mk 0) = some 2) := by
  have hok : NewArrayMap Int 2 = .ok
      ⟨List.replicate 10 tuple.nil, List.replicate 10 (Mutex.mk false), 0, some fnv32⟩ := rfl
  obtain ⟨m, hrun, _, hkeys, hlast, _⟩ :=
    (items_after_sets Int 2 (by decide)).2 _ [([97], 1), ([98], 2), ([97], 3)] hok
  have hok2 : NewArrayMapWithHasher Int 1 (some (fun _ : Float64 => 0)) = .ok
      ⟨List.replicate 5 tuple.nil, List.replicate 5 (Mutex.mk false), 0,
        some (fun _ : Float64 => 0)⟩ := rfl
  obtain ⟨m2, hrun2, _, _, _, hlast2, _⟩ :=
    (items_after_sets Int 1 (by decide)).1 Float64 _ _
      [(Float64.mk 0, 1), (Float64.mk 4609434218613702656, 3),
        (Float64.mk 9223372036854775808, 2)] eqLaws_Float64 (hashRespectsEq_const 0) hok2
  exact ⟨by decide, ⟨_, m, hok, hrun, hkeys [99],
    hlast [([97], 1), ([98], 2)] [] [97] 3 rfl (by decide),
    hlast [([97], 1)] [([97], 3)] [98] 2 rfl (by decide)⟩, by decide,
    ⟨_, m2, hok2, hrun2,
      hlast2 [(Float64.mk 0, 1), (Float64.mk 4609434218613702656, 3)] []
        (Float64.mk 9223372036854775808) (Float64.mk 0) 2 rfl (by decide) (by decide)⟩⟩

/-- Counterexample to C5 as stated, in two parts.  With `float64` keys,
capacity 1 and a constant hasher, after `Set(NaN, 1)` and `Set(NaN, 2)`, calls
on one key, the snapshot `Items()` has two entries, it has no value for the key
NaN, and `Get(NaN)` returns `(0, false)`.  With the hasher that returns the
upper 32 bits of the key, after `Set(+0.0, 1)` and `Set(-0.0, 2)` the two keys,
which are `==`, are in the buckets 0 and 3: `Items()[+0.0]` is 2 and `Get(+0.0)`
returns `(1, true)`. -/
theorem items_after_sets_counterexample :
    (∃ m0 m, NewArrayMapWithHasher Int 1 (some (fun _ : Float64 => 0)) = .ok m0 ∧
      m0.run (setCalls [(Float64.NaN, 1), (Float64.NaN, 2)]) = .ok m ∧
      ([Float64.NaN, Float64.NaN].dedup).length = 1 ∧
      m.Items = [(Float64.NaN, 2), (Float64.NaN, 1)] ∧ GoMap.len m.Items = 2 ∧
      GoMap.lookup m.Items Float64.NaN = none ∧ m.Get Float64.NaN = .ok (0, false)) ∧
    (∃ m0 m, NewArrayMapWithHasher Int 1
        (some (fun x : Float64 => x.bits / 4294967296)) = .ok m0 ∧
      m0.run (setCalls [(Float64.mk 0, 1), (Float64.mk 9223372036854775808, 2)]) = .ok m ∧
      Comparable.eq (Float64.mk 9223372036854775808) (Float64.mk 0) = true ∧
      m.Items = [(Float64.mk 9223372036854775808, 2)] ∧
      GoMap.lookup m.Items (Float64.mk 0) = some 2 ∧
      m.Get (Float64.mk 0) = .ok (1, true)) :=
  ⟨⟨⟨List.replicate 5 tuple.nil, List.replicate 5 (Mutex.mk false), 0,
      some (fun _ : Float64 => 0)⟩,
    ⟨tuple.node Float64.NaN 2 (tuple.node Float64.NaN 1 tuple.nil) ::
      List.replicate 4 tuple.nil,
      List.replicate 5 (Mutex.mk false), 2, some (fun _ : Float64 => 0)⟩,
    rfl, rfl, by decide, rfl, rfl, rfl, rfl⟩,
   ⟨⟨List.replicate 5 tuple.nil, List.replicate 5 (Mutex.mk false), 0,
      some (fun x : Float64 => x.bits / 4294967296)⟩,
    ⟨[tuple.node (Float64.mk 0) 1 tuple.nil, tuple.nil, tuple.nil,
      tuple.node (Float64.mk 9223372036854775808) 2 tuple.nil, tuple.nil],
      List.replicate 5 (Mutex.mk false), 2,
      some (fun x : Float64 => x.bits / 4294967296)⟩,
    rfl, rfl, by decide, rfl, rfl, rfl⟩⟩

/-- C6, as the code has it: for every capacity `> 0` for which the
`capacity * capacityFactor` bucket heads, 8 bytes each, do not exceed the
allocation limit `maxAlloc` of `make` (`2^48` bytes, so `capacity` is at most
7036874417766), both constructors return a map whose bucket sequence and lock
sequence have length exactly `capacity * capacityFactor = capacity * 5`, with
every bucket head `nil`, no mutex held and the counter 0. -/
theorem constructed_sizes (T : Type) (capacity : Int) (hpos : 0 < capacity)
    (hle : capacity * capacityFactor * sizeofPointer ≤ maxAlloc) :
    (∃ m0, NewArrayMap T capacity = .ok m0 ∧
      (m0.array.length : Int) = capacity * capacityFactor ∧
      (m0.ls.length : Int) = capacity * capacityFactor ∧
      capacity * capacityFactor = capacity * 5 ∧
      (∀ t ∈ m0.array, t = tuple.nil) ∧ (∀ mu ∈ m0.ls, mu.locked = false) ∧
      m0.Count = 0) ∧
    (∀ (K : Type) (hasher : Option (K → Nat)),
      ∃ m0, NewArrayMapWithHasher T capacity hasher = .ok m0 ∧
      (m0.array.length : Int) = capacity * capacityFactor ∧
      (m0.ls.length : Int) = capacity * capacityFactor ∧
      capacity * capacityFactor = capacity * 5 ∧
      (∀ t ∈ m0.array, t = tuple.nil) ∧ (∀ mu ∈ m0.ls, mu.locked = false) ∧
      m0.Count = 0) := by
  have hle5 : capacity * 5 * 8 ≤ 281474976710656 := hle
  have hnn : 0 ≤ capacity * 5 := by omega
  have main : ∀ (K : Type) (hasher : Option (K → Nat)),
      ∃ m0, NewArrayMapWithHasher T capacity hasher = .ok m0 ∧
      (m0.array.length : Int) = capacity * capacityFactor ∧
      (m0.ls.length : Int) = capacity * capacityFactor ∧
      capacity * capacityFactor = capacity * 5 ∧
      (∀ t ∈ m0.array, t = tuple.nil) ∧ (∀ mu ∈ m0.ls, mu.locked = false) ∧
      m0.Count = 0 := by
    intro K hasher
    refine ⟨_, @NewArrayMapWithHasher_small K T capacity hasher hpos hle5, ?_, ?_, rfl,
      ?_, ?_, rfl⟩
    · simp only [List.length_replicate, capacityFactor]
      exact Int.toNat_of_nonneg hnn
    · simp only [List.length_replicate, capacityFactor]
      exact Int.toNat_of_nonneg hnn
    · intro t ht
      exact (List.mem_replicate.mp ht).2
    · intro mu hmu
      rw [(List.mem_replicate.mp hmu).2]
  refine ⟨?_, main⟩
  rw [NewArrayMap_eq]
  exact main GoString (some fnv32)

/-- Witness of C6: capacity 2 gives 10 buckets and 10 mutexes. -/
theorem constructed_sizes_witness :
    (0 : Int) < 2 ∧ (2 : Int) * capacityFactor * sizeofPointer ≤ maxAlloc ∧
      ∃ m0, NewArrayMap Int 2 = .ok m0 ∧ m0.array.length = 10 ∧ m0.ls.length = 10 ∧
        m0.Count = 0 := by
  obtain ⟨m0, hok, ha, hl, _, _, _, hcount⟩ :=
    (constructed_sizes Int 2 (by decide) (by decide)).1
  have h10 : (2 : Int) * capacityFactor = 10 := by decide
  refine ⟨by decide, by decide, m0, hok, ?_, ?_, hcount⟩
  · rw [h10] at ha
    exact_mod_cast ha
  · rw [h10] at hl
    exact_mod_cast hl

/-- Counterexample to C6 as stated, at three positive capacities of type `int`.
At 7036874417767 the product `capacity * 5` does not overflow, but its bucket
heads take more than `maxAlloc` bytes and both constructors fail in `make`.
At 1844674407370955162 the product overflows to a negative `int` and both
constructors fail in `make`.  At 3689348814741910324 the product overflows to
4, and `NewArrayMap` returns a map with 4 buckets, not `capacity * 5`. -/
theorem constructed_sizes_counterexample :
    (isInt 7036874417767 ∧ (0 : Int) < 7036874417767 ∧
      wrapInt64 (7036874417767 * capacityFactor) = 35184372088835 ∧
      maxAlloc < 35184372088835 * sizeofPointer ∧
      NewArrayMap Int 7036874417767 = .error .makesliceLen ∧
      NewArrayMapWithHasher Int 7036874417767 (some (fun k : Nat => k)) =
        .error .makesliceLen) ∧
    (isInt 1844674407370955162 ∧ (0 : Int) < 1844674407370955162 ∧
      wrapInt64 (1844674407370955162 * capacityFactor) = -9223372036854775806 ∧
      NewArrayMap Int 1844674407370955162 = .error .makesliceLen ∧
      NewArrayMapWithHasher Int 1844674407370955162 (some (fun k : Nat => k)) =
        .error .makesliceLen) ∧
    (isInt 3689348814741910324 ∧ (0 : Int) < 3689348814741910324 ∧
      wrapInt64 (3689348814741910324 * capacityFactor) = 4 ∧
      ∃ m0, NewArrayMap Int 3689348814741910324 = .ok m0 ∧ m0.array.length = 4 ∧
        (m0.array.length : Int) ≠ 3689348814741910324 * capacityFactor) := by
  refine ⟨⟨by decide, by decide, by decide, by decide, rfl, rfl⟩,
    ⟨by decide, by decide, by decide, rfl, rfl⟩,
    ⟨by decide, by decide, by decide,
      ⟨List.replicate 4 tuple.nil, List.replicate 4 (Mutex.mk false), 0, some fnv32⟩,
      rfl, rfl, by decide⟩⟩

/-- C7 (construction fails with the invalid-capacity failure exactly on a
non-positive capacity): for every integer capacity each constructor raises
`panic("invalid capacity")` if and only if `capacity <= 0`, and the two
constructors fail on the same capacities with the same failure, whatever the
hasher. -/
theorem invalid_capacity_iff (T : Type) (capacity : Int) :
    (NewArrayMap T capacity = .error .invalidCapacity ↔ capacity ≤ 0) ∧
    (∀ (K : Type) (hasher : Option (K → Nat)),
      NewArrayMapWithHasher T capacity hasher = .error .invalidCapacity ↔ capacity ≤ 0) ∧
    (∀ (K : Type) (hasher : Option (K → Nat)) (e : Failure),
      NewArrayMap T capacity = .error e ↔
        NewArrayMapWithHasher T capacity hasher = .error e) := by
  have main : ∀ (K : Type) (hasher : Option (K → Nat)),
      NewArrayMapWithHasher T capacity hasher = .error .invalidCapacity ↔ capacity ≤ 0 := by
    intro K hasher
    constructor
    · intro he
      by_contra hn
      exact @NewArrayMapWithHasher_pos K T capacity hasher (by omega) he
    · intro hle
      exact @NewArrayMapWithHasher_nonpos K T capacity hasher hle
  refine ⟨?_, main, ?_⟩
  · rw [NewArrayMap_eq]
    exact main GoString (some fnv32)
  · intro K hasher e
    rw [NewArrayMap_eq]
    constructor
    · intro he
      exact @NewArrayMapWithHasher_error_hasher GoString T K T capacity (some fnv32)
        hasher e he
    · intro he
      exact @NewArrayMapWithHasher_error_hasher K T GoString T capacity hasher
        (some fnv32) e he

/-- C8 (concrete scenario with the default string hash): `NewArrayMap[int](2)`
has 10 buckets; after `Set("a",1), Set("b",2), Set("c",3)`: `Count() = 3`,
`Get("b") = (2, true)`, `Get("z") = (0, false)`; after a further `Set("a",4)`:
`Count() = 3` and `Get("a") = (4, true)`. -/
theorem scenario_abc :
    ∃ m0 m3 m4, NewArrayMap Int 2 = .ok m0 ∧ m0.array.length = 10 ∧
      m0.run [Call.set [97] 1, Call.set [98] 2, Call.set [99] 3] = .ok m3 ∧
      m3.Count = 3 ∧ m3.Get [98] = .ok (2, true) ∧ m3.Get [122] = .ok (0, false) ∧
      m3.Set [97] 4 = .ok m4 ∧ m4.Count = 3 ∧ m4.Get [97] = .ok (4, true) := by
  refine ⟨⟨List.replicate 10 tuple.nil, List.replicate 10 (Mutex.mk false), 0, some fnv32⟩,
    ⟨[tuple.nil, tuple.nil, tuple.nil, tuple.nil, tuple.node [99] 3 tuple.nil,
      tuple.node [98] 2 tuple.nil, tuple.node [97] 1 tuple.nil, tuple.nil, tuple.nil,
      tuple.nil], List.replicate 10 (Mutex.mk false), 3, some fnv32⟩,
    ⟨[tuple.nil, tuple.nil, tuple.nil, tuple.nil, tuple.node [99] 3 tuple.nil,
      tuple.node [98] 2 tuple.nil, tuple.node [97] 4 tuple.nil, tuple.nil, tuple.nil,
      tuple.nil], List.replicate 10 (Mutex.mk false), 3, some fnv32⟩,
    rfl, rfl, rfl, rfl, rfl, rfl, rfl, rfl, rfl⟩

/-- C9 (the default hash as a fold): for every byte string, `fnv32` is the left
fold over the bytes, from the accumulator 2166136261, of the step that
multiplies the accumulator by 16777619 modulo `2^32` and then XORs the byte;
`fnv32("") = 2166136261`; and the result is a `uint32`. -/
theorem fnv32_is_fold (key : GoString) :
    fnv32 key =
      key.foldl (fun acc b => ((acc * 16777619) % 2 ^ 32) ^^^ b.val) 2166136261 ∧
    fnv32 [] = 2166136261 ∧ fnv32 key < 2 ^ 32 := by
  have h32 : (2 : Nat) ^ 32 = 4294967296 := by decide
  rw [h32]
  refine ⟨fnv32_eq_foldl key, rfl, ?_⟩
  rw [fnv32_eq_foldl]
  exact foldl_fnv_lt key 2166136261 (by decide)

/-- C10, as the code has it: for every byte string, `fnv32` is the standard
FNV-1 32-bit hash (for each byte, multiply by the prime first and XOR the byte
second), the value of Go's `hash/fnv` `New32`, not `New32a`. -/
theorem fnv32_is_fnv1 (key : GoString) : fnv32 key = fnv1_32 key := by
  rw [fnv32_eq_foldl]
  rfl

/-- Counterexample to C10 as stated: on the one-byte string "a" `fnv32` is
`0x050c5d7e` and the FNV-1a hash is `0xe40c292c`. -/
theorem fnv32_is_fnv1_counterexample :
    fnv32 [97] = 0x050c5d7e ∧ fnv1a32 [97] = 0xe40c292c ∧ fnv32 [97] ≠ fnv1a32 [97] := by
  refine ⟨by decide, by decide, by decide⟩

/-- C11 (no hasher, no effect): on every map whose `idxHasher` is nil, in any
state, `getIdx` returns `-1`, so for every key and value `Get(key)` returns the
zero value and `false`, `Has(key)` returns `false`, and `Set(key, value)`
returns and leaves the whole state as it was. -/
theorem nil_hasher_noop (K V : Type) [Comparable K] [Inhabited V] (m : ArrayMap K V)
    (hh : m.idxHasher = none) (key : K) (val : V) :
    m.getIdx key = .ok (-1) ∧ m.Get key = .ok (default, false) ∧ m.Has key = .ok false ∧
      m.Set key val = .ok m := by
  refine ⟨getIdx_nil m key hh, Get_nil m key hh, ?_, Set_nil m key val hh⟩
  simp only [ArrayMap.Has, Get_nil m key hh]

/-- Witness of C11: a map without hasher whose only bucket holds a node with
key 1 reports the key 1 missing and ignores `Set(1, 20)`. -/
theorem nil_hasher_noop_witness :
    (⟨[tuple.node 1 10 tuple.nil], [Mutex.mk false], 1, none⟩ : ArrayMap Nat Int).Get 1 =
        .ok (0, false) ∧
      (⟨[tuple.node 1 10 tuple.nil], [Mutex.mk false], 1, none⟩ : ArrayMap Nat Int).Has 1 =
        .ok false ∧
      (⟨[tuple.node 1 10 tuple.nil], [Mutex.mk false], 1, none⟩ : ArrayMap Nat Int).Set 1 20 =
        .ok ⟨[tuple.node 1 10 tuple.nil], [Mutex.mk false], 1, none⟩ :=
  (nil_hasher_noop Nat Int ⟨[tuple.node 1 10 tuple.nil], [Mutex.mk false], 1, none⟩ rfl
    1 20).2

/-- C12, as the code has it: the constructors do not validate the hasher.  For
every capacity `> 0` for which the `capacity * capacityFactor` bucket heads, 8
bytes each, do not exceed the allocation limit `maxAlloc` of `make`,
`NewArrayMapWithHasher(capacity, nil)` returns a map, whose `idxHasher` is nil
and on which, for every key and value, `Get` returns the zero value and `false`,
`Has` returns `false` and `Set` returns leaving the map as it was; the map
`NewArrayMapWithHasher` returns holds the hasher it was given, and the map
`NewArrayMap` returns holds `fnv32`. -/
theorem constructor_keeps_hasher (V : Type) [Inhabited V] (capacity : Int)
    (hpos : 0 < capacity)
    (hle : capacity * capacityFactor * sizeofPointer ≤ maxAlloc) :
    (∀ (K : Type) [Comparable K], ∃ m0 : ArrayMap K V,
      NewArrayMapWithHasher V capacity none = .ok m0 ∧ m0.idxHasher = none ∧
      ∀ (key : K) (val : V), m0.Get key = .ok (default, false) ∧ m0.Has key = .ok false ∧
        m0.Set key val = .ok m0) ∧
    (∀ (K : Type) (hasher : Option (K → Nat)) (m0 : ArrayMap K V),
      NewArrayMapWithHasher V capacity hasher = .ok m0 → m0.idxHasher = hasher) ∧
    (∀ (m0 : ArrayMap GoString V), NewArrayMap V capacity = .ok m0 →
      m0.idxHasher = some fnv32) := by
  have hle5 : capacity * 5 * 8 ≤ 281474976710656 := hle
  have main : ∀ (K : Type) (hasher : Option (K → Nat)) (m0 : ArrayMap K V),
      NewArrayMapWithHasher V capacity hasher = .ok m0 → m0.idxHasher = hasher := by
    intro K hasher m0 hok
    rw [@NewArrayMapWithHasher_small K V capacity hasher hpos hle5] at hok
    rw [← Except.ok.inj hok]
  refine ⟨?_, main, ?_⟩
  · intro K _
    refine ⟨_, @NewArrayMapWithHasher_small K V capacity none hpos hle5, rfl, ?_⟩
    intro key val
    have hget := Get_nil (⟨List.replicate (capacity * 5).toNat tuple.nil,
      List.replicate (capacity * 5).toNat (Mutex.mk false), 0, none⟩ : ArrayMap K V) key rfl
    refine ⟨hget, ?_, Set_nil _ key val rfl⟩
    simp only [ArrayMap.Has, hget]
  · intro m0 hok
    rw [NewArrayMap_eq] at hok
    exact main GoString (some fnv32) m0 hok

/-- Witness of C12: capacity 1 and a nil hasher give a map with a nil
`idxHasher`, on which `Set(7, 1)` changes nothing and `Get(7)` misses. -/
theorem constructor_keeps_hasher_witness :
    (0 : Int) < 1 ∧ (1 : Int) * capacityFactor * sizeofPointer ≤ maxAlloc ∧
      ∃ m0 : ArrayMap Nat Int, NewArrayMapWithHasher Int 1 none = .ok m0 ∧
        m0.idxHasher = none ∧ m0.Get 7 = .ok (0, false) ∧ m0.Has 7 = .ok false ∧
        m0.Set 7 1 = .ok m0 := by
  obtain ⟨m0, hok, hnil, hnoop⟩ :=
    (constructor_keeps_hasher Int 1 (by decide) (by decide)).1 Nat
  exact ⟨by decide, by decide, m0, hok, hnil, (hnoop 7 1).1, (hnoop 7 1).2.1, (hnoop 7 1).2.2⟩

/-- Counterexample to C12 as stated: `NewArrayMapWithHasher(1, nil)` does not
fail; it returns a map with 5 empty buckets whose `idxHasher` is nil. -/
theorem constructor_keeps_hasher_counterexample :
    ∃ m0 : ArrayMap Nat Int, NewArrayMapWithHasher Int 1 none = .ok m0 ∧
      m0.array = [tuple.nil, tuple.nil, tuple.nil, tuple.nil, tuple.nil] ∧
      m0.idxHasher = none :=
  ⟨⟨List.replicate 5 tuple.nil, List.replicate 5 (Mutex.mk false), 0, none⟩, rfl, rfl, rfl⟩

/-- C16 (the index is in range): in every state reached by `Set` and `MSet`
calls from a map freshly built by either constructor with a hasher `h`, there
is at least one bucket, the number of buckets is the one the constructor made,
and for every key `getIdx(key)` is `int(h(key)) % len(array)`, which is at least
0 and less than `len(array)`; so `Get` and `Set` do not take the out-of-range
return, and `Set(key, val)` does not discard the write: afterwards the chain of
bucket `getIdx(key)` holds a node with the value `val`, and `Get(key)` returns
`(val, true)` when `key == key` (as for every string). -/
theorem index_in_range (V : Type) [Inhabited V] (capacity : Int) (hc : isInt capacity) :
    (∀ (K : Type) [Comparable K] (h : K → Nat) (m0 m : ArrayMap K V)
        (calls : List (Call K V)) (key : K) (val : V),
        NewArrayMapWithHasher V capacity (some h) = .ok m0 →
        m0.run calls = .ok m →
        0 < m.array.length ∧ m.array.length = m0.array.length ∧
        m.getIdx key = .ok (((h key % uint32Mod) % m.array.length : Nat) : Int) ∧
        (∃ idx, m.getIdx key = .ok idx ∧
          ¬ (idx < 0 ∨ idx ≥ (m.array.length : Int))) ∧
        (∃ m1, m.Set key val = .ok m1 ∧
          (∃ t1 k0, m1.array[(h key % uint32Mod) % m.array.length]? = some t1 ∧
            (k0, val) ∈ tuple.toList t1) ∧
          (Comparable.eq key key = true → m1.Get key = .ok (val, true)))) ∧
    (∀ (m0 m : ArrayMap GoString V) (calls : List (Call GoString V)) (key : GoString)
        (val : V),
        NewArrayMap V capacity = .ok m0 →
        m0.run calls = .ok m →
        0 < m.array.length ∧ m.array.length = m0.array.length ∧
        m.getIdx key = .ok (((fnv32 key % uint32Mod) % m.array.length : Nat) : Int) ∧
        (∃ idx, m.getIdx key = .ok idx ∧
          ¬ (idx < 0 ∨ idx ≥ (m.array.length : Int))) ∧
        (∃ m1, m.Set key val = .ok m1 ∧ m1.Get key = .ok (val, true))) := by
  refine ⟨?_, ?_⟩
  · intro K _ h m0 m calls key val hok hrun
    exact fresh_run_index capacity h m0 m hc hok calls hrun key val
  · intro m0 m calls key val hok hrun
    rw [NewArrayMap_eq] at hok
    obtain ⟨h1, h2, h3, h4, m1, hset, _, hget⟩ :=
      fresh_run_index capacity fnv32 m0 m hc hok calls hrun key val
    exact ⟨h1, h2, h3, h4, m1, hset, hget (eq_self_of_identity eqIsIdentity_GoString key)⟩

/-- Witness of C16: with the default hash and capacity 2, after `Set("a",1)`
the index of "b" is `fnv32("b") % 10 = 5`, and `Set("b",2)` is not discarded. -/
theorem index_in_range_witness :
    isInt 2 ∧ ∃ m0 m m1, NewArrayMap Int 2 = .ok m0 ∧ m0.run [Call.set [97] 1] = .ok m ∧
      m.array.length = 10 ∧ m.getIdx [98] = .ok 5 ∧
      m.Set [98] 2 = .ok m1 ∧ m1.Get [98] = .ok (2, true) := by
  refine ⟨by decide, ?_⟩
  have hok : NewArrayMap Int 2 = .ok
      ⟨List.replicate 10 tuple.nil, List.replicate 10 (Mutex.mk false), 0, some fnv32⟩ := rfl
  have hrun : (⟨List.replicate 10 tuple.nil, List.replicate 10 (Mutex.mk false), 0,
      some fnv32⟩ : ArrayMap GoString Int).run [Call.set [97] 1] = .ok
      ⟨[tuple.nil, tuple.nil, tuple.nil, tuple.nil, tuple.nil, tuple.nil,
        tuple.node [97] 1 tuple.nil, tuple.nil, tuple.nil, tuple.nil],
        List.replicate 10 (Mutex.mk false), 1, some fnv32⟩ := rfl
  obtain ⟨_, hlen, hidx, _, m1, hset, hget⟩ :=
    (index_in_range Int 2 (by decide)).2 _ _ _ [98] 2 hok hrun
  exact ⟨_, _, m1, hok, hrun, hlen, hidx, hset, hget⟩

/-- C17 (key uniqueness is an invariant of the single-threaded operations): no
chain of a map freshly built by either constructor holds two nodes with `==`
keys; a `Set` call and an `MSet` call that return, from any state without such
a chain, leave a state without such a chain; and every sequence of `Set` and
`MSet` calls on a freshly built map runs to the end and reaches such a state.
For a key type on which `==` is the identity, as on the strings of
`NewArrayMap`, these are the states in which the keys of every chain are
pairwise distinct.  `Get`, `Has`, `Count`, `IsEmpty` and `Items` do not write to
the map. -/
theorem chains_nodup_invariant (V : Type) [Inhabited V] (capacity : Int)
    (hc : isInt capacity) :
    (∀ (K : Type) [Comparable K] (hasher : Option (K → Nat)) (m0 : ArrayMap K V),
        NewArrayMapWithHasher V capacity hasher = .ok m0 → m0.ChainsNodup) ∧
    (∀ (m0 : ArrayMap GoString V), NewArrayMap V capacity = .ok m0 → m0.ChainsNodup) ∧
    (∀ (K : Type) [Comparable K] (m m1 : ArrayMap K V) (k : K) (v : V),
        m.ChainsNodup → m.Set k v = .ok m1 → m1.ChainsNodup) ∧
    (∀ (K : Type) [Comparable K] (m m1 : ArrayMap K V) (data : List (K × V)),
        m.ChainsNodup → m.MSet data = .ok m1 → m1.ChainsNodup) ∧
    (∀ (K : Type) [Comparable K] (hasher : Option (K → Nat)) (m0 : ArrayMap K V)
        (calls : List (Call K V)),
        NewArrayMapWithHasher V capacity hasher = .ok m0 →
        ∃ m, m0.run calls = .ok m ∧
          ∀ t ∈ m.array, (tuple.keys t).Pairwise (fun a b => Comparable.eq b a = false)) ∧
    (∀ (K : Type) [Comparable K] (m : ArrayMap K V), EqIsIdentity K →
        (m.ChainsNodup ↔ ∀ t ∈ m.array, (tuple.keys t).Nodup)) ∧
    (∀ (m0 : ArrayMap GoString V) (calls : List (Call GoString V)),
        NewArrayMap V capacity = .ok m0 →
        ∃ m, m0.run calls = .ok m ∧ ∀ t ∈ m.array, (tuple.keys t).Nodup) := by
  refine ⟨?_, ?_, ?_, ?_, ?_, ?_, ?_⟩
  · intro K _ hasher m0 hok
    exact (fresh_inv capacity hasher (fun _ => 0) m0 hc hok).1
  · intro m0 hok
    rw [NewArrayMap_eq] at hok
    exact (fresh_inv capacity (some fnv32) fnv32 m0 hc hok).1
  · intro K _ m m1 k v hnd hset
    exact ChainsNodup_Set m m1 k v hnd hset
  · intro K _ m m1 data hnd hrun
    exact ChainsNodup_MSet data m m1 hnd hrun
  · intro K _ hasher m0 calls hok
    exact fresh_run_ChainsNodup capacity hasher m0 hc hok calls
  · intro K _ m hid
    exact ChainsNodup_iff_nodup hid m
  · intro m0 calls hok
    rw [NewArrayMap_eq] at hok
    obtain ⟨m, hrun, hnd⟩ := fresh_run_ChainsNodup capacity (some fnv32) m0 hc hok calls
    exact ⟨m, hrun, (ChainsNodup_iff_nodup eqIsIdentity_GoString m).mp hnd⟩

/-- Witness of C17: with capacity 1 and a hasher that sends every key to bucket
0, after `Set(1,10)`, `MSet` of `2:20, 1:11` and `Set(2,21)` the chain of bucket
0 holds the keys 2 and 1, each once. -/
theorem chains_nodup_invariant_witness :
    isInt 1 ∧ ∃ m0 m, NewArrayMapWithHasher Int 1 (some (fun _ : Nat => 0)) = .ok m0 ∧
      m0.run [Call.set 1 10, Call.mset [(2, 20), (1, 11)], Call.set 2 21] = .ok m ∧
      m.array.head? = some (tuple.node 2 21 (tuple.node 1 11 tuple.nil)) ∧
      (tuple.keys (tuple.node 2 21 (tuple.node 1 11 (tuple.nil : tuple Nat Int)))).Nodup := by
  refine ⟨by decide, ?_⟩
  have hok : NewArrayMapWithHasher Int 1 (some (fun _ : Nat => 0)) = .ok
      ⟨List.replicate 5 tuple.nil, List.replicate 5 (Mutex.mk false), 0,
        some (fun _ : Nat => 0)⟩ := rfl
  obtain ⟨m, hrun, hnd⟩ := (chains_nodup_invariant Int 1 (by decide)).2.2.2.2.1 Nat _ _
    [Call.set 1 10, Call.mset [(2, 20), (1, 11)], Call.set 2 21] hok
  have hrun2 : (⟨List.replicate 5 tuple.nil, List.replicate 5 (Mutex.mk false), 0,
      some (fun _ : Nat => 0)⟩ : ArrayMap Nat Int).run
        [Call.set 1 10, Call.mset [(2, 20), (1, 11)], Call.set 2 21] = .ok
      ⟨tuple.node 2 21 (tuple.node 1 11 tuple.nil) :: List.replicate 4 tuple.nil,
        List.replicate 5 (Mutex.mk false), 2, some (fun _ : Nat => 0)⟩ := rfl
  have hm := hrun
  rw [hrun2] at hm
  cases hm
  exact ⟨_, _, hok, hrun, rfl,
    (pairwise_ne_rev_iff_nodup eqIsIdentity_Nat _).mp (hnd _ (List.mem_cons_self _ _))⟩

/-- C19 (frame of `Set`): in any state, a call `Set(k, v)` that returns leaves
the number of buckets, the mutexes and the hasher as they were (so the bucket
and lock sequences keep their lengths), leaves the chain of every bucket other
than `getIdx(k)` as it was, and in bucket `getIdx(k)` either overwrites the
value of the first node whose key is `==` to `k`, keeping all nodes, their keys
and their order and the counter, or, when no node has a key `==` to `k`, links
one new node `(k, v)` in front of the old chain and adds 1 to the counter.  For
a key type on which `==` is the identity, the node overwritten is the first node
with the key `k`, and a node is linked when no node has the key `k`.  The call
returns in every state of the shape `WF`, and without a hasher it returns the
state unchanged. -/
theorem set_frame (K V : Type) [Comparable K] (m : ArrayMap K V) (k : K) (v : V) :
    (∀ m1, m.Set k v = .ok m1 →
      m1.array.length = m.array.length ∧ m1.ls = m.ls ∧ m1.ls.length = m.ls.length ∧
      m1.idxHasher = m.idxHasher ∧
      (∀ j : Nat, m.getIdx k ≠ .ok (j : Int) → m1.array[j]? = m.array[j]?) ∧
      (∀ (i : Nat) (t : tuple K V), m.getIdx k = .ok (i : Int) → m.array[i]? = some t →
        ∃ t1, m1.array[i]? = some t1 ∧
          ((∃ (pre : List (K × V)) (k0 : K) (v0 : V) (post : List (K × V)),
              tuple.toList t = pre ++ (k0, v0) :: post ∧ Comparable.eq k0 k = true ∧
              (∀ p ∈ pre, Comparable.eq p.1 k = false) ∧
              tuple.toList t1 = pre ++ (k0, v) :: post ∧ m1.size = m.size) ∨
            ((∀ p ∈ tuple.toList t, Comparable.eq p.1 k = false) ∧ t1 = tuple.node k v t ∧
              m1.size = wrapInt32 (m.size + 1)))) ∧
      (EqIsIdentity K →
        ∀ (i : Nat) (t : tuple K V), m.getIdx k = .ok (i : Int) → m.array[i]? = some t →
        ∃ t1, m1.array[i]? = some t1 ∧
          ((∃ (pre : List (K × V)) (v0 : V) (post : List (K × V)),
              tuple.toList t = pre ++ (k, v0) :: post ∧ k ∉ pre.map Prod.fst ∧
              tuple.toList t1 = pre ++ (k, v) :: post ∧ m1.size = m.size) ∨
            (k ∉ (tuple.toList t).map Prod.fst ∧ t1 = tuple.node k v t ∧
              m1.size = wrapInt32 (m.size + 1))))) ∧
    (∀ h, m.WF h → ∃ m1, m.Set k v = .ok m1) ∧
    (m.idxHasher = none → m.Set k v = .ok m) := by
  refine ⟨?_, ?_, ?_⟩
  · intro m1 hset
    obtain ⟨h1, h2, h3, h4, h5⟩ := Set_frame m m1 k v hset
    exact ⟨h1, h2, by rw [h2], h3, h4, h5, fun hid => Set_frame_id hid m m1 k v hset⟩
  · intro h hwf
    exact ⟨_, Set_eq m h k v hwf⟩
  · intro hh
    exact Set_nil m k v hh

/-- Witness of C19: with two buckets and a hasher that sends every key to
bucket 1, `Set(2, 21)` on a state whose bucket 1 holds the keys 3, 2, 1
overwrites the value of the node with key 2 and leaves bucket 0 as it was. -/
theorem set_frame_witness :
    ∃ m1, (⟨[tuple.node 8 80 tuple.nil,
        tuple.node 3 30 (tuple.node 2 20 (tuple.node 1 10 tuple.nil))],
        [Mutex.mk false, Mutex.mk false], 4, some (fun _ : Nat => 1)⟩ :
        ArrayMap Nat Int).Set 2 21 = .ok m1 ∧
      m1.array.length = 2 ∧ m1.array[0]? = some (tuple.node 8 80 tuple.nil) ∧
      m1.array[1]? = some (tuple.node 3 30 (tuple.node 2 21 (tuple.node 1 10 tuple.nil))) ∧
      m1.size = 4 := by
  have hset : (⟨[tuple.node 8 80 tuple.nil,
      tuple.node 3 30 (tuple.node 2 20 (tuple.node 1 10 tuple.nil))],
      [Mutex.mk false, Mutex.mk false], 4, some (fun _ : Nat => 1)⟩ :
      ArrayMap Nat Int).Set 2 21 = .ok
      ⟨[tuple.node 8 80 tuple.nil,
        tuple.node 3 30 (tuple.node 2 21 (tuple.node 1 10 tuple.nil))],
        [Mutex.mk false, Mutex.mk false], 4, some (fun _ : Nat => 1)⟩ := rfl
  obtain ⟨hlen, _, _, _, hother, _⟩ := (set_frame Nat Int _ 2 21).1 _ hset
  exact ⟨_, hset, hlen, hother 0 (fun e => by cases e), rfl, rfl⟩

/-- C18, as the code has it (counter invariant): in every state reached by
`Set` and `MSet` calls from a map freshly built by either constructor, the
number of nodes over all chains is the number of `Set` calls that took the
prepending path, and the counter is that number wrapped to a 32-bit signed
integer (the number itself while it is at most 2147483647); a further `Set`
returns, leaves the counter and the nodes as they are when it does not take the
prepending path, and when it does, adds one node and adds 1 to the counter with
32-bit wrap-around (exactly 1 while the counter is below 2147483647). -/
theorem counter_invariant (V : Type) [Inhabited V] (capacity : Int) (hc : isInt capacity) :
    (∀ (K : Type) [Comparable K] (hasher : Option (K → Nat)) (m0 : ArrayMap K V)
        (calls : List (Call K V)),
        NewArrayMapWithHasher V capacity hasher = .ok m0 →
        ∃ m, m0.run calls = .ok m ∧
          m.nodeCount = m0.prependCount (pairsOf calls) ∧
          m.Count = wrapInt32 (m.nodeCount : Int) ∧
          (m.nodeCount ≤ 2147483647 → m.Count = (m.nodeCount : Int)) ∧
          ∀ (k : K) (v : V), ∃ m1, m.Set k v = .ok m1 ∧
            (m.takesPrepend k = false → m1.Count = m.Count ∧ m1.nodeCount = m.nodeCount) ∧
            (m.takesPrepend k = true →
              m1.Count = wrapInt32 (m.Count + 1) ∧ m1.nodeCount = m.nodeCount + 1 ∧
              (m.Count < 2147483647 → m1.Count = m.Count + 1))) ∧
    (∀ (m0 : ArrayMap GoString V) (calls : List (Call GoString V)),
        NewArrayMap V capacity = .ok m0 →
        ∃ m, m0.run calls = .ok m ∧
          m.nodeCount = m0.prependCount (pairsOf calls) ∧
          m.Count = wrapInt32 (m.nodeCount : Int) ∧
          (m.nodeCount ≤ 2147483647 → m.Count = (m.nodeCount : Int)) ∧
          ∀ (k : GoString) (v : V), ∃ m1, m.Set k v = .ok m1 ∧
            (m.takesPrepend k = false → m1.Count = m.Count ∧ m1.nodeCount = m.nodeCount) ∧
            (m.takesPrepend k = true →
              m1.Count = wrapInt32 (m.Count + 1) ∧ m1.nodeCount = m.nodeCount + 1 ∧
              (m.Count < 2147483647 → m1.Count = m.Count + 1))) := by
  refine ⟨?_, ?_⟩
  · intro K _ hasher m0 calls hok
    exact fresh_run_counter capacity hasher m0 hc hok calls
  · intro m0 calls hok
    rw [NewArrayMap_eq] at hok
    exact fresh_run_counter capacity (some fnv32) m0 hc hok calls

/-- Witness of C18: with the default hash and capacity 2, after `Set("a",1)`,
`Set("b",2)`, `Set("a",3)` two calls have prepended, there are two nodes and
`Count() = 2`. -/
theorem counter_invariant_witness :
    isInt 2 ∧ ∃ m0 m, NewArrayMap Int 2 = .ok m0 ∧
      m0.run [Call.set [97] 1, Call.set [98] 2, Call.set [97] 3] = .ok m ∧
      m0.prependCount [([97], 1), ([98], 2), ([97], 3)] = 2 ∧ m.nodeCount = 2 ∧
      m.Count = 2 := by
  refine ⟨by decide, ?_⟩
  have hok : NewArrayMap Int 2 = .ok
      ⟨List.replicate 10 tuple.nil, List.replicate 10 (Mutex.mk false), 0, some fnv32⟩ := rfl
  obtain ⟨m, hrun, hnc, _, hcount, _⟩ := (counter_invariant Int 2 (by decide)).2 _
    [Call.set [97] 1, Call.set [98] 2, Call.set [97] 3] hok
  have hp : (⟨List.replicate 10 tuple.nil, List.replicate 10 (Mutex.mk false), 0,
      some fnv32⟩ : ArrayMap GoString Int).prependCount
        [([97], 1), ([98], 2), ([97], 3)] = 2 := by decide
  have hnc2 : m.nodeCount = 2 := by rw [hnc]; exact hp
  refine ⟨_, m, hok, hrun, hp, hnc2, ?_⟩
  rw [hcount (by omega), hnc2]
  rfl

/-- Counterexample to C18 as stated: on the map built by
`NewArrayMapWithHasher(429496730, h)` with `h(k) = uint32(k)`, after one `Set`
call for each of the keys `0, 1, ..., 2147483647` there are 2147483648 nodes
and the counter is -2147483648. -/
theorem counter_invariant_counterexample :
    ∃ m0 m, NewArrayMapWithHasher Unit 429496730 (some (fun k : Nat => k)) = .ok m0 ∧
      m0.run (setCalls ((List.range 2147483648).map (fun k => (k, ())))) = .ok m ∧
      m.nodeCount = 2147483648 ∧ m.Count = -2147483648 ∧
      m.Count ≠ (m.nodeCount : Int) := by
  have hok := @NewArrayMapWithHasher_small Nat Unit 429496730 (some (fun k : Nat => k))
    (by decide) (by decide)
  have hnd : (((List.range 2147483648).map (fun k => (k, ()))).map Prod.fst).Nodup := by
    rw [map_fst_range_pairs]
    exact List.nodup_range _
  have hlen : ((List.range 2147483648).map (fun k => (k, ()))).length = 2147483648 := by
    rw [List.length_map, List.length_range]
  obtain ⟨m, hrun, hnc, _, hcount⟩ :=
    fresh_distinct_counts eqIsIdentity_Nat 429496730 _ _ (by decide) hok _ hnd
  rw [hlen] at hnc hcount
  have hval : wrapInt32 ((2147483648 : Nat) : Int) = -2147483648 := by decide
  rw [hval] at hcount
  refine ⟨_, m, hok, hrun, hnc, hcount, ?_⟩
  rw [hcount, hnc]
  decide

/-- C20, as the code has it (placement invariant): in every state reached by
`Set` and `MSet` calls from a map freshly built by either constructor with a
hasher, every node in the chain of bucket `i` has a key `k` with
`getIdx(k) = i`, `Get(k)` finds it when `k == k`, and `Count()` is the number of
nodes wrapped to a 32-bit signed integer.  When `==` on the key type is
symmetric and transitive and the hasher gives `==` keys the same hash, no two
nodes of the map have `==` keys, `len(Items())` is the number of nodes, and
`Count()` is `len(Items())` while there are at most 2147483647 nodes.  On a map
built by `NewArrayMap`, whose keys are strings, all of this holds and `Get`
finds every stored key. -/
theorem placement_invariant (V : Type) [Inhabited V] (capacity : Int) (hc : isInt capacity) :
    (∀ (K : Type) [Comparable K] (h : K → Nat) (m0 : ArrayMap K V)
        (calls : List (Call K V)),
        NewArrayMapWithHasher V capacity (some h) = .ok m0 →
        ∃ m, m0.run calls = .ok m ∧
          (∀ (i : Nat) (t : tuple K V), m.array[i]? = some t → ∀ k ∈ tuple.keys t,
            m.getIdx k = .ok (i : Int) ∧
            (Comparable.eq k k = true → ∃ v, m.Get k = .ok (v, true))) ∧
          m.Count = wrapInt32 (m.nodeCount : Int) ∧
          (EqLaws K → HashRespectsEq h →
            m.allKeys.Pairwise (fun a b => Comparable.eq a b = false) ∧
            GoMap.len m.Items = m.nodeCount ∧
            m.Count = wrapInt32 (GoMap.len m.Items : Int) ∧
            (GoMap.len m.Items ≤ 2147483647 → m.Count = (GoMap.len m.Items : Int)))) ∧
    (∀ (m0 : ArrayMap GoString V) (calls : List (Call GoString V)),
        NewArrayMap V capacity = .ok m0 →
        ∃ m, m0.run calls = .ok m ∧
          (∀ (i : Nat) (t : tuple GoString V), m.array[i]? = some t → ∀ k ∈ tuple.keys t,
            m.getIdx k = .ok (i : Int) ∧ ∃ v, m.Get k = .ok (v, true)) ∧
          m.allKeys.Nodup ∧
          GoMap.len m.Items = m.nodeCount ∧
          m.Count = wrapInt32 (GoMap.len m.Items : Int) ∧
          (GoMap.len m.Items ≤ 2147483647 → m.Count = (GoMap.len m.Items : Int))) := by
  refine ⟨?_, ?_⟩
  · intro K _ h m0 calls hok
    exact fresh_run_placement capacity h m0 hc hok calls
  · intro m0 calls hok
    rw [NewArrayMap_eq] at hok
    exact fresh_run_placement_id eqIsIdentity_GoString capacity fnv32 m0 hc hok calls

/-- Witness of C20: with the default hash and capacity 1, after `Set("a",1)`,
`Set("f",2)`, `Set("a",3)` the keys "f" and "a" share bucket 1, the snapshot has
2 entries and `Count() = 2`; and with `float64` keys, capacity 1 and a constant
hasher, after `Set(+0.0, 1)`, `Set(-0.0, 2)`, `Set(1.5, 3)` the snapshot has 2
entries and `Count() = 2`. -/
theorem placement_invariant_witness :
    isInt 1 ∧ (∃ m0 m, NewArrayMap Int 1 = .ok m0 ∧
      m0.run [Call.set [97] 1, Call.set [102] 2, Call.set [97] 3] = .ok m ∧
      m.array[1]? = some (tuple.node [102] 2 (tuple.node [97] 3 tuple.nil)) ∧
      m.getIdx [97] = .ok 1 ∧ GoMap.len m.Items = 2 ∧ m.Count = 2) ∧
    (∃ m0 m, NewArrayMapWithHasher Int 1 (some (fun _ : Float64 => 0)) = .ok m0 ∧
      m0.run [Call.set (Float64.mk 0) 1, Call.set (Float64.mk 9223372036854775808) 2,
        Call.set (Float64.mk 4609434218613702656) 3] = .ok m ∧
      GoMap.len m.Items = 2 ∧ m.Count = 2) := by
  have hok : NewArrayMap Int 1 = .ok
      ⟨List.replicate 5 tuple.nil, List.replicate 5 (Mutex.mk false), 0, some fnv32⟩ := rfl
  obtain ⟨m, hrun, hplaced, _, _, _, hcount⟩ := (placement_invariant Int 1 (by decide)).2
    _ [Call.set [97] 1, Call.set [102] 2, Call.set [97] 3] hok
  have hrun2 : (⟨List.replicate 5 tuple.nil, List.replicate 5 (Mutex.mk false), 0,
      some fnv32⟩ : ArrayMap GoString Int).run
        [Call.set [97] 1, Call.set [102] 2, Call.set [97] 3] = .ok
      ⟨[tuple.nil, tuple.node [102] 2 (tuple.node [97] 3 tuple.nil), tuple.nil, tuple.nil,
        tuple.nil], List.replicate 5 (Mutex.mk false), 2, some fnv32⟩ := rfl
  have hm := hrun
  rw [hrun2] at hm
  cases hm
  have harr : (⟨[tuple.nil, tuple.node [102] 2 (tuple.node [97] 3 tuple.nil), tuple.nil,
      tuple.nil, tuple.nil], List.replicate 5 (Mutex.mk false), 2,
      some fnv32⟩ : ArrayMap GoString Int).array[1]? =
      some (tuple.node [102] 2 (tuple.node [97] 3 tuple.nil)) := rfl
  have hlen : GoMap.len (⟨[tuple.nil, tuple.node [102] 2 (tuple.node [97] 3 tuple.nil),
      tuple.nil, tuple.nil, tuple.nil], List.replicate 5 (Mutex.mk false), 2,
      some fnv32⟩ : ArrayMap GoString Int).Items = 2 := rfl
  have hok2 : NewArrayMapWithHasher Int 1 (some (fun _ : Float64 => 0)) = .ok
      ⟨List.replicate 5 tuple.nil, List.replicate 5 (Mutex.mk false), 0,
        some (fun _ : Float64 => 0)⟩ := rfl
  obtain ⟨m2, hrunf, _, _, hrest⟩ := (placement_invariant Int 1 (by decide)).1 Float64 _ _
    [Call.set (Float64.mk 0) 1, Call.set (Float64.mk 9223372036854775808) 2,
      Call.set (Float64.mk 4609434218613702656) 3] hok2
  obtain ⟨_, _, _, hcountf⟩ := hrest eqLaws_Float64 (hashRespectsEq_const 0)
  have hrunf2 : (⟨List.replicate 5 tuple.nil, List.replicate 5 (Mutex.mk false), 0,
      some (fun _ : Float64 => 0)⟩ : ArrayMap Float64 Int).run
        [Call.set (Float64.mk 0) 1, Call.set (Float64.mk 9223372036854775808) 2,
          Call.set (Float64.mk 4609434218613702656) 3] = .ok
      ⟨tuple.node (Float64.mk 4609434218613702656) 3 (tuple.node (Float64.mk 0) 2 tuple.nil) ::
        List.replicate 4 tuple.nil, List.replicate 5 (Mutex.mk false), 2,
        some (fun _ : Float64 => 0)⟩ := rfl
  have hmf := hrunf
  rw [hrunf2] at hmf
  cases hmf
  have hlenf : GoMap.len (⟨tuple.node (Float64.mk 4609434218613702656) 3
      (tuple.node (Float64.mk 0) 2 tuple.nil) :: List.replicate 4 tuple.nil,
      List.replicate 5 (Mutex.mk false), 2,
      some (fun _ : Float64 => 0)⟩ : ArrayMap Float64 Int).Items = 2 := rfl
  refine ⟨by decide, ⟨_, _, hok, hrun, harr, (hplaced 1 _ harr [97] (by decide)).1, hlen, ?_⟩,
    ⟨_, _, hok2, hrunf, hlenf, ?_⟩⟩
  · rw [hcount (by rw [hlen]; decide), hlen]
    rfl
  · rw [hcountf (by rw [hlenf]; decide), hlenf]
    rfl

/-- Counterexample to C20 as stated, in three parts.  On the map built by
`NewArrayMapWithHasher(429496730, h)` with `h(k) = uint32(k)`, after one `Set`
call for each of the keys `0, 1, ..., 2147483647` the snapshot `Items()` has
2147483648 entries and `Count()` is -2147483648.  With `float64` keys, capacity
1 and a constant hasher, after `Set(NaN, 1)` the key NaN is stored in bucket
`getIdx(NaN) = 0` and `Get(NaN)` returns `(0, false)`.  With `float64` keys,
capacity 1 and the hasher that returns the upper 32 bits of the key, after
`Set(+0.0, 1)` and `Set(-0.0, 2)` there are two nodes, in the buckets 0 and 3,
`Count()` is 2 and `Items()` has one entry. -/
theorem placement_invariant_counterexample :
    (∃ m0 m, NewArrayMapWithHasher Unit 429496730 (some (fun k : Nat => k)) = .ok m0 ∧
      m0.run (setCalls ((List.range 2147483648).map (fun k => (k, ())))) = .ok m ∧
      GoMap.len m.Items = 2147483648 ∧ m.Count = -2147483648 ∧
      (GoMap.len m.Items : Int) ≠ m.Count) ∧
    (∃ m0 m, NewArrayMapWithHasher Int 1 (some (fun _ : Float64 => 0)) = .ok m0 ∧
      m0.run [Call.set Float64.NaN 1] = .ok m ∧
      m.array[0]? = some (tuple.node Float64.NaN 1 tuple.nil) ∧
      m.getIdx Float64.NaN = .ok 0 ∧ m.Get Float64.NaN = .ok (0, false)) ∧
    (∃ m0 m, NewArrayMapWithHasher Int 1
        (some (fun x : Float64 => x.bits / 4294967296)) = .ok m0 ∧
      m0.run [Call.set (Float64.mk 0) 1, Call.set (Float64.mk 9223372036854775808) 2] =
        .ok m ∧
      m.array = [tuple.node (Float64.mk 0) 1 tuple.nil, tuple.nil, tuple.nil,
        tuple.node (Float64.mk 9223372036854775808) 2 tuple.nil, tuple.nil] ∧
      m.Count = 2 ∧ m.Items = [(Float64.mk 9223372036854775808, 2)] ∧
      GoMap.len m.Items = 1) := by
  have hok := @NewArrayMapWithHasher_small Nat Unit 429496730 (some (fun k : Nat => k))
    (by decide) (by decide)
  have hnd : (((List.range 2147483648).map (fun k => (k, ()))).map Prod.fst).Nodup := by
    rw [map_fst_range_pairs]
    exact List.nodup_range _
  have hlen : ((List.range 2147483648).map (fun k => (k, ()))).length = 2147483648 := by
    rw [List.length_map, List.length_range]
  obtain ⟨m, hrun, _, hitems, hcount⟩ :=
    fresh_distinct_counts eqIsIdentity_Nat 429496730 _ _ (by decide) hok _ hnd
  rw [hlen] at hitems hcount
  have hval : wrapInt32 ((2147483648 : Nat) : Int) = -2147483648 := by decide
  rw [hval] at hcount
  refine ⟨⟨_, m, hok, hrun, hitems, hcount, ?_⟩,
    ⟨⟨List.replicate 5 tuple.nil, List.replicate 5 (Mutex.mk false), 0,
        some (fun _ : Float64 => 0)⟩,
      ⟨tuple.node Float64.NaN 1 tuple.nil :: List.replicate 4 tuple.nil,
        List.replicate 5 (Mutex.mk false), 1, some (fun _ : Float64 => 0)⟩,
      rfl, rfl, rfl, rfl, rfl⟩,
    ⟨⟨List.replicate 5 tuple.nil, List.replicate 5 (Mutex.mk false), 0,
        some (fun x : Float64 => x.bits / 4294967296)⟩,
      ⟨[tuple.node (Float64.mk 0) 1 tuple.nil, tuple.nil, tuple.nil,
        tuple.node (Float64.mk 9223372036854775808) 2 tuple.nil, tuple.nil],
        List.replicate 5 (Mutex.mk false), 2,
        some (fun x : Float64 => x.bits / 4294967296)⟩,
      rfl, rfl, rfl, rfl, rfl, rfl⟩⟩
  rw [hcount, hitems]
  decide

/-- C14 fails on the code: the comment on `NewArrayMap` says that the capacity
"decides the MAX elements this array-map can deal with", and `Set` never
compares the counter with the capacity.  On the map built by
`NewArrayMap[int](1)`, which has 5 buckets, after `Set("a",1)` and `Set("b",2)`
the keys are in the buckets 1 and 0 and `Count()` is 2, which exceeds the
capacity 1. -/
theorem count_exceeds_capacity :
    ∃ m0 m, NewArrayMap Int 1 = .ok m0 ∧ m0.array.length = 5 ∧
      m0.run (setCalls [([97], 1), ([98], 2)]) = .ok m ∧
      m.array = [tuple.node [98] 2 tuple.nil, tuple.node [97] 1 tuple.nil, tuple.nil,
        tuple.nil, tuple.nil] ∧
      m.Count = 2 ∧ 1 < m.Count :=
  ⟨⟨List.replicate 5 tuple.nil, List.replicate 5 (Mutex.mk false), 0, some fnv32⟩,
    ⟨[tuple.node [98] 2 tuple.nil, tuple.node [97] 1 tuple.nil, tuple.nil, tuple.nil,
      tuple.nil], List.replicate 5 (Mutex.mk false), 2, some fnv32⟩, rfl, rfl, rfl, rfl, rfl,
    by decide⟩

/-- C13, as the code has it: `MSet(data)` is one `Set` call per pair.  In every
state reached by `Set` and `MSet` calls from a map freshly built by
`NewArrayMapWithHasher` for a key type whose `==` is symmetric and transitive,
with a hasher that gives `==` keys the same hash, for every order in which the
pairs of `data` (a Go map: no two of its keys are `==`) are visited `MSet`
returns; afterwards `Get(k) = (v, true)` for every key `k` that is `==` to the
key of a pair `(k0, v)` of `data`, `Get` is unchanged on every key that is `==`
to no key of `data`, and `Count()` has grown by the number of keys of `data`
that were missing before, with 32-bit wrap-around (exactly that number while
the sum is at most 2147483647); every order gives the same `Get`, `Items` and
`Count` results.  On a map built by `NewArrayMap`, whose keys are strings,
`Get(k) = (data[k], true)` for every key `k` of `data` and `Get` is unchanged on
every other key. -/
theorem mset_order_independent (V : Type) [Inhabited V] (capacity : Int)
    (hc : isInt capacity) :
    (∀ (K : Type) [Comparable K] (h : K → Nat) (m0 m : ArrayMap K V)
        (calls : List (Call K V)) (data data2 : List (K × V)),
        EqLaws K → HashRespectsEq h →
        NewArrayMapWithHasher V capacity (some h) = .ok m0 →
        m0.run calls = .ok m →
        (data.map Prod.fst).Pairwise (fun a b => Comparable.eq a b = false) →
        data2.Perm data →
        ∃ m1 m2, m.MSet data = .ok m1 ∧ m.MSet data2 = .ok m2 ∧
          m.MSet data = m.run (setCalls data) ∧
          (∀ (k0 k : K) (v : V), (k0, v) ∈ data → Comparable.eq k0 k = true →
            m1.Get k = .ok (v, true)) ∧
          (∀ k, (∀ p ∈ data, Comparable.eq p.1 k = false) → m1.Get k = m.Get k) ∧
          m1.Count =
            wrapInt32 (m.Count + ((data.filter (fun p => !m.present p.1)).length : Int)) ∧
          (m.Count + ((data.filter (fun p => !m.present p.1)).length : Int) ≤ 2147483647 →
            m1.Count =
              m.Count + ((data.filter (fun p => !m.present p.1)).length : Int)) ∧
          (∀ k, m2.Get k = m1.Get k) ∧
          (∀ k, GoMap.lookup m2.Items k = GoMap.lookup m1.Items k) ∧
          m2.Count = m1.Count) ∧
    (∀ (m0 m : ArrayMap GoString V) (calls : List (Call GoString V))
        (data data2 : List (GoString × V)),
        NewArrayMap V capacity = .ok m0 →
        m0.run calls = .ok m →
        (data.map Prod.fst).Nodup → data2.Perm data →
        ∃ m1 m2, m.MSet data = .ok m1 ∧ m.MSet data2 = .ok m2 ∧
          m.MSet data = m.run (setCalls data) ∧
          (∀ (k : GoString) (v : V), (k, v) ∈ data → m1.Get k = .ok (v, true)) ∧
          (∀ k, k ∉ data.map Prod.fst → m1.Get k = m.Get k) ∧
          m1.Count =
            wrapInt32 (m.Count + ((data.filter (fun p => !m.present p.1)).length : Int)) ∧
          (m.Count + ((data.filter (fun p => !m.present p.1)).length : Int) ≤ 2147483647 →
            m1.Count =
              m.Count + ((data.filter (fun p => !m.present p.1)).length : Int)) ∧
          (∀ k, m2.Get k = m1.Get k) ∧
          (∀ k, GoMap.lookup m2.Items k = GoMap.lookup m1.Items k) ∧
          m2.Count = m1.Count) := by
  refine ⟨?_, ?_⟩
  · intro K _ h m0 m calls data data2 laws hh hok hrun hdata hperm
    exact fresh_run_MSet laws capacity h hh m0 m hc hok calls hrun data data2 hdata hperm
  · intro m0 m calls data data2 hok hrun hdata hperm
    rw [NewArrayMap_eq] at hok
    exact fresh_run_MSet_id eqIsIdentity_GoString capacity fnv32 m0 m hc hok calls hrun
      data data2 hdata hperm

/-- Witness of C13: with the default hash and capacity 1, from the state after
`Set("a",10)`, `MSet` of `"a":11, "f":20, "b":30` in that order and in the order
`"b":30, "a":11, "f":20` both leave `Get("a") = (11, true)` and `Count() = 3`
("a" and "f" share bucket 1); and with `float64` keys, capacity 1 and a
constant hasher, from the state after `Set(+0.0, 10)`, `MSet` of
`-0.0:11, 1.5:20` leaves `Get(+0.0) = (11, true)` and `Count() = 2`. -/
theorem mset_order_independent_witness :
    isInt 1 ∧ (∃ m0 m m1 m2, NewArrayMap Int 1 = .ok m0 ∧
      m0.run [Call.set [97] 10] = .ok m ∧
      m.MSet [([97], 11), ([102], 20), ([98], 30)] = .ok m1 ∧
      m.MSet [([98], 30), ([97], 11), ([102], 20)] = .ok m2 ∧
      m1.Get [97] = .ok (11, true) ∧ m2.Get [97] = .ok (11, true) ∧ m1.Count = 3 ∧
      m2.Count = 3) ∧
    (∃ m0 m m1, NewArrayMapWithHasher Int 1 (some (fun _ : Float64 => 0)) = .ok m0 ∧
      m0.run [Call.set (Float64.mk 0) 10] = .ok m ∧
      m.MSet [(Float64.mk 9223372036854775808, 11), (Float64.mk 4609434218613702656, 20)] =
        .ok m1 ∧
      m1.Get (Float64.mk 0) = .ok (11, true) ∧ m1.Count = 2) := by
  have hok : NewArrayMap Int 1 = .ok
      ⟨List.replicate 5 tuple.nil, List.replicate 5 (Mutex.mk false), 0, some fnv32⟩ := rfl
  have hrun : (⟨List.replicate 5 tuple.nil, List.replicate 5 (Mutex.mk false), 0,
      some fnv32⟩ : ArrayMap GoString Int).run [Call.set [97] 10] = .ok
      ⟨[tuple.nil, tuple.node [97] 10 tuple.nil, tuple.nil, tuple.nil, tuple.nil],
        List.replicate 5 (Mutex.mk false), 1, some fnv32⟩ := rfl
  have hperm : [(([98] : GoString), (30 : Int)), ([97], 11), ([102], 20)].Perm
      [([97], 11), ([102], 20), ([98], 30)] := by
    decide
  obtain ⟨m1, m2, h1, h2, _, hget, _, _, hcount, hgets, _, hcounts⟩ :=
    (mset_order_independent Int 1 (by decide)).2 _ _ [Call.set [97] 10]
      [([97], 11), ([102], 20), ([98], 30)] [([98], 30), ([97], 11), ([102], 20)] hok hrun
      (by decide) hperm
  have hg1 := hget [97] 11 (by decide)
  have hc1 : m1.Count = 3 := by
    rw [hcount (by decide)]
    decide
  have hok2 : NewArrayMapWithHasher Int 1 (some (fun _ : Float64 => 0)) = .ok
      ⟨List.replicate 5 tuple.nil, List.replicate 5 (Mutex.mk false), 0,
        some (fun _ : Float64 => 0)⟩ := rfl
  have hrunf : (⟨List.replicate 5 tuple.nil, List.replicate 5 (Mutex.mk false), 0,
      some (fun _ : Float64 => 0)⟩ : ArrayMap Float64 Int).run
        [Call.set (Float64.mk 0) 10] = .ok
      ⟨tuple.node (Float64.mk 0) 10 tuple.nil :: List.replicate 4 tuple.nil,
        List.replicate 5 (Mutex.mk false), 1, some (fun _ : Float64 => 0)⟩ := rfl
  obtain ⟨f1, _, hf1, _, _, hgetf, _, _, hcountf, _⟩ :=
    (mset_order_independent Int 1 (by decide)).1 Float64 _ _ _ [Call.set (Float64.mk 0) 10]
      [(Float64.mk 9223372036854775808, 11), (Float64.mk 4609434218613702656, 20)]
      [(Float64.mk 9223372036854775808, 11), (Float64.mk 4609434218613702656, 20)]
      eqLaws_Float64 (hashRespectsEq_const 0) hok2 hrunf (by decide) (List.Perm.refl _)
  have hgf := hgetf (Float64.mk 9223372036854775808) (Float64.mk 0) 11 (by decide) (by decide)
  have hcf : f1.Count = 2 := by
    rw [hcountf (by decide)]
    decide
  exact ⟨by decide, ⟨_, _, m1, m2, hok, hrun, h1, h2, hg1, by rw [hgets [97], hg1], hc1,
    by rw [hcounts, hc1]⟩, ⟨_, _, f1, hok2, hrunf, hf1, hgf, hcf⟩⟩

/-- Counterexample to C13 as stated, in three parts.
`NewArrayMapWithHasher(1, nil)` returns a map on which `MSet` of `7:1` returns
without effect, so `Get(7)` is `(0, false)`, not `(1, true)`.  On a map with a
hasher that holds 2147483647 entries, `MSet` of one missing key leaves
`Count() = -2147483648`, which is not one more than before.  With `float64`
keys, capacity 1 and a constant hasher, after `MSet` of `NaN:1` the pair is
stored and `Get(NaN)` is `(0, false)`, not `(1, true)`. -/
theorem mset_order_independent_counterexample :
    (∃ m0 m1 : ArrayMap Nat Int, NewArrayMapWithHasher Int 1 none = .ok m0 ∧
      m0.run [] = .ok m0 ∧ m0.MSet [(7, 1)] = .ok m1 ∧
      m1.Get 7 = .ok (0, false) ∧ m1.Get 7 ≠ .ok (1, true)) ∧
    (∃ m0 m m1, NewArrayMapWithHasher Unit 429496730 (some (fun k : Nat => k)) = .ok m0 ∧
      m0.run (setCalls ((List.range 2147483647).map (fun k => (k, ())))) = .ok m ∧
      m.Count = 2147483647 ∧ m.Get 2147483647 = .ok ((), false) ∧
      m.MSet [(2147483647, ())] = .ok m1 ∧ m1.Count = -2147483648) ∧
    (∃ m0 m1, NewArrayMapWithHasher Int 1 (some (fun _ : Float64 => 0)) = .ok m0 ∧
      m0.run [] = .ok m0 ∧ m0.MSet [(Float64.NaN, 1)] = .ok m1 ∧
      m1.array.head? = some (tuple.node Float64.NaN 1 tuple.nil) ∧
      m1.Get Float64.NaN = .ok (0, false) ∧ m1.Get Float64.NaN ≠ .ok (1, true)) := by
  refine ⟨⟨⟨List.replicate 5 tuple.nil, List.replicate 5 (Mutex.mk false), 0, none⟩,
    ⟨List.replicate 5 tuple.nil, List.replicate 5 (Mutex.mk false), 0, none⟩,
    rfl, rfl, rfl, rfl, ?_⟩, MSet_wraps,
    ⟨⟨List.replicate 5 tuple.nil, List.replicate 5 (Mutex.mk false), 0,
        some (fun _ : Float64 => 0)⟩,
      ⟨tuple.node Float64.NaN 1 tuple.nil :: List.replicate 4 tuple.nil,
        List.replicate 5 (Mutex.mk false), 1, some (fun _ : Float64 => 0)⟩,
      rfl, rfl, rfl, rfl, rfl, ?_⟩⟩
  · intro e
    have e2 : (Except.ok ((0 : Int), false) : Except Failure (Int × Bool)) =
        Except.ok (1, true) := e
    simp at e2
  · intro e
    have e2 : (Except.ok ((0 : Int), false) : Except Failure (Int × Bool)) =
        Except.ok (1, true) := e
    simp at e2

/-- C15 fails on the code: two goroutines call `Set("x", 1)` on the map built by
`NewArrayMap[int](2)`.  When both run the unlocked loop before either takes the
mutex of the bucket, both miss, and each then increments the counter and links
a node: all calls have returned, one distinct key has been inserted, the chain
of bucket 3 holds two nodes with the key "x" and `Count()` is 2.  When one call
returns before the other starts, `Count()` is 1. -/
theorem concurrent_same_key_counted_twice :
    ∃ m0 s s2, NewArrayMap Int 2 = .ok m0 ∧
      (Shared.mk m0 [Goroutine.called [120] 1, Goroutine.called [120] 1]).interleave
        [0, 1, 0, 1] = .ok s ∧
      s.gs = [Goroutine.returned, Goroutine.returned] ∧
      s.m.array[3]? = some (tuple.node [120] 1 (tuple.node [120] 1 tuple.nil)) ∧
      s.m.Count = 2 ∧ ([[120], [120]] : List GoString).dedup.length = 1 ∧
      (Shared.mk m0 [Goroutine.called [120] 1, Goroutine.called [120] 1]).interleave
        [0, 0, 1, 1] = .ok s2 ∧
      s2.gs = [Goroutine.returned, Goroutine.returned] ∧ s2.m.Count = 1 :=
  ⟨⟨List.replicate 10 tuple.nil, List.replicate 10 (Mutex.mk false), 0, some fnv32⟩,
    ⟨⟨[tuple.nil, tuple.nil, tuple.nil,
      tuple.node [120] 1 (tuple.node [120] 1 tuple.nil), tuple.nil, tuple.nil, tuple.nil,
      tuple.nil, tuple.nil, tuple.nil], List.replicate 10 (Mutex.mk false), 2, some fnv32⟩,
      [Goroutine.returned, Goroutine.returned]⟩,
    ⟨⟨[tuple.nil, tuple.nil, tuple.nil, tuple.node [120] 1 tuple.nil, tuple.nil, tuple.nil,
      tuple.nil, tuple.nil, tuple.nil, tuple.nil], List.replicate 10 (Mutex.mk false), 1,
      some fnv32⟩, [Goroutine.returned, Goroutine.returned]⟩,
    rfl, rfl, rfl, rfl, rfl, by decide, rfl, rfl, rfl⟩

end Main

end ArrMap
